import Mathlib

/-!
# SimpleVector: a shallow embedding of `simple_vector.h` / `array_ptr.h`

The heap block owned by an `ArrayPtr<Type>` is a `List α` holding one value per
allocated slot (the null pointer is the empty block).  Pointers into a block are
integer offsets from its first slot, so that `begin() - 1` is expressible.  A
slot access outside the block is undefined behaviour in C++; the embedding
reports it as `none` (or `Outcome.undefined`) instead of inventing a value.

Conventions:
* `size_t` values are natural numbers, and a `new Type[n]` asked for `n ≥ 0` elements
  succeeds.  `ArrayPtr(int size)` receives its `size_t` argument converted to `int`
  (32 bits, two's complement).
* `new Type[n]` leaves the slots default-initialised, which for scalar types is
  an indeterminate value: every allocating operation takes the contents
  `fresh : Nat → α` that the new block happens to hold.
* `std::move` from a slot leaves a valid but unspecified value in it: the
  operations that move elements take `mv : α → α`, the value left behind in
  the slot (`id` for scalar element types).
* `operator<` and `operator==` of the element type are `<` and `==` on `α`.

Beside this block model there are two further views of the same code.  The
counters semantics (`Counters`, `stepC`, `runC`) follows only `size_` and
`capacity_`, with `size_t` arithmetic modulo `2^64`, through every call, also
through those whose slot accesses leave the block.  The memory (`Memory`) gives
every block an address in a free store, so that two vectors hold the same
block or different ones.
-/

namespace SimpleVec

/-! ## Slots and blocks -/

/-- Read access `*(p + k)` to slot `k` of a block; `none` outside the block. -/
def readSlot {α : Type} (b : List α) (k : Int) : Option α :=
  if 0 ≤ k then b[k.toNat]? else none

/-- Write access `*(p + k) = x` to slot `k` of a block; `none` outside the block. -/
def writeSlot {α : Type} (b : List α) (k : Int) (x : α) : Option (List α) :=
  if 0 ≤ k ∧ k.toNat < b.length then some (b.set k.toNat x) else none

/-- The block `new Type[n]`: `n` slots holding whatever `fresh` says. -/
def newBlock {α : Type} (fresh : Nat → α) (n : Nat) : List α :=
  (List.range n).map fresh

/-- Conversion of a `size_t` value to `int` (32 bits, two's complement), as it happens to the
argument of `ArrayPtr(int size)`. -/
def toInt (n : Nat) : Int :=
  if n % 4294967296 < 2147483648 then ((n % 4294967296 : Nat) : Int)
  else ((n % 4294967296 : Nat) : Int) - 4294967296

/-- `explicit ArrayPtr(int size)`: the null pointer (the empty block) when `size == 0`, else
`new Type[size]`.  For a negative `size` that expression throws `std::bad_array_new_length`:
no block, `none`. -/
def arrayPtrOfSize {α : Type} (fresh : Nat → α) (size : Int) : Option (List α) :=
  if size = 0 then some []
  else if size < 0 then none
  else some (newBlock fresh size.toNat)

/-! ## The standard algorithms used by the container -/

/-- Loop of `std::copy` between two distinct blocks: `n` iterations of
`*d_first++ = *first++`; the result is the destination block. -/
def stdCopyLoop {α : Type} : Nat → List α → Int → List α → Int → Option (List α)
  | 0, _, _, dst, _ => some dst
  | n + 1, src, first, dst, dFirst =>
    match readSlot src first with
    | none => none
    | some x =>
      match writeSlot dst dFirst x with
      | none => none
      | some dst1 => stdCopyLoop n src (first + 1) dst1 (dFirst + 1)

/-- Loop of `std::move` between two distinct blocks: `n` iterations of
`*d_first++ = std::move(*first++)`; the result is the pair of the source block (its slots now
moved-from) and the destination block. -/
def stdMoveLoop {α : Type} (mv : α → α) : Nat → List α → Int → List α → Int → Option (List α × List α)
  | 0, src, _, dst, _ => some (src, dst)
  | n + 1, src, first, dst, dFirst =>
    match readSlot src first with
    | none => none
    | some x =>
      match writeSlot dst dFirst x with
      | none => none
      | some dst1 =>
        match writeSlot src first (mv x) with
        | none => none
        | some src1 => stdMoveLoop mv n src1 (first + 1) dst1 (dFirst + 1)

/-- Loop of `std::move` with source and destination in the same block: `n` iterations of
`*d_first++ = std::move(*first++)`. -/
def stdMoveWithinLoop {α : Type} (mv : α → α) : Nat → List α → Int → Int → Option (List α)
  | 0, b, _, _ => some b
  | n + 1, b, first, dFirst =>
    match readSlot b first with
    | none => none
    | some x =>
      match writeSlot b dFirst x with
      | none => none
      | some b1 =>
        match writeSlot b1 first (mv x) with
        | none => none
        | some b2 => stdMoveWithinLoop mv n b2 (first + 1) (dFirst + 1)

/-- Loop of `std::copy_backward` inside one block: `n` iterations of
`*(--d_last) = *(--last)`. -/
def stdCopyBackwardLoop {α : Type} : Nat → List α → Int → Int → Option (List α)
  | 0, b, _, _ => some b
  | n + 1, b, last, dLast =>
    match readSlot b (last - 1) with
    | none => none
    | some x =>
      match writeSlot b (dLast - 1) x with
      | none => none
      | some b1 => stdCopyBackwardLoop n b1 (last - 1) (dLast - 1)

/-- Loop of `std::move_backward` inside one block: `n` iterations of
`*(--d_last) = std::move(*(--last))`. -/
def stdMoveBackwardLoop {α : Type} (mv : α → α) : Nat → List α → Int → Int → Option (List α)
  | 0, b, _, _ => some b
  | n + 1, b, last, dLast =>
    match readSlot b (last - 1) with
    | none => none
    | some x =>
      match writeSlot b (dLast - 1) x with
      | none => none
      | some b1 =>
        match writeSlot b1 (last - 1) (mv x) with
        | none => none
        | some b2 => stdMoveBackwardLoop mv n b2 (last - 1) (dLast - 1)

/-- Loop of `std::fill` (and of `std::generate` with a constant generator): `n` iterations
of `*first++ = value`. -/
def stdFillLoop {α : Type} : Nat → List α → Int → α → Option (List α)
  | 0, b, _, _ => some b
  | n + 1, b, first, x =>
    match writeSlot b first x with
    | none => none
    | some b1 => stdFillLoop n b1 (first + 1) x

/-- Number of iterations over the range `[first, last)`; a range whose end lies before its
start is not a valid range. -/
def rangeLen (first last : Int) : Option Nat :=
  if first ≤ last then some (last - first).toNat else none

/-- `std::copy(first, last, d_first)` from block `src` into the distinct block `dst`:
the destination block and the returned iterator `d_first + (last - first)`. -/
def stdCopy {α : Type} (src : List α) (first last : Int) (dst : List α) (dFirst : Int) :
    Option (List α × Int) :=
  match rangeLen first last with
  | none => none
  | some n =>
    match stdCopyLoop n src first dst dFirst with
    | none => none
    | some dst1 => some (dst1, dFirst + n)

/-- `std::move(first, last, d_first)` from block `src` into the distinct block `dst`:
the source block after the moves, the destination block and the returned iterator. -/
def stdMove {α : Type} (mv : α → α) (src : List α) (first last : Int) (dst : List α)
    (dFirst : Int) : Option (List α × List α × Int) :=
  match rangeLen first last with
  | none => none
  | some n =>
    match stdMoveLoop mv n src first dst dFirst with
    | none => none
    | some (src1, dst1) => some (src1, dst1, dFirst + n)

/-- `std::move(first, last, d_first)` with all three iterators into the same block. -/
def stdMoveWithin {α : Type} (mv : α → α) (b : List α) (first last dFirst : Int) :
    Option (List α × Int) :=
  match rangeLen first last with
  | none => none
  | some n =>
    match stdMoveWithinLoop mv n b first dFirst with
    | none => none
    | some b1 => some (b1, dFirst + n)

/-- `std::copy_backward(first, last, d_last)` inside one block: the block and the returned
iterator `d_last - (last - first)`. -/
def stdCopyBackward {α : Type} (b : List α) (first last dLast : Int) : Option (List α × Int) :=
  match rangeLen first last with
  | none => none
  | some n =>
    match stdCopyBackwardLoop n b last dLast with
    | none => none
    | some b1 => some (b1, dLast - n)

/-- `std::move_backward(first, last, d_last)` inside one block. -/
def stdMoveBackward {α : Type} (mv : α → α) (b : List α) (first last dLast : Int) :
    Option (List α × Int) :=
  match rangeLen first last with
  | none => none
  | some n =>
    match stdMoveBackwardLoop mv n b last dLast with
    | none => none
    | some b1 => some (b1, dLast - n)

/-- `std::fill(first, last, value)`; also `std::generate(first, last, g)` for the constant
generator `g = [](){return Type{};}` with `value = Type{}`. -/
def stdFill {α : Type} (b : List α) (first last : Int) (x : α) : Option (List α) :=
  match rangeLen first last with
  | none => none
  | some n => stdFillLoop n b first x

/-! ## The container -/

/-- The ways a member function can end: it returns, it throws `std::out_of_range` (the
object is in the state it had at the `throw`), it runs into undefined behaviour (a failed
`assert`, or a slot access outside the block), or its allocation throws
`std::bad_array_new_length` (the object is in the state it had at the `throw`). -/
inductive Outcome (σ β : Type) where
  | returned (state : σ) (value : β)
  | threw (state : σ)
  | undefined
  | badAlloc (state : σ)
  deriving DecidableEq, Repr

/-- An argument bound to a `const Type&` parameter: an object outside the vector, or the
element in slot `k` of the vector's own block. -/
inductive Ref (α : Type) where
  | object (x : α)
  | slot (k : Int)
  deriving DecidableEq, Repr

/-- The value read through the reference while the block of the vector holds `b`. -/
def Ref.read {α : Type} : Ref α → List α → Option α
  | .object x, _ => some x
  | .slot k, b => readSlot b k

/-- The data members of `SimpleVector<Type>`: `items_` is the block held by the `ArrayPtr`. -/
structure SimpleVector (α : Type) where
  items_ : List α
  size_ : Nat
  capacity_ : Nat
  deriving DecidableEq, Repr

namespace SimpleVector

variable {α : Type}

/-- `SimpleVector() noexcept = default`. -/
def ctorDefault : SimpleVector α :=
  { items_ := [], size_ := 0, capacity_ := 0 }

/-- `GetSize()`. -/
def GetSize (v : SimpleVector α) : Nat := v.size_

/-- `GetCapacity()`. -/
def GetCapacity (v : SimpleVector α) : Nat := v.capacity_

/-- `IsEmpty()`. -/
def IsEmpty (v : SimpleVector α) : Bool := v.size_ == 0

/-- `begin()` / `cbegin()`, as an offset into the block. -/
def begin_ (_v : SimpleVector α) : Int := 0

/-- `end()` / `cend()`, as an offset into the block. -/
def end_ (v : SimpleVector α) : Int := v.size_

/-- `explicit SimpleVector(size_t size)`; `none` when the constructor does not complete
(undefined behaviour, or an exception out of `ArrayPtr(int)`), as for every operation below
that returns an `Option`. -/
def ctorSize [Inhabited α] (fresh : Nat → α) (size : Nat) : Option (SimpleVector α) := do
  let items ← arrayPtrOfSize fresh (toInt size)
  let items ← stdFill items 0 (0 + (size : Int)) default
  pure { items_ := items, size_ := size, capacity_ := size }

/-- `SimpleVector(size_t size, const Type& value)`. -/
def ctorSizeValue (fresh : Nat → α) (size : Nat) (value : α) : Option (SimpleVector α) := do
  let items ← arrayPtrOfSize fresh (toInt size)
  let items ← stdFill items 0 (0 + (size : Int)) value
  pure { items_ := items, size_ := size, capacity_ := size }

/-- `SimpleVector(std::initializer_list<Type> init)`; the elements of an initializer list are
constant, so `std::move` over them copies. -/
def ctorInitList (fresh : Nat → α) (init : List α) : Option (SimpleVector α) := do
  let items ← arrayPtrOfSize fresh (toInt init.length)
  let (items, _) ← stdCopy init 0 (init.length : Int) items 0
  pure { items_ := items, size_ := init.length, capacity_ := init.length }

/-- `SimpleVector(const SimpleVector<Type>& other)`. -/
def ctorCopy (fresh : Nat → α) (other : SimpleVector α) : Option (SimpleVector α) := do
  let items ← arrayPtrOfSize fresh (toInt other.GetSize)
  let (items, _) ← stdCopy other.items_ other.begin_ other.end_ items 0
  pure { items_ := items, size_ := other.GetSize, capacity_ := other.GetSize }

/-- `SimpleVector(SimpleVector<Type>&& other)`: the new vector and the state left in `other`. -/
def ctorMove (other : SimpleVector α) : SimpleVector α × SimpleVector α :=
  ({ items_ := other.items_, size_ := other.size_, capacity_ := other.capacity_ },
   { items_ := [], size_ := 0, capacity_ := 0 })

/-- `operator[](size_t index)`, with its `assert(index < size_)`. -/
def subscript (v : SimpleVector α) (index : Nat) : Option α :=
  if index < v.size_ then readSlot v.items_ index else none

/-- `At(size_t index)`. -/
def At (v : SimpleVector α) (index : Nat) : Outcome (SimpleVector α) α :=
  if index ≥ v.size_ then .threw v
  else
    match readSlot v.items_ index with
    | some x => .returned v x
    | none => .undefined

/-- `Clear()`. -/
def Clear (v : SimpleVector α) : SimpleVector α :=
  { v with size_ := 0 }

/-- `Reserve(size_t new_capacity)`. -/
def Reserve (fresh : Nat → α) (mv : α → α) (v : SimpleVector α) (new_capacity : Nat) :
    Option (SimpleVector α) :=
  if new_capacity < v.capacity_ then
    some v
  else if new_capacity ≥ v.capacity_ then do
    let buff ← arrayPtrOfSize fresh (toInt new_capacity)
    let (_, buff, _) ← stdMove mv v.items_ v.begin_ v.end_ buff 0
    pure { items_ := buff, size_ := v.size_, capacity_ := new_capacity }
  else do
    let buff ← arrayPtrOfSize fresh (toInt new_capacity)
    pure { items_ := buff, size_ := v.size_, capacity_ := new_capacity }

/-- `SimpleVector(ReserveProxyObj capacity_to_reserve)`. -/
def ctorReserve (fresh : Nat → α) (mv : α → α) (value_to_reserve : Nat) :
    Option (SimpleVector α) :=
  Reserve fresh mv ctorDefault value_to_reserve

/-- `Resize(size_t new_size)`. -/
def Resize [Inhabited α] (fresh : Nat → α) (mv : α → α) (v : SimpleVector α) (new_size : Nat) :
    Option (SimpleVector α) :=
  if new_size > v.size_ then
    if new_size > v.capacity_ then do
      let new_capacity := new_size * 2
      let buff ← arrayPtrOfSize fresh (toInt new_capacity)
      let (_, buff, start) ← stdMove mv v.items_ v.begin_ v.end_ buff 0
      let buff ← stdFill buff start (new_size : Int) default
      pure { items_ := buff, size_ := new_size, capacity_ := new_capacity }
    else do
      let items ← stdFill v.items_ (v.size_ : Int) ((new_size : Int) - 1) default
      pure { items_ := items, size_ := new_size, capacity_ := v.capacity_ }
  else
    some { v with size_ := new_size }

/-- `swap(SimpleVector<Type>& other)`: the new states of `*this` and of `other`. -/
def swap (v other : SimpleVector α) : SimpleVector α × SimpleVector α :=
  ({ items_ := other.items_, size_ := other.size_, capacity_ := other.capacity_ },
   { items_ := v.items_, size_ := v.size_, capacity_ := v.capacity_ })

/-- `operator=(const SimpleVector<Type>& rhs)`: the new state of `*this`; `rhs` is read only
and the temporary holding the old state is destroyed. -/
def copyAssign (fresh : Nat → α) (v rhs : SimpleVector α) : Option (SimpleVector α) := do
  let buff ← ctorCopy fresh rhs
  pure (swap v buff).1

/-- `operator=(SimpleVector<Type>&& rhs)`: the new states of `*this` and of `rhs`. -/
def moveAssign (_v rhs : SimpleVector α) : SimpleVector α × SimpleVector α :=
  ({ items_ := rhs.items_, size_ := rhs.size_, capacity_ := rhs.capacity_ },
   { items_ := [], size_ := 0, capacity_ := 0 })

/-- The growth rule `(capacity_ == 0 ? size_ + 1 : size_) * 2` shared by `PushBack` and `Insert`. -/
def grownCapacity (v : SimpleVector α) : Nat :=
  (if v.capacity_ == 0 then v.size_ + 1 else v.size_) * 2

/-- `PushBack(const Type& item)`; the block is allocated by `new Type[new_capacity]` with a
`size_t`.  `item` is read while the block it may refer to is still as it was at the call. -/
def PushBack (fresh : Nat → α) (v : SimpleVector α) (item : α) : Option (SimpleVector α) :=
  if v.size_ + 1 > v.capacity_ then do
    let new_capacity := grownCapacity v
    let buff := newBlock fresh new_capacity
    let (buff, _) ← stdCopy v.items_ v.begin_ v.end_ buff 0
    let buff ← writeSlot buff v.size_ item
    pure { items_ := buff, size_ := v.size_ + 1, capacity_ := new_capacity }
  else do
    let items ← writeSlot v.items_ v.end_ item
    pure { items_ := items, size_ := v.size_ + 1, capacity_ := v.capacity_ }

/-- `PushBack(Type&& item)`; `item` is an object outside the vector. -/
def PushBackMove (fresh : Nat → α) (mv : α → α) (v : SimpleVector α) (item : α) :
    Option (SimpleVector α) :=
  if v.size_ + 1 > v.capacity_ then do
    let new_capacity := grownCapacity v
    let buff := newBlock fresh new_capacity
    let (_, buff, _) ← stdMove mv v.items_ v.begin_ v.end_ buff 0
    let buff ← writeSlot buff v.size_ item
    pure { items_ := buff, size_ := v.size_ + 1, capacity_ := new_capacity }
  else do
    let items ← writeSlot v.items_ v.end_ item
    pure { items_ := items, size_ := v.size_ + 1, capacity_ := v.capacity_ }

/-- The growth path of `Insert(ConstIterator pos, const Type& value)` once `buff` is
allocated; `value` is read while `items_` still holds the old block. -/
def insertGrow (v : SimpleVector α) (pos : Int) (value : Ref α) (buff : List α) :
    Option (SimpleVector α × Int) := do
  let new_capacity := grownCapacity v
  let (buff, position_insert) ← stdCopy v.items_ v.begin_ pos buff 0
  let x ← value.read v.items_
  let buff ← writeSlot buff position_insert x
  let (buff, _) ← stdCopy v.items_ pos v.end_ buff (position_insert + 1)
  pure ({ items_ := buff, size_ := v.size_ + 1, capacity_ := new_capacity }, position_insert)

/-- The in-place path of `Insert(ConstIterator pos, const Type& value)`; `value` is read after
the shift. -/
def insertInplace (v : SimpleVector α) (pos : Int) (value : Ref α) :
    Option (SimpleVector α × Int) := do
  let (items, position_insert) ← stdCopyBackward v.items_ (pos - 1) v.end_ (v.end_ + 1)
  let x ← value.read items
  let items ← writeSlot items position_insert x
  pure ({ items_ := items, size_ := v.size_ + 1, capacity_ := v.capacity_ }, position_insert)

/-- `Insert(ConstIterator pos, const Type& value)`; `pos` and the returned iterator are
offsets from `begin()`. -/
def InsertRef (fresh : Nat → α) (v : SimpleVector α) (pos : Int) (value : Ref α) :
    Outcome (SimpleVector α) Int :=
  if pos < v.begin_ ∨ pos > v.end_ then .threw v
  else if v.size_ + 1 > v.capacity_ then
    match arrayPtrOfSize fresh (toInt (grownCapacity v)) with
    | none => .badAlloc v
    | some buff =>
      match insertGrow v pos value buff with
      | some (v1, it) => .returned v1 it
      | none => .undefined
  else
    match insertInplace v pos value with
    | some (v1, it) => .returned v1 it
    | none => .undefined

/-- `Insert(ConstIterator pos, const Type& value)` for a `value` that is an object outside the
vector. -/
def Insert (fresh : Nat → α) (v : SimpleVector α) (pos : Int) (value : α) :
    Outcome (SimpleVector α) Int :=
  InsertRef fresh v pos (.object value)

/-- The growth path of `Insert(ConstIterator pos, Type&& value)` once `buff` is allocated. -/
def insertMoveGrow (mv : α → α) (v : SimpleVector α) (pos : Int) (value : α) (buff : List α) :
    Option (SimpleVector α × Int) := do
  let new_capacity := grownCapacity v
  let (items, buff, position_insert) ← stdMove mv v.items_ v.begin_ pos buff 0
  let buff ← writeSlot buff position_insert value
  let (_, buff, _) ← stdMove mv items pos v.end_ buff (position_insert + 1)
  pure ({ items_ := buff, size_ := v.size_ + 1, capacity_ := new_capacity }, position_insert)

/-- The in-place path of `Insert(ConstIterator pos, Type&& value)`. -/
def insertMoveInplace (mv : α → α) (v : SimpleVector α) (pos : Int) (value : α) :
    Option (SimpleVector α × Int) := do
  let (items, position_insert) ← stdMoveBackward mv v.items_ (pos - 1) v.end_ (v.end_ + 1)
  let items ← writeSlot items position_insert value
  pure ({ items_ := items, size_ := v.size_ + 1, capacity_ := v.capacity_ }, position_insert)

/-- `Insert(ConstIterator pos, Type&& value)`; `value` is an object outside the vector. -/
def InsertMove (fresh : Nat → α) (mv : α → α) (v : SimpleVector α) (pos : Int) (value : α) :
    Outcome (SimpleVector α) Int :=
  if pos < v.begin_ ∨ pos > v.end_ then .threw v
  else if v.size_ + 1 > v.capacity_ then
    match arrayPtrOfSize fresh (toInt (grownCapacity v)) with
    | none => .badAlloc v
    | some buff =>
      match insertMoveGrow mv v pos value buff with
      | some (v1, it) => .returned v1 it
      | none => .undefined
  else
    match insertMoveInplace mv v pos value with
    | some (v1, it) => .returned v1 it
    | none => .undefined

/-- `PopBack()`, with its `assert(size_ > 0)`. -/
def PopBack (v : SimpleVector α) : Option (SimpleVector α) :=
  if v.size_ > 0 then some { v with size_ := v.size_ - 1 } else none

/-- `Erase(ConstIterator pos)`, with its `assert(size_ > 0)`; `pos` and the returned iterator
are offsets from `begin()`. -/
def Erase (mv : α → α) (v : SimpleVector α) (pos : Int) : Option (SimpleVector α × Int) :=
  if v.size_ > 0 then do
    let (items, _) ← stdMoveWithin mv v.items_ (pos + 1) v.end_ pos
    pure ({ items_ := items, size_ := v.size_ - 1, capacity_ := v.capacity_ }, pos)
  else none

/-- The logical contents: the values in the slots `[0, size_)`. -/
def elems (v : SimpleVector α) : List α := v.items_.take v.size_

/-- Representation invariant of a live object: the block has exactly `capacity_` slots and
`size_` does not exceed `capacity_`. -/
def WF (v : SimpleVector α) : Prop :=
  v.items_.length = v.capacity_ ∧ v.size_ ≤ v.capacity_

instance (v : SimpleVector α) : Decidable (WF v) := by
  unfold WF; infer_instance

end SimpleVector

/-! ## Client programs -/

/-- One statement of a client program.  The program's vectors live in a store and are named by
their index in it; a constructor call adds a vector at the end of the store. -/
inductive Call (α : Type) where
  | ctorDefault
  | ctorSize (fresh : Nat → α) (size : Nat)
  | ctorSizeValue (fresh : Nat → α) (size : Nat) (value : α)
  | ctorInitList (fresh : Nat → α) (init : List α)
  | ctorCopy (fresh : Nat → α) (other : Nat)
  | ctorMove (other : Nat)
  | ctorReserve (fresh : Nat → α) (mv : α → α) (value_to_reserve : Nat)
  | Clear (i : Nat)
  | Reserve (fresh : Nat → α) (mv : α → α) (i : Nat) (new_capacity : Nat)
  | Resize (fresh : Nat → α) (mv : α → α) (i : Nat) (new_size : Nat)
  | PushBack (fresh : Nat → α) (i : Nat) (item : α)
  | PushBackMove (fresh : Nat → α) (mv : α → α) (i : Nat) (item : α)
  | Insert (fresh : Nat → α) (i : Nat) (pos : Int) (value : α)
  | InsertMove (fresh : Nat → α) (mv : α → α) (i : Nat) (pos : Int) (value : α)
  | PopBack (i : Nat)
  | Erase (mv : α → α) (i : Nat) (pos : Int)
  | swap (i j : Nat)
  | copyAssign (fresh : Nat → α) (i j : Nat)
  | moveAssign (i j : Nat)

/-- The store after a member function ended: a thrown `std::out_of_range` is caught by the
client and the object keeps the state it had at the `throw`; undefined behaviour and an
exception out of an allocation end the program. -/
def storeOutcome {α β : Type} (st : List (SimpleVector α)) (i : Nat) :
    Outcome (SimpleVector α) β → Option (List (SimpleVector α))
  | .returned w _ => some (st.set i w)
  | .threw s => some (st.set i s)
  | .undefined => none
  | .badAlloc _ => none

/-- Effect of one statement on the store; `none` when the statement names a vector that does
not exist, runs into undefined behaviour or ends in an exception out of an allocation.
`swap` and move-assignment of an object with itself leave it unchanged: each `std::exchange`
and `std::swap` then reads and writes the same member. -/
def step {α : Type} [Inhabited α] (st : List (SimpleVector α)) :
    Call α → Option (List (SimpleVector α))
  | .ctorDefault => some (st ++ [SimpleVector.ctorDefault])
  | .ctorSize fresh size => (SimpleVector.ctorSize fresh size).map (fun w => st ++ [w])
  | .ctorSizeValue fresh size value =>
    (SimpleVector.ctorSizeValue fresh size value).map (fun w => st ++ [w])
  | .ctorInitList fresh init => (SimpleVector.ctorInitList fresh init).map (fun w => st ++ [w])
  | .ctorCopy fresh other =>
    st[other]?.bind (fun o => (SimpleVector.ctorCopy fresh o).map (fun w => st ++ [w]))
  | .ctorMove other =>
    st[other]?.map (fun o => st.set other (SimpleVector.ctorMove o).2 ++ [(SimpleVector.ctorMove o).1])
  | .ctorReserve fresh mv n => (SimpleVector.ctorReserve fresh mv n).map (fun w => st ++ [w])
  | .Clear i => st[i]?.map (fun v => st.set i v.Clear)
  | .Reserve fresh mv i n =>
    st[i]?.bind (fun v => (SimpleVector.Reserve fresh mv v n).map (fun w => st.set i w))
  | .Resize fresh mv i n =>
    st[i]?.bind (fun v => (SimpleVector.Resize fresh mv v n).map (fun w => st.set i w))
  | .PushBack fresh i item =>
    st[i]?.bind (fun v => (SimpleVector.PushBack fresh v item).map (fun w => st.set i w))
  | .PushBackMove fresh mv i item =>
    st[i]?.bind (fun v => (SimpleVector.PushBackMove fresh mv v item).map (fun w => st.set i w))
  | .Insert fresh i pos value =>
    st[i]?.bind (fun v => storeOutcome st i (SimpleVector.Insert fresh v pos value))
  | .InsertMove fresh mv i pos value =>
    st[i]?.bind (fun v => storeOutcome st i (SimpleVector.InsertMove fresh mv v pos value))
  | .PopBack i => st[i]?.bind (fun v => v.PopBack.map (fun w => st.set i w))
  | .Erase mv i pos =>
    st[i]?.bind (fun v => (SimpleVector.Erase mv v pos).map (fun r => st.set i r.1))
  | .swap i j =>
    st[i]?.bind (fun a => st[j]?.map (fun b =>
      if i = j then st else (st.set i (SimpleVector.swap a b).1).set j (SimpleVector.swap a b).2))
  | .copyAssign fresh i j =>
    st[i]?.bind (fun a => st[j]?.bind (fun b =>
      (SimpleVector.copyAssign fresh a b).map (fun w => st.set i w)))
  | .moveAssign i j =>
    st[i]?.bind (fun a => st[j]?.map (fun b =>
      if i = j then st
      else (st.set i (SimpleVector.moveAssign a b).1).set j (SimpleVector.moveAssign a b).2))

/-- Effect of a sequence of statements on the store. -/
def run {α : Type} [Inhabited α] : List (Call α) → List (SimpleVector α) →
    Option (List (SimpleVector α))
  | [], st => some st
  | c :: cs, st => (step st c).bind (run cs)

/-! ## The counters of a vector -/

/-- The data members `size_` and `capacity_` of a vector, without its block. -/
structure Counters where
  size_ : Nat
  capacity_ : Nat
  deriving DecidableEq, Repr

/-- A value computed in `size_t` (64 bits, unsigned): the arithmetic wraps. -/
def sizeT (n : Nat) : Nat := n % 18446744073709551616

/-- Number of slots of the block that `ArrayPtr<Type> buff(size)` holds when `size` is a
`size_t`; `none` when the allocation throws. -/
def arrayPtrSlots (size : Nat) : Option Nat :=
  (arrayPtrOfSize (fun _ => ()) (toInt size)).map List.length

namespace Counters

/-- The counters of a vector of the block model. -/
def ofVector {α : Type} (v : SimpleVector α) : Counters :=
  { size_ := v.size_, capacity_ := v.capacity_ }

/-- `SimpleVector() noexcept = default`. -/
def ctorDefault : Counters :=
  { size_ := 0, capacity_ := 0 }

/-- `SimpleVector(size_t size)`, `SimpleVector(size_t size, const Type& value)` and, with
`size = init.size()`, `SimpleVector(std::initializer_list<Type> init)`: the block comes from
`ArrayPtr(int)` and the slots `[0, size)` of it are written; `none` when the allocation throws
or the block is too short for them. -/
def ctorSize (size : Nat) : Option Counters := do
  let slots ← arrayPtrSlots size
  if size ≤ slots then some { size_ := size, capacity_ := size } else none

/-- `SimpleVector(const SimpleVector<Type>& other)`: the slots `[0, other.GetSize())` of the
block from `ArrayPtr(int)` are written. -/
def ctorCopy (other : Counters) : Option Counters := do
  let slots ← arrayPtrSlots other.size_
  if other.size_ ≤ slots then some { size_ := other.size_, capacity_ := other.size_ } else none

/-- `SimpleVector(SimpleVector<Type>&& other)`: the new vector and the state left in `other`. -/
def ctorMove (other : Counters) : Counters × Counters :=
  ({ size_ := other.size_, capacity_ := other.capacity_ }, { size_ := 0, capacity_ := 0 })

/-- `Clear()`. -/
def Clear (c : Counters) : Counters :=
  { c with size_ := 0 }

/-- `Reserve(size_t new_capacity)`: the slots `[0, size_)` of the block from `ArrayPtr(int)`
are written. -/
def Reserve (c : Counters) (new_capacity : Nat) : Option Counters :=
  if new_capacity < c.capacity_ then
    some c
  else if new_capacity ≥ c.capacity_ then do
    let slots ← arrayPtrSlots new_capacity
    if c.size_ ≤ slots then some { size_ := c.size_, capacity_ := new_capacity } else none
  else do
    let _ ← arrayPtrSlots new_capacity
    some { size_ := c.size_, capacity_ := new_capacity }

/-- `Resize(size_t new_size)`: on the growth path the slots `[0, new_size)` of the block from
`ArrayPtr(int)` are written. -/
def Resize (c : Counters) (new_size : Nat) : Option Counters :=
  if new_size > c.size_ then
    if new_size > c.capacity_ then do
      let new_capacity := sizeT (new_size * 2)
      let slots ← arrayPtrSlots new_capacity
      if new_size ≤ slots then some { size_ := new_size, capacity_ := new_capacity } else none
    else
      some { size_ := new_size, capacity_ := c.capacity_ }
  else
    some { c with size_ := new_size }

/-- The growth rule `(capacity_ == 0 ? size_ + 1 : size_) * 2`, computed in `size_t`. -/
def grownCapacity (c : Counters) : Nat :=
  sizeT ((if c.capacity_ == 0 then sizeT (c.size_ + 1) else c.size_) * 2)

/-- `PushBack(const Type& item)` and `PushBack(Type&& item)`: on the growth path the slots
`[0, size_]` of the block `new Type[new_capacity]` are written. -/
def PushBack (c : Counters) : Option Counters :=
  if sizeT (c.size_ + 1) > c.capacity_ then
    if c.size_ < grownCapacity c then
      some { size_ := sizeT (c.size_ + 1), capacity_ := grownCapacity c }
    else none
  else
    some { size_ := sizeT (c.size_ + 1), capacity_ := c.capacity_ }

/-- Both `Insert` overloads, `pos` being an offset from `begin()`: out of range the call
throws and the counters are as before; on the growth path the slots `[0, size_]` of the block
from `ArrayPtr(int)` are written. -/
def Insert (c : Counters) (pos : Int) : Option Counters :=
  if pos < 0 ∨ pos > (c.size_ : Int) then some c
  else if sizeT (c.size_ + 1) > c.capacity_ then do
    let slots ← arrayPtrSlots (grownCapacity c)
    if c.size_ + 1 ≤ slots then
      some { size_ := sizeT (c.size_ + 1), capacity_ := grownCapacity c }
    else none
  else
    some { size_ := sizeT (c.size_ + 1), capacity_ := c.capacity_ }

/-- `PopBack()`, with its `assert(size_ > 0)`. -/
def PopBack (c : Counters) : Option Counters :=
  if c.size_ > 0 then some { c with size_ := c.size_ - 1 } else none

/-- `Erase(ConstIterator pos)`, with its `assert(size_ > 0)`. -/
def Erase (c : Counters) : Option Counters :=
  if c.size_ > 0 then some { c with size_ := c.size_ - 1 } else none

/-- `swap(SimpleVector<Type>& other)`: the new counters of `*this` and of `other`. -/
def swap (c other : Counters) : Counters × Counters :=
  ({ size_ := other.size_, capacity_ := other.capacity_ },
   { size_ := c.size_, capacity_ := c.capacity_ })

/-- `operator=(const SimpleVector<Type>& rhs)`: the new counters of `*this`. -/
def copyAssign (c rhs : Counters) : Option Counters := do
  let buff ← ctorCopy rhs
  pure (swap c buff).1

/-- `operator=(SimpleVector<Type>&& rhs)`: the new counters of `*this` and of `rhs`. -/
def moveAssign (_c rhs : Counters) : Counters × Counters :=
  ({ size_ := rhs.size_, capacity_ := rhs.capacity_ }, { size_ := 0, capacity_ := 0 })

end Counters

/-- Effect of one statement on the counters of the program's vectors.  What the statement
does to the elements is left out: a slot access outside the block of an existing vector does
not stop the statement here, it goes on to the assignments to `size_` and `capacity_` that
follow in the source.  `none` when the statement names a vector that does not exist, fails an
`assert`, ends in an exception out of an allocation, or fills a block it has just allocated
beyond its last slot. -/
def stepC {α : Type} (st : List Counters) : Call α → Option (List Counters)
  | .ctorDefault => some (st ++ [Counters.ctorDefault])
  | .ctorSize _ size => (Counters.ctorSize size).map (fun w => st ++ [w])
  | .ctorSizeValue _ size _ => (Counters.ctorSize size).map (fun w => st ++ [w])
  | .ctorInitList _ init => (Counters.ctorSize init.length).map (fun w => st ++ [w])
  | .ctorCopy _ other =>
    st[other]?.bind (fun o => (Counters.ctorCopy o).map (fun w => st ++ [w]))
  | .ctorMove other =>
    st[other]?.map (fun o => st.set other (Counters.ctorMove o).2 ++ [(Counters.ctorMove o).1])
  | .ctorReserve _ _ n =>
    (Counters.Reserve Counters.ctorDefault n).map (fun w => st ++ [w])
  | .Clear i => st[i]?.map (fun c => st.set i c.Clear)
  | .Reserve _ _ i n => st[i]?.bind (fun c => (c.Reserve n).map (fun w => st.set i w))
  | .Resize _ _ i n => st[i]?.bind (fun c => (c.Resize n).map (fun w => st.set i w))
  | .PushBack _ i _ => st[i]?.bind (fun c => c.PushBack.map (fun w => st.set i w))
  | .PushBackMove _ _ i _ => st[i]?.bind (fun c => c.PushBack.map (fun w => st.set i w))
  | .Insert _ i pos _ => st[i]?.bind (fun c => (c.Insert pos).map (fun w => st.set i w))
  | .InsertMove _ _ i pos _ => st[i]?.bind (fun c => (c.Insert pos).map (fun w => st.set i w))
  | .PopBack i => st[i]?.bind (fun c => c.PopBack.map (fun w => st.set i w))
  | .Erase _ i _ => st[i]?.bind (fun c => c.Erase.map (fun w => st.set i w))
  | .swap i j =>
    st[i]?.bind (fun a => st[j]?.map (fun b =>
      if i = j then st else (st.set i (Counters.swap a b).1).set j (Counters.swap a b).2))
  | .copyAssign _ i j =>
    st[i]?.bind (fun a => st[j]?.bind (fun b =>
      (Counters.copyAssign a b).map (fun w => st.set i w)))
  | .moveAssign i j =>
    st[i]?.bind (fun a => st[j]?.map (fun b =>
      if i = j then st
      else (st.set i (Counters.moveAssign a b).1).set j (Counters.moveAssign a b).2))

/-- Effect of a sequence of statements on the counters: the program runs until a statement
does not complete and is left with the counters it had before that statement. -/
def runC {α : Type} : List (Call α) → List Counters → List Counters
  | [], st => st
  | c :: cs, st =>
    match stepC st c with
    | some st1 => runC cs st1
    | none => st

/-! ## Objects and the blocks they point to -/

/-- The data members of a `SimpleVector<Type>` object, with the pointer that `items_` holds
in place of the block: `none` is `nullptr`, `some a` the address of a block in the free
store. -/
structure Object where
  raw_ptr_ : Option Nat
  size_ : Nat
  capacity_ : Nat
  deriving DecidableEq, Repr

/-- The memory of a client program: the free store, which holds at each address that
`new Type[n]` has returned the block allocated there, or `none` once `delete[]` has released
it, and the program's vectors, named by their index as in the store of `run`. -/
structure Memory (α : Type) where
  heap : List (Option (List α))
  objects : List Object
  deriving DecidableEq, Repr

namespace Memory

variable {α : Type}

/-- The block a pointer designates: the empty block for `nullptr`; `none` for a pointer to
storage that has been released or was never allocated. -/
def block (heap : List (Option (List α))) : Option Nat → Option (List α)
  | none => some []
  | some a =>
    match heap[a]? with
    | some (some b) => some b
    | _ => none

/-- The free store after the block a pointer designates has been written. -/
def setBlock (heap : List (Option (List α))) : Option Nat → List α → List (Option (List α))
  | none, _ => heap
  | some a, b => heap.set a (some b)

/-- `delete[] p`: nothing for `nullptr`; undefined for a pointer to storage that has been
released or was never allocated. -/
def release (heap : List (Option (List α))) : Option Nat → Option (List (Option (List α)))
  | none => some heap
  | some a =>
    match heap[a]? with
    | some (some _) => some (heap.set a none)
    | _ => none

/-- `explicit ArrayPtr(int size)` in the free store: `new Type[size]` returns the address of
storage that no live block occupies. -/
def arrayPtr (heap : List (Option (List α))) (fresh : Nat → α) (size : Int) :
    Option (List (Option (List α)) × Option Nat) :=
  if size = 0 then some (heap, none)
  else if size < 0 then none
  else some (heap ++ [some (newBlock fresh size.toNat)], some heap.length)

/-- `SimpleVector(const SimpleVector<Type>& other)`: the free store after the construction
and the members of the constructed object. -/
def copyConstruct (fresh : Nat → α) (heap : List (Option (List α))) (other : Object) :
    Option (List (Option (List α)) × Object) := do
  let (heap, items) ← arrayPtr heap fresh (toInt other.size_)
  let src ← block heap other.raw_ptr_
  let dst ← block heap items
  let (dst, _) ← stdCopy src 0 (other.size_ : Int) dst 0
  pure (setBlock heap items dst,
    { raw_ptr_ := items, size_ := other.size_, capacity_ := other.size_ })

/-- The statement `SimpleVector<Type> w(other);`: the new vector is added at the end. -/
def ctorCopy (fresh : Nat → α) (m : Memory α) (other : Nat) : Option (Memory α) := do
  let o ← m.objects[other]?
  let (heap, w) ← copyConstruct fresh m.heap o
  pure { heap := heap, objects := m.objects ++ [w] }

/-- The statement `v_i = v_j;` by `operator=(const SimpleVector<Type>& rhs)`: the temporary
`buff` is copy-constructed from `rhs`, `swap` exchanges the members of `*this` and `buff`, and
the destructor of `buff` releases the block that `*this` held. -/
def copyAssign (fresh : Nat → α) (m : Memory α) (i j : Nat) : Option (Memory α) := do
  let this ← m.objects[i]?
  let rhs ← m.objects[j]?
  let (heap, buff) ← copyConstruct fresh m.heap rhs
  let heap ← release heap this.raw_ptr_
  pure { heap := heap, objects := m.objects.set i buff }

/-- The statement `v_i[index] = value;`: `operator[]` with its `assert(index < size_)`, then
the assignment through the reference it returns. -/
def assign (m : Memory α) (i index : Nat) (value : α) : Option (Memory α) := do
  let o ← m.objects[i]?
  if index < o.size_ then do
    let b ← block m.heap o.raw_ptr_
    let b ← writeSlot b index value
    pure { heap := setBlock m.heap o.raw_ptr_ b, objects := m.objects }
  else none

/-- The statement `v_i.PushBack(item);` for an `item` outside the vectors: on the growth path
the block comes from `new Type[new_capacity]` and the destructor of `buff` releases the old
one. -/
def PushBack (fresh : Nat → α) (m : Memory α) (i : Nat) (item : α) : Option (Memory α) := do
  let o ← m.objects[i]?
  if o.size_ + 1 > o.capacity_ then do
    let new_capacity := (if o.capacity_ == 0 then o.size_ + 1 else o.size_) * 2
    let heap := m.heap ++ [some (newBlock fresh new_capacity)]
    let buff := some m.heap.length
    let src ← block heap o.raw_ptr_
    let dst ← block heap buff
    let (dst, _) ← stdCopy src 0 (o.size_ : Int) dst 0
    let dst ← writeSlot dst o.size_ item
    let heap ← release (setBlock heap buff dst) o.raw_ptr_
    pure { heap := heap,
           objects := m.objects.set i
             { raw_ptr_ := buff, size_ := o.size_ + 1, capacity_ := new_capacity } }
  else do
    let b ← block m.heap o.raw_ptr_
    let b ← writeSlot b (o.size_ : Int) item
    pure { heap := setBlock m.heap o.raw_ptr_ b,
           objects := m.objects.set i
             { raw_ptr_ := o.raw_ptr_, size_ := o.size_ + 1, capacity_ := o.capacity_ } }

/-- The vector that object `i` is in the block model: the block its pointer designates, with
its counters. -/
def view (m : Memory α) (i : Nat) : Option (SimpleVector α) := do
  let o ← m.objects[i]?
  let b ← block m.heap o.raw_ptr_
  pure { items_ := b, size_ := o.size_, capacity_ := o.capacity_ }

end Memory

/-- An element type whose `operator==` is not reflexive, as `double` is with its NaN: `nan`
compares unequal to every value, itself included. -/
inductive Sample where
  | nan
  | num (n : Nat)
  deriving Repr

instance : BEq Sample where
  beq
    | .num x, .num y => x == y
    | _, _ => false

/-! ## Comparisons -/

/-- Loop of `std::lexicographical_compare(first1, last1, first2, last2)`:
`for (; first1 != last1 && first2 != last2; ++first1, ++first2)` with the body
`if (*first1 < *first2) return true; if (*first2 < *first1) return false;`, followed by
`return first1 == last1 && first2 != last2;`.  `fuel` bounds the number of iterations. -/
def stdLexicographicalCompareLoop {α : Type} [LT α] [DecidableRel (fun (x y : α) => x < y)] :
    Nat → List α → Int → Int → List α → Int → Int → Option Bool
  | 0, _, first1, last1, _, first2, last2 =>
    if first1 ≠ last1 ∧ first2 ≠ last2 then none
    else some (decide (first1 = last1) && decide (first2 ≠ last2))
  | fuel + 1, b1, first1, last1, b2, first2, last2 =>
    if first1 ≠ last1 ∧ first2 ≠ last2 then
      match readSlot b1 first1, readSlot b2 first2 with
      | some x, some y =>
        if x < y then some true
        else if y < x then some false
        else stdLexicographicalCompareLoop fuel b1 (first1 + 1) last1 b2 (first2 + 1) last2
      | _, _ => none
    else some (decide (first1 = last1) && decide (first2 ≠ last2))

/-- `std::lexicographical_compare(first1, last1, first2, last2)`; the length of the first range
is enough fuel. -/
def stdLexicographicalCompare {α : Type} [LT α] [DecidableRel (fun (x y : α) => x < y)]
    (b1 : List α) (first1 last1 : Int) (b2 : List α) (first2 last2 : Int) : Option Bool :=
  match rangeLen first1 last1, rangeLen first2 last2 with
  | some n, some _ => stdLexicographicalCompareLoop n b1 first1 last1 b2 first2 last2
  | _, _ => none

/-- Loop of the three-iterator `std::equal`: `n` iterations of
`if (!(*first1 == *first2)) return false;`, then `return true;`. -/
def stdEqualLoop {α : Type} [BEq α] : Nat → List α → Int → List α → Int → Option Bool
  | 0, _, _, _, _ => some true
  | n + 1, b1, first1, b2, first2 =>
    match readSlot b1 first1, readSlot b2 first2 with
    | some x, some y =>
      if x == y then stdEqualLoop n b1 (first1 + 1) b2 (first2 + 1) else some false
    | _, _ => none

/-- `std::equal(first1, last1, first2, last2)` on random-access iterators: `false` when the
two ranges differ in length, else the element-wise comparison. -/
def stdEqual {α : Type} [BEq α] (b1 : List α) (first1 last1 : Int) (b2 : List α)
    (first2 last2 : Int) : Option Bool :=
  match rangeLen first1 last1, rangeLen first2 last2 with
  | some n1, some n2 =>
    if n1 ≠ n2 then some false else stdEqualLoop n1 b1 first1 b2 first2
  | _, _ => none

namespace SimpleVector

variable {α : Type}

/-- `operator<(const SimpleVector<Type>& rhs)`. -/
def opLt [LT α] [DecidableRel (fun (x y : α) => x < y)] (v rhs : SimpleVector α) : Option Bool :=
  stdLexicographicalCompare v.items_ v.begin_ v.end_ rhs.items_ rhs.begin_ rhs.end_

/-- `operator>(const SimpleVector<Type>& rhs)`: `rhs < *this`. -/
def opGt [LT α] [DecidableRel (fun (x y : α) => x < y)] (v rhs : SimpleVector α) : Option Bool :=
  opLt rhs v

/-- `operator==(const SimpleVector<Type>& rhs)`; `&&` does not evaluate `std::equal` when the
sizes differ. -/
def opEq [BEq α] (v rhs : SimpleVector α) : Option Bool :=
  if v.GetSize == rhs.GetSize then
    stdEqual v.items_ v.begin_ v.end_ rhs.items_ rhs.begin_ rhs.end_
  else some false

/-- `operator!=(const SimpleVector<Type>& rhs)`: `!(*this == rhs)`. -/
def opNe [BEq α] (v rhs : SimpleVector α) : Option Bool :=
  (opEq v rhs).map (fun r => !r)

/-- `operator<=(const SimpleVector<Type>& rhs)`: `!(rhs < *this)`. -/
def opLe [LT α] [DecidableRel (fun (x y : α) => x < y)] (v rhs : SimpleVector α) : Option Bool :=
  (opLt rhs v).map (fun r => !r)

/-- `operator>=(const SimpleVector<Type>& rhs)`: `!(*this < rhs)`. -/
def opGe [LT α] [DecidableRel (fun (x y : α) => x < y)] (v rhs : SimpleVector α) : Option Bool :=
  (opLt v rhs).map (fun r => !r)

end SimpleVector

/-- The client loop `for (x : xs) v.PushBack(x);`, with `push` one of the two `PushBack`
overloads: the vector after the loop and the number of calls that changed `GetCapacity()`,
that is, that reallocated. -/
def pushBackLoop {α : Type} (push : SimpleVector α → α → Option (SimpleVector α)) :
    SimpleVector α → List α → Option (SimpleVector α × Nat)
  | v, [] => some (v, 0)
  | v, x :: xs =>
    match push v x with
    | none => none
    | some w =>
      match pushBackLoop push w xs with
      | none => none
      | some (u, k) => some (u, k + (if w.GetCapacity ≠ v.GetCapacity then 1 else 0))

/-! ## Slot accesses of the in-place insertion -/

/-- One access to a slot of a block, named by the slot's index: a read, a write, or a read
through `std::move`, which leaves the slot moved-from. -/
inductive Access where
  | read (k : Int)
  | write (k : Int)
  | moveFrom (k : Int)
  deriving DecidableEq, Repr

/-- The slot an access touches. -/
def Access.slot : Access → Int
  | .read k => k
  | .write k => k
  | .moveFrom k => k

/-- The accesses attempted by the loop of `std::copy_backward`, in order: each of the `n`
iterations of `*(--d_last) = *(--last)` reads slot `last - 1` and writes slot `d_last - 1`. -/
def stdCopyBackwardAccesses : Nat → Int → Int → List Access
  | 0, _, _ => []
  | n + 1, last, dLast =>
    .read (last - 1) :: .write (dLast - 1) :: stdCopyBackwardAccesses n (last - 1) (dLast - 1)

/-- The accesses attempted by the loop of `std::move_backward`, in order: each of the `n`
iterations of `*(--d_last) = std::move(*(--last))` moves from slot `last - 1` and writes slot
`d_last - 1`. -/
def stdMoveBackwardAccesses : Nat → Int → Int → List Access
  | 0, _, _ => []
  | n + 1, last, dLast =>
    .moveFrom (last - 1) :: .write (dLast - 1) ::
      stdMoveBackwardAccesses n (last - 1) (dLast - 1)

namespace SimpleVector

variable {α : Type}

/-- The accesses attempted by the in-place path of `Insert(ConstIterator, const Type&)`:
`std::copy_backward(--pos, cend(), end() + 1)` followed by `*position_insert = value`. -/
def insertInplaceAccesses (v : SimpleVector α) (pos : Int) : List Access :=
  match rangeLen (pos - 1) v.end_ with
  | none => []
  | some n => stdCopyBackwardAccesses n v.end_ (v.end_ + 1) ++ [.write (v.end_ + 1 - n)]

/-- The accesses attempted by the in-place path of `Insert(ConstIterator, Type&&)`:
`std::move_backward(--pos_not_const, end(), end() + 1)` followed by
`*position_insert = std::move(value)`. -/
def insertMoveInplaceAccesses (v : SimpleVector α) (pos : Int) : List Access :=
  match rangeLen (pos - 1) v.end_ with
  | none => []
  | some n => stdMoveBackwardAccesses n v.end_ (v.end_ + 1) ++ [.write (v.end_ + 1 - n)]

end SimpleVector

/-! ## Slot access inside a block -/

theorem readSlot_natCast {α : Type} (b : List α) (k : Nat) :
    readSlot b (k : Int) = b[k]? := by
  simp [readSlot]

theorem readSlot_of_lt {α : Type} (b : List α) (k : Nat) (h : k < b.length) :
    readSlot b (k : Int) = some b[k] := by
  simp [readSlot, List.getElem?_eq_getElem h]

theorem writeSlot_of_lt {α : Type} (b : List α) (k : Nat) (x : α) (h : k < b.length) :
    writeSlot b (k : Int) x = some (b.set k x) := by
  simp [writeSlot, h]

theorem readSlot_neg {α : Type} (b : List α) (k : Int) (h : k < 0) : readSlot b k = none := by
  simp [readSlot, not_le.mpr h]

theorem writeSlot_length {α : Type} {b b1 : List α} {k : Int} {x : α}
    (h : writeSlot b k x = some b1) : b1.length = b.length := by
  unfold writeSlot at h
  split at h
  · cases h; simp
  · cases h

theorem natCast_succ_int (k : Nat) : (k : Int) + 1 = ((k + 1 : Nat) : Int) := by
  push_cast; rfl

/-! ## What the loops compute -/

theorem take_succ_set_self {α : Type} (b : List α) (d : Nat) (x : α) (h : d < b.length) :
    (b.set d x).take (d + 1) = b.take d ++ [x] := by
  rw [List.set_eq_take_append_cons_drop, if_pos h,
    List.take_append_eq_append_take]
  simp [List.length_take, Nat.min_eq_left (Nat.le_of_lt h)]

theorem stdCopyLoop_eq {α : Type} (n : Nat) (src : List α) :
    ∀ (f : Nat) (dst : List α) (d : Nat), f + n ≤ src.length → d + n ≤ dst.length →
      stdCopyLoop n src (f : Int) dst (d : Int)
        = some (dst.take d ++ (src.drop f).take n ++ dst.drop (d + n)) := by
  induction n with
  | zero => intro f dst d _ _; simp [stdCopyLoop]
  | succ n ih =>
    intro f dst d hf hd
    have hf1 : f < src.length := by omega
    have hd1 : d < dst.length := by omega
    simp only [stdCopyLoop, readSlot_of_lt _ _ hf1, writeSlot_of_lt _ _ _ hd1, natCast_succ_int]
    rw [ih (f + 1) _ (d + 1) (by omega) (by simp; omega)]
    rw [take_succ_set_self _ _ _ hd1, List.drop_set_of_lt _ _ (by omega : d < d + 1 + n),
      List.drop_eq_getElem_cons hf1, List.take_succ_cons]
    simp [Nat.add_assoc, Nat.add_comm 1 n]


theorem take_set_of_le {α : Type} (b : List α) (m d : Nat) (x : α) (h : m ≤ d) :
    (b.set d x).take m = b.take m := by
  apply List.ext_getElem?
  intro k
  rw [List.getElem?_take, List.getElem?_take]
  split
  · rw [List.getElem?_set_ne (by omega)]
  · rfl

theorem drop_set_self {α : Type} (b : List α) (d : Nat) (x : α) (h : d < b.length) :
    (b.set d x).drop d = x :: b.drop (d + 1) := by
  rw [List.drop_set, if_neg (Nat.lt_irrefl d), Nat.sub_self, List.drop_eq_getElem_cons h]
  rfl

theorem take_succ_drop {α : Type} (b : List α) (f n : Nat) (h : f + n < b.length) :
    (b.drop f).take (n + 1) = (b.drop f).take n ++ [b[f + n]] := by
  rw [List.take_succ, List.getElem?_drop, List.getElem?_eq_getElem h]
  rfl

theorem stdMoveLoop_eq {α : Type} (mv : α → α) (n : Nat) :
    ∀ (src : List α) (f : Nat) (dst : List α) (d : Nat),
      f + n ≤ src.length → d + n ≤ dst.length →
      stdMoveLoop mv n src (f : Int) dst (d : Int)
        = some (src.take f ++ ((src.drop f).take n).map mv ++ src.drop (f + n),
                dst.take d ++ (src.drop f).take n ++ dst.drop (d + n)) := by
  induction n with
  | zero => intro src f dst d _ _; simp [stdMoveLoop]
  | succ n ih =>
    intro src f dst d hf hd
    have hf1 : f < src.length := by omega
    have hd1 : d < dst.length := by omega
    simp only [stdMoveLoop, readSlot_of_lt _ _ hf1, writeSlot_of_lt _ _ _ hd1,
      writeSlot_of_lt _ _ _ hf1, natCast_succ_int]
    rw [ih _ (f + 1) _ (d + 1) (by simp; omega) (by simp; omega)]
    rw [take_succ_set_self _ _ _ hd1, List.drop_set_of_lt _ _ (by omega : d < d + 1 + n),
      take_succ_set_self _ _ _ hf1, List.drop_set_of_lt _ _ (by omega : f < f + 1 + n),
      List.drop_set_of_lt _ _ (by omega : f < f + 1),
      List.drop_eq_getElem_cons hf1, List.take_succ_cons]
    simp [Nat.add_assoc, Nat.add_comm 1 n]

theorem stdFillLoop_eq {α : Type} (x : α) (n : Nat) :
    ∀ (b : List α) (f : Nat), f + n ≤ b.length →
      stdFillLoop n b (f : Int) x = some (b.take f ++ List.replicate n x ++ b.drop (f + n)) := by
  induction n with
  | zero => intro b f _; simp [stdFillLoop]
  | succ n ih =>
    intro b f hf
    have hf1 : f < b.length := by omega
    simp only [stdFillLoop, writeSlot_of_lt _ _ _ hf1, natCast_succ_int]
    rw [ih _ (f + 1) (by simp; omega)]
    rw [take_succ_set_self _ _ _ hf1, List.drop_set_of_lt _ _ (by omega : f < f + 1 + n)]
    simp [Nat.add_assoc, Nat.add_comm 1 n, List.replicate_succ]

theorem stdMoveWithinLoop_spec {α : Type} (mv : α → α) (n : Nat) :
    ∀ (b : List α) (p : Nat), p + 1 + n ≤ b.length →
      ∃ r, stdMoveWithinLoop mv n b ((p : Int) + 1) (p : Int) = some r ∧ r.length = b.length ∧
        r.take (p + n) = b.take p ++ (b.drop (p + 1)).take n := by
  induction n with
  | zero => intro b p _; exact ⟨b, by simp [stdMoveWithinLoop]⟩
  | succ n ih =>
    intro b p hp
    have hp1 : p + 1 < b.length := by omega
    have hp0 : p < b.length := by omega
    have hp2 : p + 1 < (b.set p b[p + 1]).length := by rw [List.length_set]; exact hp1
    simp only [stdMoveWithinLoop, natCast_succ_int, readSlot_of_lt _ _ hp1,
      writeSlot_of_lt _ _ _ hp0, writeSlot_of_lt _ _ _ hp2]
    obtain ⟨r, hr, hlen, htake⟩ := ih ((b.set p b[p + 1]).set (p + 1) (mv b[p + 1])) (p + 1)
      (by rw [List.length_set, List.length_set]; omega)
    refine ⟨r, hr, by rw [hlen, List.length_set, List.length_set], ?_⟩
    have e : p + (n + 1) = p + 1 + n := by omega
    rw [e, htake, take_set_of_le _ _ _ _ (Nat.le_refl _), take_succ_set_self _ _ _ hp0,
      List.drop_set_of_lt _ _ (by omega : p + 1 < p + 1 + 1),
      List.drop_set_of_lt _ _ (by omega : p < p + 1 + 1),
      List.drop_eq_getElem_cons hp1, List.take_succ_cons]
    simp

theorem stdCopyBackwardLoop_eq {α : Type} (n : Nat) :
    ∀ (b : List α) (first : Nat), first + n < b.length →
      stdCopyBackwardLoop n b ((first + n : Nat) : Int) (((first + n : Nat) : Int) + 1)
        = some (b.take (first + 1) ++ (b.drop first).take n ++ b.drop (first + n + 1)) := by
  induction n with
  | zero =>
    intro b first _
    simp only [stdCopyBackwardLoop, Nat.add_zero, List.take_zero, List.append_nil,
      List.take_append_drop]
  | succ n ih =>
    intro b first h
    have h1 : first + n < b.length := by omega
    have e1 : ((first + (n + 1) : Nat) : Int) - 1 = ((first + n : Nat) : Int) := by omega
    have e2 : ((first + (n + 1) : Nat) : Int) + 1 - 1 = ((first + (n + 1) : Nat) : Int) := by omega
    have e3 : ((first + (n + 1) : Nat) : Int) = ((first + n : Nat) : Int) + 1 := by omega
    simp only [stdCopyBackwardLoop, e1, e2, readSlot_of_lt _ _ h1, writeSlot_of_lt _ _ _ h]
    rw [e3, ih _ first (by simpa using h1)]
    rw [take_set_of_le _ _ _ _ (by omega), List.take_drop, List.take_drop,
      take_set_of_le _ _ _ _ (by omega), ← List.take_drop, ← List.take_drop,
      Nat.add_assoc first n 1, drop_set_self _ (first + (n + 1)) _ h, take_succ_drop _ _ _ h1]
    simp


/-! ## What the algorithms compute on ranges inside the blocks -/

theorem rangeLen_natCast (f l : Nat) (h : f ≤ l) : rangeLen (f : Int) (l : Int) = some (l - f) := by
  have e : ((l : Int) - (f : Int)).toNat = l - f := by omega
  simp [rangeLen, h, e]

theorem newBlock_length {α : Type} (fresh : Nat → α) (n : Nat) : (newBlock fresh n).length = n := by
  simp [newBlock]

theorem toInt_of_lt (n : Nat) (h : n < 2147483648) : toInt n = (n : Int) := by
  have e : n % 4294967296 = n := Nat.mod_eq_of_lt (by omega)
  simp only [toInt, e, h, if_true]

theorem arrayPtrOfSize_of_lt {α : Type} (fresh : Nat → α) (n : Nat) (h : n < 2147483648) :
    arrayPtrOfSize fresh (toInt n) = some (newBlock fresh n) := by
  rw [toInt_of_lt n h]
  unfold arrayPtrOfSize
  by_cases h0 : n = 0
  · subst h0; rfl
  · have h1 : ¬((n : Int) = 0) := by omega
    have h2 : ¬((n : Int) < 0) := by omega
    rw [if_neg h1, if_neg h2, Int.toNat_ofNat]

theorem arrayPtrOfSize_length {α : Type} (fresh : Nat → α) (size : Int) (b : List α)
    (h : arrayPtrOfSize fresh size = some b) : (b.length : Int) = size := by
  unfold arrayPtrOfSize at h
  split_ifs at h with h0 h1
  · cases h; simp [h0]
  · cases h
    rw [newBlock_length]
    omega

theorem stdCopy_eq {α : Type} (src dst : List α) (f l d : Nat) (hfl : f ≤ l)
    (hl : l ≤ src.length) (hd : d + (l - f) ≤ dst.length) :
    stdCopy src (f : Int) (l : Int) dst (d : Int)
      = some (dst.take d ++ (src.drop f).take (l - f) ++ dst.drop (d + (l - f)),
              ((d + (l - f) : Nat) : Int)) := by
  simp only [stdCopy, rangeLen_natCast f l hfl,
    stdCopyLoop_eq (l - f) src f dst d (by omega) hd]
  push_cast
  rfl

theorem stdMove_eq {α : Type} (mv : α → α) (src dst : List α) (f l d : Nat) (hfl : f ≤ l)
    (hl : l ≤ src.length) (hd : d + (l - f) ≤ dst.length) :
    stdMove mv src (f : Int) (l : Int) dst (d : Int)
      = some (src.take f ++ ((src.drop f).take (l - f)).map mv ++ src.drop (f + (l - f)),
              dst.take d ++ (src.drop f).take (l - f) ++ dst.drop (d + (l - f)),
              ((d + (l - f) : Nat) : Int)) := by
  simp only [stdMove, rangeLen_natCast f l hfl,
    stdMoveLoop_eq mv (l - f) src f dst d (by omega) hd]
  push_cast
  rfl

theorem stdFill_eq {α : Type} (b : List α) (f l : Nat) (x : α) (hfl : f ≤ l)
    (hl : l ≤ b.length) :
    stdFill b (f : Int) (l : Int) x
      = some (b.take f ++ List.replicate (l - f) x ++ b.drop (f + (l - f))) := by
  simp only [stdFill, rangeLen_natCast f l hfl, stdFillLoop_eq x (l - f) b f (by omega)]

namespace SimpleVector

variable {α : Type}

theorem Reserve_eq (fresh : Nat → α) (mv : α → α) (v : SimpleVector α) (n : Nat)
    (hwf : WF v) (hn : v.capacity_ ≤ n) (h31 : n < 2147483648) :
    Reserve fresh mv v n
      = some { items_ := v.items_.take v.size_ ++ (newBlock fresh n).drop v.size_,
               size_ := v.size_, capacity_ := n } := by
  obtain ⟨hlen, hle⟩ := hwf
  have h := stdMove_eq mv v.items_ (newBlock fresh n) 0 v.size_ 0 (Nat.zero_le _)
    (by omega) (by rw [newBlock_length]; omega)
  simp only [Nat.cast_zero] at h
  simp [Reserve, Nat.not_lt.mpr hn, hn, begin_, end_, h, arrayPtrOfSize_of_lt fresh n h31]

theorem Resize_grow_eq [Inhabited α] (fresh : Nat → α) (mv : α → α) (v : SimpleVector α)
    (n : Nat) (hwf : WF v) (hn : v.capacity_ < n) (h31 : n * 2 < 2147483648) :
    Resize fresh mv v n
      = some { items_ := v.items_.take v.size_ ++ List.replicate (n - v.size_) default
                          ++ (newBlock fresh (n * 2)).drop n,
               size_ := n, capacity_ := n * 2 } := by
  obtain ⟨hlen, hle⟩ := hwf
  have h := stdMove_eq mv v.items_ (newBlock fresh (n * 2)) 0 v.size_ 0 (Nat.zero_le _)
    (by omega) (by rw [newBlock_length]; omega)
  simp only [Nat.cast_zero] at h
  have hs : v.size_ < n := by omega
  have hmin : min v.size_ v.items_.length = v.size_ := by omega
  have h2 := stdFill_eq (v.items_.take v.size_ ++ (newBlock fresh (n * 2)).drop v.size_)
    v.size_ n (default : α) (by omega) (by simp [newBlock_length]; omega)
  have e : v.size_ + (n - v.size_) = n := by omega
  simp only [Resize, gt_iff_lt, hs, hn, if_true, begin_, end_, h, Option.bind_eq_bind,
    Option.some_bind, Nat.sub_zero, Nat.zero_add, List.take_zero, List.nil_append, List.drop_zero,
    h2, e, Option.pure_def, arrayPtrOfSize_of_lt fresh (n * 2) h31]
  congr 2
  rw [List.take_append_eq_append_take, List.drop_append_eq_append_drop]
  have hd : List.drop n (List.take v.size_ v.items_) = [] :=
    List.drop_eq_nil_of_le (by rw [List.length_take]; omega)
  simp [hmin, newBlock_length, hd, e]

theorem Resize_inplace_eq [Inhabited α] (fresh : Nat → α) (mv : α → α) (v : SimpleVector α)
    (n : Nat) (hwf : WF v) (hs : v.size_ < n) (hn : n ≤ v.capacity_) :
    Resize fresh mv v n
      = some { items_ := v.items_.take v.size_ ++ List.replicate (n - 1 - v.size_) default
                          ++ v.items_.drop (n - 1),
               size_ := n, capacity_ := v.capacity_ } := by
  obtain ⟨hlen, hle⟩ := hwf
  have e1 : (n : Int) - 1 = ((n - 1 : Nat) : Int) := by omega
  have h2 := stdFill_eq v.items_ v.size_ (n - 1) (default : α) (by omega) (by omega)
  have e : v.size_ + (n - 1 - v.size_) = n - 1 := by omega
  simp only [Resize, gt_iff_lt, hs, Nat.not_lt.mpr hn, if_true, if_false, e1, h2, e,
    Option.bind_eq_bind, Option.some_bind, Option.pure_def]

theorem Resize_shrink_eq [Inhabited α] (fresh : Nat → α) (mv : α → α) (v : SimpleVector α)
    (n : Nat) (hn : n ≤ v.size_) :
    Resize fresh mv v n = some { v with size_ := n } := by
  simp only [Resize, gt_iff_lt, Nat.not_lt.mpr hn, if_false]

theorem grownCapacity_of_full (v : SimpleVector α) (hle : v.size_ ≤ v.capacity_)
    (hfull : v.size_ + 1 > v.capacity_) :
    v.size_ < grownCapacity v ∧
      grownCapacity v = (if v.capacity_ = 0 then 2 else 2 * v.capacity_) := by
  have hs : v.size_ = v.capacity_ := by omega
  unfold grownCapacity
  by_cases h0 : v.capacity_ = 0
  · simp [h0, hs]
  · simp [h0, hs]; omega

theorem PushBack_grow_eq (fresh : Nat → α) (v : SimpleVector α) (x : α)
    (hwf : WF v) (hfull : v.size_ + 1 > v.capacity_) :
    PushBack fresh v x
      = some { items_ := v.items_.take v.size_ ++ x ::
                           (newBlock fresh (grownCapacity v)).drop (v.size_ + 1),
               size_ := v.size_ + 1, capacity_ := grownCapacity v } := by
  obtain ⟨hlen, hle⟩ := hwf
  have hg := (grownCapacity_of_full v hle hfull).1
  have h := stdCopy_eq v.items_ (newBlock fresh (grownCapacity v)) 0 v.size_ 0 (Nat.zero_le _)
    (by omega) (by rw [newBlock_length]; omega)
  simp only [Nat.cast_zero] at h
  have hw := writeSlot_of_lt
    (v.items_.take v.size_ ++ (newBlock fresh (grownCapacity v)).drop v.size_) v.size_ x
    (by simp [newBlock_length]; omega)
  have hl : (v.items_.take v.size_).length = v.size_ := by rw [List.length_take]; omega
  have hset : (v.items_.take v.size_ ++ (newBlock fresh (grownCapacity v)).drop v.size_).set
      v.size_ x = v.items_.take v.size_ ++ x ::
        (newBlock fresh (grownCapacity v)).drop (v.size_ + 1) := by
    rw [List.set_append_right _ _ (by omega), hl, Nat.sub_self,
      List.drop_eq_getElem_cons (by rw [newBlock_length]; exact hg)]
    rfl
  simp only [PushBack, gt_iff_lt, hfull, if_true, begin_, end_, h, Option.bind_eq_bind,
    Option.some_bind, Nat.sub_zero, Nat.zero_add, List.take_zero, List.nil_append,
    List.drop_zero, hw, hset, Option.pure_def]

theorem PushBackMove_grow_eq (fresh : Nat → α) (mv : α → α) (v : SimpleVector α) (x : α)
    (hwf : WF v) (hfull : v.size_ + 1 > v.capacity_) :
    PushBackMove fresh mv v x
      = some { items_ := v.items_.take v.size_ ++ x ::
                           (newBlock fresh (grownCapacity v)).drop (v.size_ + 1),
               size_ := v.size_ + 1, capacity_ := grownCapacity v } := by
  obtain ⟨hlen, hle⟩ := hwf
  have hg := (grownCapacity_of_full v hle hfull).1
  have h := stdMove_eq mv v.items_ (newBlock fresh (grownCapacity v)) 0 v.size_ 0
    (Nat.zero_le _) (by omega) (by rw [newBlock_length]; omega)
  simp only [Nat.cast_zero] at h
  have hw := writeSlot_of_lt
    (v.items_.take v.size_ ++ (newBlock fresh (grownCapacity v)).drop v.size_) v.size_ x
    (by simp [newBlock_length]; omega)
  have hl : (v.items_.take v.size_).length = v.size_ := by rw [List.length_take]; omega
  have hset : (v.items_.take v.size_ ++ (newBlock fresh (grownCapacity v)).drop v.size_).set
      v.size_ x = v.items_.take v.size_ ++ x ::
        (newBlock fresh (grownCapacity v)).drop (v.size_ + 1) := by
    rw [List.set_append_right _ _ (by omega), hl, Nat.sub_self,
      List.drop_eq_getElem_cons (by rw [newBlock_length]; exact hg)]
    rfl
  simp only [PushBackMove, gt_iff_lt, hfull, if_true, begin_, end_, h, Option.bind_eq_bind,
    Option.some_bind, Nat.sub_zero, Nat.zero_add, List.take_zero, List.nil_append,
    List.drop_zero, hw, hset, Option.pure_def]

theorem PushBack_inplace_eq (fresh : Nat → α) (v : SimpleVector α) (x : α)
    (hwf : WF v) (hroom : v.size_ + 1 ≤ v.capacity_) :
    PushBack fresh v x
      = some { items_ := v.items_.set v.size_ x, size_ := v.size_ + 1,
               capacity_ := v.capacity_ } := by
  obtain ⟨hlen, hle⟩ := hwf
  have hw := writeSlot_of_lt v.items_ v.size_ x (by omega)
  simp only [PushBack, gt_iff_lt, Nat.not_lt.mpr hroom, if_false, end_, hw,
    Option.bind_eq_bind, Option.some_bind, Option.pure_def]

theorem PushBackMove_inplace_eq (fresh : Nat → α) (mv : α → α) (v : SimpleVector α) (x : α)
    (hwf : WF v) (hroom : v.size_ + 1 ≤ v.capacity_) :
    PushBackMove fresh mv v x
      = some { items_ := v.items_.set v.size_ x, size_ := v.size_ + 1,
               capacity_ := v.capacity_ } := by
  obtain ⟨hlen, hle⟩ := hwf
  have hw := writeSlot_of_lt v.items_ v.size_ x (by omega)
  simp only [PushBackMove, gt_iff_lt, Nat.not_lt.mpr hroom, if_false, end_, hw,
    Option.bind_eq_bind, Option.some_bind, Option.pure_def]

theorem drop_prefix_append (A M : List α) (i : Nat) (h : A.length = i) :
    (A ++ M).drop i = M := by
  subst h; simp

theorem set_append_cons_self (A : List α) (y x : α) (M : List α) (i : Nat)
    (h : A.length = i) : (A ++ y :: M).set i x = A ++ x :: M := by
  subst h; simp

theorem Insert_grow_eq (fresh : Nat → α) (v : SimpleVector α) (i : Nat) (x : α)
    (hwf : WF v) (hfull : v.size_ + 1 > v.capacity_) (hi : i ≤ v.size_)
    (h31 : grownCapacity v < 2147483648) :
    Insert fresh v (i : Int) x
      = .returned { items_ := v.items_.take i ++ x :: ((v.items_.drop i).take (v.size_ - i) ++
                      (newBlock fresh (grownCapacity v)).drop (v.size_ + 1)),
                    size_ := v.size_ + 1, capacity_ := grownCapacity v } (i : Int) := by
  obtain ⟨hlen, hle⟩ := hwf
  have hg := (grownCapacity_of_full v hle hfull).1
  have hr : ¬((i : Int) < 0 ∨ (i : Int) > (v.size_ : Int)) := by omega
  have h1 := stdCopy_eq v.items_ (newBlock fresh (grownCapacity v)) 0 i 0 (Nat.zero_le _)
    (by omega) (by rw [newBlock_length]; omega)
  simp only [Nat.cast_zero, Nat.sub_zero, Nat.zero_add, List.take_zero, List.nil_append,
    List.drop_zero] at h1
  have hl : (v.items_.take i).length = i := by rw [List.length_take]; omega
  have hw := writeSlot_of_lt (v.items_.take i ++ (newBlock fresh (grownCapacity v)).drop i) i x
    (by simp [newBlock_length]; omega)
  have hset : (v.items_.take i ++ (newBlock fresh (grownCapacity v)).drop i).set i x
      = v.items_.take i ++ x :: (newBlock fresh (grownCapacity v)).drop (i + 1) := by
    rw [List.set_append_right _ _ (by omega), hl, Nat.sub_self,
      List.drop_eq_getElem_cons (by rw [newBlock_length]; omega)]
    rfl
  have h2 := stdCopy_eq v.items_
    (v.items_.take i ++ x :: (newBlock fresh (grownCapacity v)).drop (i + 1)) i v.size_ (i + 1)
    hi (by omega) (by simp [newBlock_length]; omega)
  have e : i + 1 + (v.size_ - i) = v.size_ + 1 := by omega
  have ht : (v.items_.take i ++ x :: (newBlock fresh (grownCapacity v)).drop (i + 1)).take (i + 1)
      = v.items_.take i ++ [x] := by
    rw [List.take_append_eq_append_take, hl, List.take_of_length_le (by omega)]
    simp
  have hd : (v.items_.take i ++ x :: (newBlock fresh (grownCapacity v)).drop (i + 1)).drop
      (v.size_ + 1) = (newBlock fresh (grownCapacity v)).drop (v.size_ + 1) := by
    have e2 : v.size_ + 1 = (v.items_.take i ++ [x]).length + (v.size_ - i) := by
      simp [hl]; omega
    have e3 : v.items_.take i ++ x :: (newBlock fresh (grownCapacity v)).drop (i + 1)
        = (v.items_.take i ++ [x]) ++ (newBlock fresh (grownCapacity v)).drop (i + 1) := by simp
    rw [e3]
    conv_lhs => rw [e2, List.drop_append, List.drop_drop]
    congr 1
  rw [e, ht, hd] at h2
  simp only [Insert, InsertRef, begin_, end_, hr, if_false, insertGrow, Ref.read, gt_iff_lt,
    hfull, if_true, arrayPtrOfSize_of_lt fresh _ h31, Nat.cast_zero, h1, Option.bind_eq_bind,
    Option.some_bind, hw, hset, natCast_succ_int, h2, Option.pure_def]
  simp

theorem InsertMove_grow_eq (fresh : Nat → α) (mv : α → α) (v : SimpleVector α) (i : Nat)
    (x : α) (hwf : WF v) (hfull : v.size_ + 1 > v.capacity_) (hi : i ≤ v.size_)
    (h31 : grownCapacity v < 2147483648) :
    InsertMove fresh mv v (i : Int) x
      = .returned { items_ := v.items_.take i ++ x :: ((v.items_.drop i).take (v.size_ - i) ++
                      (newBlock fresh (grownCapacity v)).drop (v.size_ + 1)),
                    size_ := v.size_ + 1, capacity_ := grownCapacity v } (i : Int) := by
  obtain ⟨hlen, hle⟩ := hwf
  have hg := (grownCapacity_of_full v hle hfull).1
  have hr : ¬((i : Int) < 0 ∨ (i : Int) > (v.size_ : Int)) := by omega
  have h1 := stdMove_eq mv v.items_ (newBlock fresh (grownCapacity v)) 0 i 0 (Nat.zero_le _)
    (by omega) (by rw [newBlock_length]; omega)
  simp only [Nat.cast_zero, Nat.sub_zero, Nat.zero_add, List.take_zero, List.nil_append,
    List.drop_zero] at h1
  have hl : (v.items_.take i).length = i := by rw [List.length_take]; omega
  have hlm : ((v.items_.take i).map mv).length = i := by rw [List.length_map, hl]
  have hw := writeSlot_of_lt (v.items_.take i ++ (newBlock fresh (grownCapacity v)).drop i) i x
    (by simp [newBlock_length]; omega)
  have hset : (v.items_.take i ++ (newBlock fresh (grownCapacity v)).drop i).set i x
      = v.items_.take i ++ x :: (newBlock fresh (grownCapacity v)).drop (i + 1) := by
    rw [List.set_append_right _ _ (by omega), hl, Nat.sub_self,
      List.drop_eq_getElem_cons (by rw [newBlock_length]; omega)]
    rfl
  have h2 := stdMove_eq mv ((v.items_.take i).map mv ++ v.items_.drop i)
    (v.items_.take i ++ x :: (newBlock fresh (grownCapacity v)).drop (i + 1)) i v.size_ (i + 1)
    hi (by rw [List.length_append, hlm, List.length_drop]; omega)
    (by simp [newBlock_length]; omega)
  have e : i + 1 + (v.size_ - i) = v.size_ + 1 := by omega
  have ht : (v.items_.take i ++ x :: (newBlock fresh (grownCapacity v)).drop (i + 1)).take (i + 1)
      = v.items_.take i ++ [x] := by
    rw [List.take_append_eq_append_take, hl, List.take_of_length_le (by omega)]
    simp
  have hd : (v.items_.take i ++ x :: (newBlock fresh (grownCapacity v)).drop (i + 1)).drop
      (v.size_ + 1) = (newBlock fresh (grownCapacity v)).drop (v.size_ + 1) := by
    have e2 : v.size_ + 1 = (v.items_.take i ++ [x]).length + (v.size_ - i) := by
      simp [hl]; omega
    have e3 : v.items_.take i ++ x :: (newBlock fresh (grownCapacity v)).drop (i + 1)
        = (v.items_.take i ++ [x]) ++ (newBlock fresh (grownCapacity v)).drop (i + 1) := by simp
    rw [e3]
    conv_lhs => rw [e2, List.drop_append, List.drop_drop]
    congr 1
  rw [e, ht, hd, drop_prefix_append _ _ _ hlm] at h2
  simp only [InsertMove, begin_, end_, hr, if_false, insertMoveGrow, gt_iff_lt, hfull, if_true,
    arrayPtrOfSize_of_lt fresh _ h31, Nat.cast_zero, h1, Option.bind_eq_bind, Option.some_bind,
    hw, hset, natCast_succ_int, h2, Option.pure_def]
  simp

theorem stdCopyBackward_eq {α : Type} (b : List α) (f l : Nat) (hfl : f ≤ l)
    (hl : l < b.length) :
    stdCopyBackward b (f : Int) (l : Int) ((l : Int) + 1)
      = some (b.take (f + 1) ++ (b.drop f).take (l - f) ++ b.drop (l + 1),
              ((f + 1 : Nat) : Int)) := by
  have e : l = f + (l - f) := by omega
  have h := stdCopyBackwardLoop_eq (l - f) b f (by omega)
  rw [← e] at h
  simp only [stdCopyBackward, rangeLen_natCast f l hfl, h]
  congr 2
  omega

theorem Insert_inplace_eq (fresh : Nat → α) (v : SimpleVector α) (i : Nat) (x : α)
    (hwf : WF v) (hroom : v.size_ + 1 ≤ v.capacity_) (hi0 : 1 ≤ i) (hi : i ≤ v.size_) :
    Insert fresh v (i : Int) x
      = .returned { items_ := v.items_.take i ++ x :: ((v.items_.drop i).take (v.size_ - i) ++
                      v.items_.drop (v.size_ + 1)),
                    size_ := v.size_ + 1, capacity_ := v.capacity_ } (i : Int) := by
  obtain ⟨hlen, hle⟩ := hwf
  have hr : ¬((i : Int) < 0 ∨ (i : Int) > (v.size_ : Int)) := by omega
  have e1 : (i : Int) - 1 = ((i - 1 : Nat) : Int) := by omega
  have h1 := stdCopyBackward_eq v.items_ (i - 1) v.size_ (by omega) (by omega)
  have e2 : i - 1 + 1 = i := by omega
  rw [e2] at h1
  have hl : (v.items_.take i).length = i := by rw [List.length_take]; omega
  have hmid : (v.items_.drop (i - 1)).take (v.size_ - (i - 1))
      = v.items_[i - 1] :: (v.items_.drop i).take (v.size_ - i) := by
    have e3 : v.size_ - (i - 1) = (v.size_ - i) + 1 := by omega
    rw [e3, List.drop_eq_getElem_cons (by omega : i - 1 < v.items_.length), List.take_succ_cons, e2]
  have hw := writeSlot_of_lt
    (v.items_.take i ++ (v.items_.drop (i - 1)).take (v.size_ - (i - 1))
      ++ v.items_.drop (v.size_ + 1)) i x (by simp; omega)
  have hset : (v.items_.take i ++ (v.items_.drop (i - 1)).take (v.size_ - (i - 1))
      ++ v.items_.drop (v.size_ + 1)).set i x
      = v.items_.take i ++ x :: ((v.items_.drop i).take (v.size_ - i) ++
                      v.items_.drop (v.size_ + 1)) := by
    rw [hmid, List.append_assoc, List.cons_append, set_append_cons_self _ _ _ _ _ hl]
  simp only [Insert, InsertRef, begin_, end_, hr, if_false, insertInplace, Ref.read, gt_iff_lt,
    Nat.not_lt.mpr hroom, e1, h1, Option.bind_eq_bind, Option.some_bind, hw, hset,
    Option.pure_def]

theorem stdCopyBackwardLoop_underflow {α : Type} (n : Nat) :
    ∀ (b : List α) (dLast : Int), stdCopyBackwardLoop (n + 1) b (n : Int) dLast = none := by
  induction n with
  | zero =>
    intro b dLast
    simp [stdCopyBackwardLoop, readSlot_neg]
  | succ n ih =>
    intro b dLast
    have e : ((n + 1 : Nat) : Int) - 1 = (n : Int) := by omega
    rw [stdCopyBackwardLoop, e]
    split
    · rfl
    · split
      · rfl
      · exact ih _ _

theorem stdMoveBackwardLoop_underflow {α : Type} (mv : α → α) (n : Nat) :
    ∀ (b : List α) (dLast : Int), stdMoveBackwardLoop mv (n + 1) b (n : Int) dLast = none := by
  induction n with
  | zero =>
    intro b dLast
    simp [stdMoveBackwardLoop, readSlot_neg]
  | succ n ih =>
    intro b dLast
    have e : ((n + 1 : Nat) : Int) - 1 = (n : Int) := by omega
    rw [stdMoveBackwardLoop, e]
    split
    · rfl
    · split
      · rfl
      · split
        · rfl
        · exact ih _ _

theorem rangeLen_before_begin (S : Nat) : rangeLen ((0 : Int) - 1) (S : Int) = some (S + 1) := by
  have e : ((S : Int) - ((0 : Int) - 1)).toNat = S + 1 := by omega
  have h : (0 : Int) - 1 ≤ (S : Int) := by omega
  simp only [rangeLen, h, if_true, e]

theorem Insert_inplace_begin (fresh : Nat → α) (v : SimpleVector α) (x : α)
    (hroom : v.size_ + 1 ≤ v.capacity_) :
    Insert fresh v 0 x = .undefined := by
  have hr : ¬((0 : Int) < 0 ∨ (0 : Int) > (v.size_ : Int)) := by omega
  simp only [Insert, InsertRef, begin_, end_, hr, if_false, insertInplace, gt_iff_lt,
    Nat.not_lt.mpr hroom, stdCopyBackward, rangeLen_before_begin, stdCopyBackwardLoop_underflow,
    Option.bind_eq_bind, Option.none_bind]

theorem InsertMove_inplace_begin (fresh : Nat → α) (mv : α → α) (v : SimpleVector α) (x : α)
    (hroom : v.size_ + 1 ≤ v.capacity_) :
    InsertMove fresh mv v 0 x = .undefined := by
  have hr : ¬((0 : Int) < 0 ∨ (0 : Int) > (v.size_ : Int)) := by omega
  simp only [InsertMove, begin_, end_, hr, if_false, insertMoveInplace, gt_iff_lt,
    Nat.not_lt.mpr hroom, stdMoveBackward, rangeLen_before_begin, stdMoveBackwardLoop_underflow,
    Option.bind_eq_bind, Option.none_bind]

theorem Erase_spec (mv : α → α) (v : SimpleVector α) (p : Nat) (hwf : WF v)
    (hp : p < v.size_) :
    ∃ r, Erase mv v (p : Int)
          = some ({ items_ := r, size_ := v.size_ - 1, capacity_ := v.capacity_ }, (p : Int)) ∧
      r.length = v.items_.length ∧
      r.take (v.size_ - 1) = v.items_.take p ++ (v.items_.drop (p + 1)).take (v.size_ - 1 - p) := by
  obtain ⟨hlen, hle⟩ := hwf
  obtain ⟨r, hr, hrl, hrt⟩ := stdMoveWithinLoop_spec mv (v.size_ - (p + 1)) v.items_ p (by omega)
  have e : p + (v.size_ - (p + 1)) = v.size_ - 1 := by omega
  have e2 : v.size_ - (p + 1) = v.size_ - 1 - p := by omega
  rw [e, e2] at hrt
  refine ⟨r, ?_, hrl, hrt⟩
  have hpos : v.size_ > 0 := by omega
  have hrange := rangeLen_natCast (p + 1) v.size_ (by omega)
  simp only [Nat.cast_succ] at hrange
  simp only [Erase, hpos, if_true, end_, stdMoveWithin, hrange, hr, Option.bind_eq_bind,
    Option.some_bind, Option.pure_def]

theorem take_prefix_append (b rest : List α) (S : Nat) (h : S ≤ b.length) :
    (b.take S ++ rest).take S = b.take S := by
  rw [List.take_append_eq_append_take, List.take_take, Nat.min_self, List.length_take,
    Nat.min_eq_left h, Nat.sub_self, List.take_zero, List.append_nil]

theorem take_prefix_append_cons (b rest : List α) (S : Nat) (x : α) (h : S ≤ b.length) :
    (b.take S ++ x :: rest).take (S + 1) = b.take S ++ [x] := by
  rw [List.take_append_eq_append_take, List.length_take, Nat.min_eq_left h,
    List.take_of_length_le (by rw [List.length_take]; omega)]
  have e : S + 1 - S = 1 := by omega
  rw [e]; rfl

/-! ## Constructors -/

theorem ctorSizeValue_eq (fresh : Nat → α) (n : Nat) (x : α) (h31 : n < 2147483648) :
    ctorSizeValue fresh n x = some ⟨List.replicate n x, n, n⟩ := by
  have h := stdFill_eq (newBlock fresh n) 0 n x (Nat.zero_le _) (by rw [newBlock_length])
  have hd : List.drop n (newBlock fresh n) = [] :=
    List.drop_eq_nil_of_le (by rw [newBlock_length])
  simp only [Nat.cast_zero, Nat.sub_zero, Nat.zero_add, List.take_zero, List.nil_append, hd,
    List.append_nil] at h
  simp only [ctorSizeValue, arrayPtrOfSize_of_lt fresh n h31, Int.zero_add, h,
    Option.bind_eq_bind, Option.some_bind, Option.pure_def]

theorem ctorSize_eq [Inhabited α] (fresh : Nat → α) (n : Nat) (h31 : n < 2147483648) :
    ctorSize fresh n = some ⟨List.replicate n default, n, n⟩ :=
  ctorSizeValue_eq fresh n default h31

theorem ctorInitList_eq (fresh : Nat → α) (init : List α) (h31 : init.length < 2147483648) :
    ctorInitList fresh init = some ⟨init, init.length, init.length⟩ := by
  have h := stdCopy_eq init (newBlock fresh init.length) 0 init.length 0 (Nat.zero_le _)
    (Nat.le_refl _) (by rw [newBlock_length]; omega)
  have hd : List.drop init.length (newBlock fresh init.length) = [] :=
    List.drop_eq_nil_of_le (by rw [newBlock_length])
  simp only [Nat.cast_zero, Nat.sub_zero, Nat.zero_add, List.take_zero, List.nil_append, hd,
    List.append_nil, List.drop_zero, List.take_length] at h
  simp only [ctorInitList, arrayPtrOfSize_of_lt fresh _ h31, h, Option.bind_eq_bind,
    Option.some_bind, Option.pure_def]

theorem ctorCopy_eq (fresh : Nat → α) (other : SimpleVector α)
    (hle : other.size_ ≤ other.items_.length) (h31 : other.size_ < 2147483648) :
    ctorCopy fresh other = some ⟨other.items_.take other.size_, other.size_, other.size_⟩ := by
  have h := stdCopy_eq other.items_ (newBlock fresh other.size_) 0 other.size_ 0 (Nat.zero_le _)
    hle (by rw [newBlock_length]; omega)
  have hd : List.drop other.size_ (newBlock fresh other.size_) = [] :=
    List.drop_eq_nil_of_le (by rw [newBlock_length])
  simp only [Nat.cast_zero, Nat.sub_zero, Nat.zero_add, List.take_zero, List.nil_append, hd,
    List.append_nil, List.drop_zero] at h
  simp only [ctorCopy, begin_, end_, GetSize, arrayPtrOfSize_of_lt fresh _ h31, h,
    Option.bind_eq_bind, Option.some_bind, Option.pure_def]

theorem ctorReserve_eq (fresh : Nat → α) (mv : α → α) (n : Nat) (h31 : n < 2147483648) :
    ctorReserve fresh mv n = some ⟨newBlock fresh n, 0, n⟩ := by
  have h := Reserve_eq fresh mv (ctorDefault : SimpleVector α) n ⟨rfl, Nat.le_refl _⟩
    (Nat.zero_le _) h31
  simpa [ctorReserve, ctorDefault] using h

theorem grownCapacity_gt (v : SimpleVector α) (hv : v.size_ ≤ v.capacity_)
    (hfull : v.size_ + 1 > v.capacity_) : v.size_ + 1 ≤ grownCapacity v :=
  (grownCapacity_of_full v hv hfull).1

theorem PushBack_size_le (fresh : Nat → α) (v w : SimpleVector α) (x : α)
    (hv : v.size_ ≤ v.capacity_) (h : PushBack fresh v x = some w) :
    w.size_ ≤ w.capacity_ := by
  unfold PushBack at h
  split_ifs at h with h1
  · simp only [Option.bind_eq_bind, Option.bind_eq_some, Option.pure_def] at h
    obtain ⟨⟨_, _⟩, _, _, _, h⟩ := h
    cases h
    exact grownCapacity_gt v hv h1
  · simp only [Option.bind_eq_bind, Option.bind_eq_some, Option.pure_def] at h
    obtain ⟨_, _, h⟩ := h
    cases h
    show v.size_ + 1 ≤ v.capacity_
    omega

end SimpleVector

/-! ## The algorithms keep the number of slots of the block they write -/

theorem stdCopyLoop_length {α : Type} (n : Nat) (src : List α) :
    ∀ (f : Int) (dst : List α) (d : Int) (r : List α),
      stdCopyLoop n src f dst d = some r → r.length = dst.length := by
  induction n with
  | zero => intro f dst d r h; cases h; rfl
  | succ n ih =>
    intro f dst d r h
    rw [stdCopyLoop] at h
    split at h
    · cases h
    · split at h
      · cases h
      · next hw => rw [ih _ _ _ _ h, writeSlot_length hw]

theorem stdMoveLoop_length {α : Type} (mv : α → α) (n : Nat) :
    ∀ (src : List α) (f : Int) (dst : List α) (d : Int) (s r : List α),
      stdMoveLoop mv n src f dst d = some (s, r) → r.length = dst.length := by
  induction n with
  | zero => intro src f dst d s r h; cases h; rfl
  | succ n ih =>
    intro src f dst d s r h
    rw [stdMoveLoop] at h
    split at h
    · cases h
    · split at h
      · cases h
      · next hw =>
        split at h
        · cases h
        · rw [ih _ _ _ _ _ _ h, writeSlot_length hw]

theorem stdMoveWithinLoop_length {α : Type} (mv : α → α) (n : Nat) :
    ∀ (b : List α) (f d : Int) (r : List α),
      stdMoveWithinLoop mv n b f d = some r → r.length = b.length := by
  induction n with
  | zero => intro b f d r h; cases h; rfl
  | succ n ih =>
    intro b f d r h
    rw [stdMoveWithinLoop] at h
    split at h
    · cases h
    · split at h
      · cases h
      · next hw =>
        split at h
        · cases h
        · next hw2 => rw [ih _ _ _ _ h, writeSlot_length hw2, writeSlot_length hw]

theorem stdCopyBackwardLoop_length {α : Type} (n : Nat) :
    ∀ (b : List α) (l d : Int) (r : List α),
      stdCopyBackwardLoop n b l d = some r → r.length = b.length := by
  induction n with
  | zero => intro b l d r h; cases h; rfl
  | succ n ih =>
    intro b l d r h
    rw [stdCopyBackwardLoop] at h
    split at h
    · cases h
    · split at h
      · cases h
      · next hw => rw [ih _ _ _ _ h, writeSlot_length hw]

theorem stdMoveBackwardLoop_length {α : Type} (mv : α → α) (n : Nat) :
    ∀ (b : List α) (l d : Int) (r : List α),
      stdMoveBackwardLoop mv n b l d = some r → r.length = b.length := by
  induction n with
  | zero => intro b l d r h; cases h; rfl
  | succ n ih =>
    intro b l d r h
    rw [stdMoveBackwardLoop] at h
    split at h
    · cases h
    · split at h
      · cases h
      · next hw =>
        split at h
        · cases h
        · next hw2 => rw [ih _ _ _ _ h, writeSlot_length hw2, writeSlot_length hw]

theorem stdFillLoop_length {α : Type} (x : α) (n : Nat) :
    ∀ (b : List α) (f : Int) (r : List α),
      stdFillLoop n b f x = some r → r.length = b.length := by
  induction n with
  | zero => intro b f r h; cases h; rfl
  | succ n ih =>
    intro b f r h
    rw [stdFillLoop] at h
    split at h
    · cases h
    · next hw => rw [ih _ _ _ h, writeSlot_length hw]

theorem stdCopy_length {α : Type} (src dst r : List α) (f l d it : Int)
    (h : stdCopy src f l dst d = some (r, it)) : r.length = dst.length := by
  unfold stdCopy at h
  split at h
  · cases h
  · split at h
    · cases h
    · next hl => cases h; exact stdCopyLoop_length _ _ _ _ _ _ hl

theorem stdMove_length {α : Type} (mv : α → α) (src dst s r : List α) (f l d it : Int)
    (h : stdMove mv src f l dst d = some (s, r, it)) : r.length = dst.length := by
  unfold stdMove at h
  split at h
  · cases h
  · split at h
    · cases h
    · next hl => cases h; exact stdMoveLoop_length _ _ _ _ _ _ _ _ hl

theorem stdMoveWithin_length {α : Type} (mv : α → α) (b r : List α) (f l d it : Int)
    (h : stdMoveWithin mv b f l d = some (r, it)) : r.length = b.length := by
  unfold stdMoveWithin at h
  split at h
  · cases h
  · split at h
    · cases h
    · next hl => cases h; exact stdMoveWithinLoop_length _ _ _ _ _ _ hl

theorem stdCopyBackward_length {α : Type} (b r : List α) (f l d it : Int)
    (h : stdCopyBackward b f l d = some (r, it)) : r.length = b.length := by
  unfold stdCopyBackward at h
  split at h
  · cases h
  · split at h
    · cases h
    · next hl => cases h; exact stdCopyBackwardLoop_length _ _ _ _ _ hl

theorem stdMoveBackward_length {α : Type} (mv : α → α) (b r : List α) (f l d it : Int)
    (h : stdMoveBackward mv b f l d = some (r, it)) : r.length = b.length := by
  unfold stdMoveBackward at h
  split at h
  · cases h
  · split at h
    · cases h
    · next hl => cases h; exact stdMoveBackwardLoop_length _ _ _ _ _ _ hl

theorem stdFill_length {α : Type} (b r : List α) (f l : Int) (x : α)
    (h : stdFill b f l x = some r) : r.length = b.length := by
  unfold stdFill at h
  split at h
  · cases h
  · exact stdFillLoop_length _ _ _ _ _ h

namespace SimpleVector

variable {α : Type}

theorem PushBack_block (fresh : Nat → α) (v w : SimpleVector α) (x : α)
    (hv : v.items_.length = v.capacity_) (h : PushBack fresh v x = some w) :
    w.items_.length = w.capacity_ := by
  unfold PushBack at h
  split_ifs at h with h1
  · simp only [Option.bind_eq_bind, Option.bind_eq_some, Option.pure_def] at h
    obtain ⟨⟨_, _⟩, hc, _, hw, h⟩ := h
    cases h
    rw [writeSlot_length hw, stdCopy_length _ _ _ _ _ _ _ hc, newBlock_length]
  · simp only [Option.bind_eq_bind, Option.bind_eq_some, Option.pure_def] at h
    obtain ⟨_, hw, h⟩ := h
    cases h
    rw [writeSlot_length hw]
    exact hv

end SimpleVector

/-! ## A loop that completes stayed inside the block it wrote -/

theorem writeSlot_fits {α : Type} {b b1 : List α} {k : Int} {x : α}
    (h : writeSlot b k x = some b1) : 0 ≤ k ∧ k < (b.length : Int) := by
  unfold writeSlot at h
  split at h
  · next hk => omega
  · cases h

theorem stdCopyLoop_fits {α : Type} (n : Nat) (src : List α) :
    ∀ (f : Int) (dst : List α) (d : Int) (r : List α),
      stdCopyLoop n src f dst d = some r → 0 < n → 0 ≤ d ∧ d + (n : Int) ≤ (dst.length : Int) := by
  induction n with
  | zero => intro f dst d r _ h0; omega
  | succ n ih =>
    intro f dst d r h _
    rw [stdCopyLoop] at h
    split at h
    · cases h
    · split at h
      · cases h
      · next dst1 hw =>
        have h1 := writeSlot_fits hw
        have h2 := writeSlot_length hw
        by_cases hn : 0 < n
        · have h3 := ih _ _ _ _ h hn
          rw [h2] at h3
          push_cast
          omega
        · have hn0 : n = 0 := by omega
          subst hn0
          push_cast
          omega

theorem stdMoveLoop_fits {α : Type} (mv : α → α) (n : Nat) :
    ∀ (src : List α) (f : Int) (dst : List α) (d : Int) (r : List α × List α),
      stdMoveLoop mv n src f dst d = some r → 0 < n →
        0 ≤ d ∧ d + (n : Int) ≤ (dst.length : Int) := by
  induction n with
  | zero => intro src f dst d r _ h0; omega
  | succ n ih =>
    intro src f dst d r h _
    rw [stdMoveLoop] at h
    split at h
    · cases h
    · split at h
      · cases h
      · next dst1 hw =>
        split at h
        · cases h
        · have h1 := writeSlot_fits hw
          have h2 := writeSlot_length hw
          by_cases hn : 0 < n
          · have h3 := ih _ _ _ _ _ h hn
            rw [h2] at h3
            push_cast
            omega
          · have hn0 : n = 0 := by omega
            subst hn0
            push_cast
            omega

theorem stdFillLoop_fits {α : Type} (x : α) (n : Nat) :
    ∀ (b : List α) (f : Int) (r : List α),
      stdFillLoop n b f x = some r → 0 < n → 0 ≤ f ∧ f + (n : Int) ≤ (b.length : Int) := by
  induction n with
  | zero => intro b f r _ h0; omega
  | succ n ih =>
    intro b f r h _
    rw [stdFillLoop] at h
    split at h
    · cases h
    · next b1 hw =>
      have h1 := writeSlot_fits hw
      have h2 := writeSlot_length hw
      by_cases hn : 0 < n
      · have h3 := ih _ _ _ h hn
        rw [h2] at h3
        push_cast
        omega
      · have hn0 : n = 0 := by omega
        subst hn0
        push_cast
        omega

theorem stdCopy_fits {α : Type} (src dst r : List α) (f l d it : Int)
    (h : stdCopy src f l dst d = some (r, it)) :
    f ≤ l ∧ it = d + (l - f) ∧ (f < l → 0 ≤ d ∧ d + (l - f) ≤ (dst.length : Int)) := by
  unfold stdCopy rangeLen at h
  by_cases hfl : f ≤ l
  · rw [if_pos hfl] at h
    simp only at h
    split at h
    · cases h
    · next r1 hl =>
      cases h
      have e : (((l - f).toNat : Nat) : Int) = l - f := Int.toNat_of_nonneg (by omega)
      refine ⟨hfl, by rw [e], fun hlt => ?_⟩
      have h3 := stdCopyLoop_fits _ _ _ _ _ _ hl (by omega)
      rw [e] at h3
      exact h3
  · rw [if_neg hfl] at h
    cases h

theorem stdMove_fits {α : Type} (mv : α → α) (src dst s r : List α) (f l d it : Int)
    (h : stdMove mv src f l dst d = some (s, r, it)) :
    f ≤ l ∧ it = d + (l - f) ∧ (f < l → 0 ≤ d ∧ d + (l - f) ≤ (dst.length : Int)) := by
  unfold stdMove rangeLen at h
  by_cases hfl : f ≤ l
  · rw [if_pos hfl] at h
    simp only at h
    split at h
    · cases h
    · next s1 r1 hl =>
      cases h
      have e : (((l - f).toNat : Nat) : Int) = l - f := Int.toNat_of_nonneg (by omega)
      refine ⟨hfl, by rw [e], fun hlt => ?_⟩
      have h3 := stdMoveLoop_fits _ _ _ _ _ _ _ hl (by omega)
      rw [e] at h3
      exact h3
  · rw [if_neg hfl] at h
    cases h

theorem stdFill_fits {α : Type} (b r : List α) (f l : Int) (x : α)
    (h : stdFill b f l x = some r) :
    f ≤ l ∧ (f < l → 0 ≤ f ∧ l ≤ (b.length : Int)) := by
  unfold stdFill rangeLen at h
  by_cases hfl : f ≤ l
  · rw [if_pos hfl] at h
    simp only at h
    have e : (((l - f).toNat : Nat) : Int) = l - f := Int.toNat_of_nonneg (by omega)
    refine ⟨hfl, fun hlt => ?_⟩
    have h3 := stdFillLoop_fits _ _ _ _ _ h (by omega)
    rw [e] at h3
    omega
  · rw [if_neg hfl] at h
    cases h

/-! ## The counters keep `size_ ≤ capacity_` -/

theorem sizeT_le (n : Nat) : sizeT n ≤ n :=
  Nat.mod_le _ _

theorem sizeT_of_lt (n : Nat) (h : n < 18446744073709551616) : sizeT n = n :=
  Nat.mod_eq_of_lt h

theorem toInt_le (n : Nat) : toInt n ≤ (n : Int) ∧ toInt n < 2147483648 := by
  unfold toInt
  split_ifs with h <;> omega

theorem arrayPtrSlots_le (n k : Nat) (h : arrayPtrSlots n = some k) :
    k ≤ n ∧ k < 2147483648 := by
  have ht := toInt_le n
  simp only [arrayPtrSlots, arrayPtrOfSize] at h
  split_ifs at h with h0 h1
  · simp only [Option.map_some', List.length_nil, Option.some.injEq] at h
    omega
  · cases h
  · rw [Option.map_some', newBlock_length] at h
    cases h
    omega

theorem arrayPtrSlots_of_lt (n : Nat) (h : n < 2147483648) : arrayPtrSlots n = some n := by
  simp only [arrayPtrSlots, arrayPtrOfSize_of_lt _ n h, Option.map_some', newBlock_length]

theorem arrayPtrSlots_of_block {α : Type} (fresh : Nat → α) (n : Nat) (b : List α)
    (h : arrayPtrOfSize fresh (toInt n) = some b) : arrayPtrSlots n = some b.length := by
  simp only [arrayPtrSlots]
  unfold arrayPtrOfSize at h ⊢
  split_ifs at h ⊢ with h0 h1
  · cases h; rfl
  · cases h
    simp only [Option.map_some', newBlock_length]

theorem forall_mem_append_singleton {β : Type} (P : β → Prop) (st : List β) (w : β)
    (h0 : ∀ v ∈ st, P v) (hw : P w) : ∀ v ∈ st ++ [w], P v := by
  intro v hv
  rcases List.mem_append.mp hv with h | h
  · exact h0 v h
  · rw [List.mem_singleton.mp h]; exact hw

theorem forall_mem_set {β : Type} (P : β → Prop) (st : List β) (i : Nat) (w : β)
    (h0 : ∀ v ∈ st, P v) (hw : P w) : ∀ v ∈ st.set i w, P v := by
  intro v hv
  rcases List.mem_or_eq_of_mem_set hv with h | h
  · exact h0 v h
  · rw [h]; exact hw

namespace Counters

theorem ctorSize_keeps (n : Nat) (w : Counters) (h : ctorSize n = some w) :
    w.size_ ≤ w.capacity_ := by
  simp only [ctorSize, Option.bind_eq_bind, Option.bind_eq_some] at h
  obtain ⟨k, _, h⟩ := h
  split_ifs at h
  cases h
  exact Nat.le_refl _

theorem ctorCopy_keeps (o w : Counters) (h : ctorCopy o = some w) :
    w.size_ ≤ w.capacity_ := by
  simp only [ctorCopy, Option.bind_eq_bind, Option.bind_eq_some] at h
  obtain ⟨k, _, h⟩ := h
  split_ifs at h
  cases h
  exact Nat.le_refl _

theorem Reserve_keeps (c w : Counters) (n : Nat) (hc : c.size_ ≤ c.capacity_)
    (h : c.Reserve n = some w) : w.size_ ≤ w.capacity_ := by
  unfold Reserve at h
  split_ifs at h with h1 h2
  · cases h; exact hc
  · simp only [Option.bind_eq_bind, Option.bind_eq_some] at h
    obtain ⟨k, _, h⟩ := h
    split_ifs at h
    cases h
    show c.size_ ≤ n
    omega
  · omega

theorem Resize_keeps (c w : Counters) (n : Nat) (hc : c.size_ ≤ c.capacity_)
    (h : c.Resize n = some w) : w.size_ ≤ w.capacity_ := by
  unfold Resize at h
  split_ifs at h with h1 h2
  · simp only [Option.bind_eq_bind, Option.bind_eq_some] at h
    obtain ⟨k, hk, h⟩ := h
    split_ifs at h with h3
    cases h
    have := (arrayPtrSlots_le _ _ hk).1
    show n ≤ sizeT (n * 2)
    omega
  · cases h
    show n ≤ c.capacity_
    omega
  · cases h
    show n ≤ c.capacity_
    omega

theorem PushBack_keeps (c w : Counters) (h : c.PushBack = some w) :
    w.size_ ≤ w.capacity_ := by
  unfold PushBack at h
  have hs := sizeT_le (c.size_ + 1)
  split_ifs at h with h1 h2
  · cases h
    show sizeT (c.size_ + 1) ≤ grownCapacity c
    omega
  · cases h
    show sizeT (c.size_ + 1) ≤ c.capacity_
    omega

theorem Insert_keeps (c w : Counters) (pos : Int) (hc : c.size_ ≤ c.capacity_)
    (h : c.Insert pos = some w) : w.size_ ≤ w.capacity_ := by
  unfold Insert at h
  have hs := sizeT_le (c.size_ + 1)
  split_ifs at h with h1 h2
  · cases h; exact hc
  · simp only [Option.bind_eq_bind, Option.bind_eq_some] at h
    obtain ⟨k, hk, h⟩ := h
    split_ifs at h with h3
    cases h
    have := (arrayPtrSlots_le _ _ hk).1
    show sizeT (c.size_ + 1) ≤ grownCapacity c
    omega
  · cases h
    show sizeT (c.size_ + 1) ≤ c.capacity_
    omega

theorem PopBack_keeps (c w : Counters) (hc : c.size_ ≤ c.capacity_)
    (h : c.PopBack = some w) : w.size_ ≤ w.capacity_ := by
  unfold PopBack at h
  split_ifs at h
  cases h
  show c.size_ - 1 ≤ c.capacity_
  omega

theorem Erase_keeps (c w : Counters) (hc : c.size_ ≤ c.capacity_)
    (h : c.Erase = some w) : w.size_ ≤ w.capacity_ := by
  unfold Erase at h
  split_ifs at h
  cases h
  show c.size_ - 1 ≤ c.capacity_
  omega

theorem copyAssign_keeps (c rhs w : Counters) (h : copyAssign c rhs = some w) :
    w.size_ ≤ w.capacity_ := by
  simp only [copyAssign, Option.bind_eq_bind, Option.bind_eq_some, Option.pure_def] at h
  obtain ⟨b, hb, h⟩ := h
  cases h
  exact ctorCopy_keeps rhs b hb

end Counters

theorem stepC_keeps {α : Type} (st st1 : List Counters) (c : Call α)
    (h0 : ∀ x ∈ st, x.size_ ≤ x.capacity_) (h : stepC st c = some st1) :
    ∀ x ∈ st1, x.size_ ≤ x.capacity_ := by
  have hempty : (⟨0, 0⟩ : Counters).size_ ≤ (⟨0, 0⟩ : Counters).capacity_ := Nat.le_refl _
  have hget : ∀ (i : Nat) (x : Counters), st[i]? = some x → x.size_ ≤ x.capacity_ :=
    fun i x hx => h0 x (List.mem_iff_getElem?.mpr ⟨i, hx⟩)
  cases c with
  | ctorDefault =>
    simp only [stepC, Option.some.injEq] at h
    subst h
    exact forall_mem_append_singleton _ _ _ h0 hempty
  | ctorSize fresh size =>
    simp only [stepC, Option.map_eq_some'] at h
    obtain ⟨w, hw, rfl⟩ := h
    exact forall_mem_append_singleton _ _ _ h0 (Counters.ctorSize_keeps _ _ hw)
  | ctorSizeValue fresh size value =>
    simp only [stepC, Option.map_eq_some'] at h
    obtain ⟨w, hw, rfl⟩ := h
    exact forall_mem_append_singleton _ _ _ h0 (Counters.ctorSize_keeps _ _ hw)
  | ctorInitList fresh init =>
    simp only [stepC, Option.map_eq_some'] at h
    obtain ⟨w, hw, rfl⟩ := h
    exact forall_mem_append_singleton _ _ _ h0 (Counters.ctorSize_keeps _ _ hw)
  | ctorCopy fresh other =>
    simp only [stepC, Option.bind_eq_some, Option.map_eq_some'] at h
    obtain ⟨o, _, w, hw, rfl⟩ := h
    exact forall_mem_append_singleton _ _ _ h0 (Counters.ctorCopy_keeps _ _ hw)
  | ctorMove other =>
    simp only [stepC, Option.map_eq_some'] at h
    obtain ⟨o, ho, rfl⟩ := h
    exact forall_mem_append_singleton _ _ _ (forall_mem_set _ _ _ _ h0 hempty) (hget _ _ ho)
  | ctorReserve fresh mv n =>
    simp only [stepC, Option.map_eq_some'] at h
    obtain ⟨w, hw, rfl⟩ := h
    exact forall_mem_append_singleton _ _ _ h0 (Counters.Reserve_keeps _ _ _ hempty hw)
  | Clear i =>
    simp only [stepC, Option.map_eq_some'] at h
    obtain ⟨x, _, rfl⟩ := h
    exact forall_mem_set _ _ _ _ h0 (Nat.zero_le _)
  | Reserve fresh mv i n =>
    simp only [stepC, Option.bind_eq_some, Option.map_eq_some'] at h
    obtain ⟨x, hx, w, hw, rfl⟩ := h
    exact forall_mem_set _ _ _ _ h0 (Counters.Reserve_keeps _ _ _ (hget _ _ hx) hw)
  | Resize fresh mv i n =>
    simp only [stepC, Option.bind_eq_some, Option.map_eq_some'] at h
    obtain ⟨x, hx, w, hw, rfl⟩ := h
    exact forall_mem_set _ _ _ _ h0 (Counters.Resize_keeps _ _ _ (hget _ _ hx) hw)
  | PushBack fresh i item =>
    simp only [stepC, Option.bind_eq_some, Option.map_eq_some'] at h
    obtain ⟨x, hx, w, hw, rfl⟩ := h
    exact forall_mem_set _ _ _ _ h0 (Counters.PushBack_keeps _ _ hw)
  | PushBackMove fresh mv i item =>
    simp only [stepC, Option.bind_eq_some, Option.map_eq_some'] at h
    obtain ⟨x, hx, w, hw, rfl⟩ := h
    exact forall_mem_set _ _ _ _ h0 (Counters.PushBack_keeps _ _ hw)
  | Insert fresh i pos value =>
    simp only [stepC, Option.bind_eq_some, Option.map_eq_some'] at h
    obtain ⟨x, hx, w, hw, rfl⟩ := h
    exact forall_mem_set _ _ _ _ h0 (Counters.Insert_keeps _ _ _ (hget _ _ hx) hw)
  | InsertMove fresh mv i pos value =>
    simp only [stepC, Option.bind_eq_some, Option.map_eq_some'] at h
    obtain ⟨x, hx, w, hw, rfl⟩ := h
    exact forall_mem_set _ _ _ _ h0 (Counters.Insert_keeps _ _ _ (hget _ _ hx) hw)
  | PopBack i =>
    simp only [stepC, Option.bind_eq_some, Option.map_eq_some'] at h
    obtain ⟨x, hx, w, hw, rfl⟩ := h
    exact forall_mem_set _ _ _ _ h0 (Counters.PopBack_keeps _ _ (hget _ _ hx) hw)
  | Erase mv i pos =>
    simp only [stepC, Option.bind_eq_some, Option.map_eq_some'] at h
    obtain ⟨x, hx, w, hw, rfl⟩ := h
    exact forall_mem_set _ _ _ _ h0 (Counters.Erase_keeps _ _ (hget _ _ hx) hw)
  | swap i j =>
    simp only [stepC, Option.bind_eq_some, Option.map_eq_some'] at h
    obtain ⟨a, ha, b, hb, rfl⟩ := h
    split_ifs
    · exact h0
    · exact forall_mem_set _ _ _ _ (forall_mem_set _ _ _ _ h0 (hget _ _ hb)) (hget _ _ ha)
  | copyAssign fresh i j =>
    simp only [stepC, Option.bind_eq_some, Option.map_eq_some'] at h
    obtain ⟨a, ha, b, hb, w, hw, rfl⟩ := h
    exact forall_mem_set _ _ _ _ h0 (Counters.copyAssign_keeps _ _ _ hw)
  | moveAssign i j =>
    simp only [stepC, Option.bind_eq_some, Option.map_eq_some'] at h
    obtain ⟨a, ha, b, hb, rfl⟩ := h
    split_ifs
    · exact h0
    · exact forall_mem_set _ _ _ _ (forall_mem_set _ _ _ _ h0 (hget _ _ hb)) hempty

theorem runC_keeps {α : Type} (calls : List (Call α)) :
    ∀ (st : List Counters), (∀ x ∈ st, x.size_ ≤ x.capacity_) →
      ∀ x ∈ runC calls st, x.size_ ≤ x.capacity_ := by
  induction calls with
  | nil => intro st h0; exact h0
  | cons c cs ih =>
    intro st h0
    simp only [runC]
    cases h : stepC st c with
    | none => exact h0
    | some st1 => exact ih st1 (stepC_keeps st st1 c h0 h)

/-! ## The counters of the block model are those of the counters semantics -/

namespace SimpleVector

variable {α : Type}

theorem ctorSizeValue_counters (fresh : Nat → α) (n : Nat) (x : α) (w : SimpleVector α)
    (h : ctorSizeValue fresh n x = some w) :
    Counters.ctorSize n = some (Counters.ofVector w) := by
  simp only [ctorSizeValue, Option.bind_eq_bind, Option.bind_eq_some, Option.pure_def] at h
  obtain ⟨items, ha, items1, hf, h⟩ := h
  cases h
  have hs := arrayPtrSlots_of_block fresh n items ha
  have hfit := (stdFill_fits _ _ _ _ _ hf).2
  have hle : n ≤ items.length := by
    by_cases hn : n = 0
    · omega
    · have := hfit (by omega); omega
  simp only [Counters.ctorSize, hs, Option.bind_eq_bind, Option.some_bind, hle, if_true,
    Counters.ofVector]

theorem ctorSize_counters [Inhabited α] (fresh : Nat → α) (n : Nat) (w : SimpleVector α)
    (h : ctorSize fresh n = some w) :
    Counters.ctorSize n = some (Counters.ofVector w) :=
  ctorSizeValue_counters fresh n default w h

theorem ctorInitList_counters (fresh : Nat → α) (init : List α) (w : SimpleVector α)
    (h : ctorInitList fresh init = some w) :
    Counters.ctorSize init.length = some (Counters.ofVector w) := by
  simp only [ctorInitList, Option.bind_eq_bind, Option.bind_eq_some, Option.pure_def] at h
  obtain ⟨items, ha, ⟨items1, it⟩, hf, h⟩ := h
  cases h
  have hs := arrayPtrSlots_of_block fresh _ items ha
  have hfit := (stdCopy_fits _ _ _ _ _ _ _ hf).2.2
  have hle : init.length ≤ items.length := by
    by_cases hn : init.length = 0
    · omega
    · have := hfit (by omega); omega
  simp only [Counters.ctorSize, hs, Option.bind_eq_bind, Option.some_bind, hle, if_true,
    Counters.ofVector]

theorem ctorCopy_counters (fresh : Nat → α) (o w : SimpleVector α)
    (h : ctorCopy fresh o = some w) :
    Counters.ctorCopy (Counters.ofVector o) = some (Counters.ofVector w) := by
  simp only [ctorCopy, GetSize, begin_, end_, Option.bind_eq_bind, Option.bind_eq_some,
    Option.pure_def] at h
  obtain ⟨items, ha, ⟨items1, it⟩, hf, h⟩ := h
  cases h
  have hs := arrayPtrSlots_of_block fresh _ items ha
  have hfit := (stdCopy_fits _ _ _ _ _ _ _ hf).2.2
  have hle : o.size_ ≤ items.length := by
    by_cases hn : o.size_ = 0
    · omega
    · have := hfit (by omega); omega
  simp only [Counters.ctorCopy, Counters.ofVector, hs, Option.bind_eq_bind, Option.some_bind,
    hle, if_true]

theorem copyAssign_counters (fresh : Nat → α) (v rhs w : SimpleVector α)
    (h : copyAssign fresh v rhs = some w) :
    Counters.copyAssign (Counters.ofVector v) (Counters.ofVector rhs)
      = some (Counters.ofVector w) := by
  simp only [copyAssign, Option.bind_eq_bind, Option.bind_eq_some, Option.pure_def] at h
  obtain ⟨b, hb, h⟩ := h
  cases h
  unfold Counters.copyAssign
  rw [ctorCopy_counters fresh rhs b hb]
  rfl

theorem Reserve_counters (fresh : Nat → α) (mv : α → α) (v w : SimpleVector α) (n : Nat)
    (h : Reserve fresh mv v n = some w) :
    Counters.Reserve (Counters.ofVector v) n = some (Counters.ofVector w) := by
  unfold Reserve at h
  split_ifs at h with h1 h2
  · cases h
    simp only [Counters.Reserve, Counters.ofVector, h1, if_true]
  · simp only [begin_, end_, Option.bind_eq_bind, Option.bind_eq_some, Option.pure_def] at h
    obtain ⟨buff, ha, ⟨s, buff1, it⟩, hm, h⟩ := h
    cases h
    have hs := arrayPtrSlots_of_block fresh _ buff ha
    have hfit := (stdMove_fits _ _ _ _ _ _ _ _ _ hm).2.2
    have hle : v.size_ ≤ buff.length := by
      by_cases hn : v.size_ = 0
      · omega
      · have := hfit (by omega); omega
    simp only [Counters.Reserve, Counters.ofVector, h1, if_false, h2, if_true, hs,
      Option.bind_eq_bind, Option.some_bind, hle]
  · omega

theorem Resize_counters [Inhabited α] (fresh : Nat → α) (mv : α → α) (v w : SimpleVector α)
    (n : Nat) (h : Resize fresh mv v n = some w) :
    Counters.Resize (Counters.ofVector v) n = some (Counters.ofVector w) := by
  unfold Resize at h
  split_ifs at h with h1 h2
  · simp only [begin_, end_, Option.bind_eq_bind, Option.bind_eq_some, Option.pure_def] at h
    obtain ⟨buff, ha, ⟨s, buff1, start⟩, hm, buff2, hf, h⟩ := h
    cases h
    dsimp only at hm hf
    have hs := arrayPtrSlots_of_block fresh _ buff ha
    have hb := arrayPtrSlots_le _ _ hs
    have hmf := stdMove_fits _ _ _ _ _ _ _ _ _ hm
    have hl := stdMove_length _ _ _ _ _ _ _ _ _ hm
    have hfit := (stdFill_fits _ _ _ _ _ hf).2
    have hle : n ≤ buff.length := by
      have := hfit (by omega); omega
    have e : sizeT (n * 2) = n * 2 := sizeT_of_lt _ (by omega)
    simp only [Counters.Resize, Counters.ofVector, gt_iff_lt, h1, if_true, h2, e, hs,
      Option.bind_eq_bind, Option.some_bind, hle]
  · simp only [Option.bind_eq_bind, Option.bind_eq_some, Option.pure_def] at h
    obtain ⟨items, _, h⟩ := h
    cases h
    simp only [Counters.Resize, Counters.ofVector, gt_iff_lt, h1, if_true, h2, if_false]
  · cases h
    simp only [Counters.Resize, Counters.ofVector, gt_iff_lt, h1, if_false]

theorem grownCapacity_counters (v : SimpleVector α)
    (hb : (v.size_ + 1) * 2 < 18446744073709551616) :
    Counters.grownCapacity (Counters.ofVector v) = grownCapacity v := by
  simp only [Counters.grownCapacity, Counters.ofVector, grownCapacity]
  rw [sizeT_of_lt (v.size_ + 1) (by omega)]
  apply sizeT_of_lt
  split_ifs <;> omega

theorem PushBack_counters (fresh : Nat → α) (v w : SimpleVector α) (x : α)
    (hb : (v.size_ + 1) * 2 < 18446744073709551616) (h : PushBack fresh v x = some w) :
    Counters.PushBack (Counters.ofVector v) = some (Counters.ofVector w) := by
  have e1 : sizeT (v.size_ + 1) = v.size_ + 1 := sizeT_of_lt _ (by omega)
  have e2 := grownCapacity_counters v hb
  unfold PushBack at h
  split_ifs at h with h1
  · simp only [begin_, end_, Option.bind_eq_bind, Option.bind_eq_some, Option.pure_def] at h
    obtain ⟨⟨buff, it⟩, hc, buff1, hw, h⟩ := h
    cases h
    have hl := stdCopy_length _ _ _ _ _ _ _ hc
    have hfit := writeSlot_fits hw
    rw [hl, newBlock_length] at hfit
    have hlt : v.size_ < grownCapacity v := by omega
    unfold Counters.PushBack
    rw [e2]
    simp only [Counters.ofVector, e1, gt_iff_lt, h1, if_true, hlt]
  · simp only [Option.bind_eq_bind, Option.bind_eq_some, Option.pure_def] at h
    obtain ⟨items, _, h⟩ := h
    cases h
    simp only [Counters.PushBack, Counters.ofVector, e1, gt_iff_lt, h1, if_false]

theorem PushBackMove_counters (fresh : Nat → α) (mv : α → α) (v w : SimpleVector α) (x : α)
    (hb : (v.size_ + 1) * 2 < 18446744073709551616)
    (h : PushBackMove fresh mv v x = some w) :
    Counters.PushBack (Counters.ofVector v) = some (Counters.ofVector w) := by
  have e1 : sizeT (v.size_ + 1) = v.size_ + 1 := sizeT_of_lt _ (by omega)
  have e2 := grownCapacity_counters v hb
  unfold PushBackMove at h
  split_ifs at h with h1
  · simp only [begin_, end_, Option.bind_eq_bind, Option.bind_eq_some, Option.pure_def] at h
    obtain ⟨⟨s, buff, it⟩, hc, buff1, hw, h⟩ := h
    cases h
    have hl := stdMove_length _ _ _ _ _ _ _ _ _ hc
    have hfit := writeSlot_fits hw
    rw [hl, newBlock_length] at hfit
    have hlt : v.size_ < grownCapacity v := by omega
    unfold Counters.PushBack
    rw [e2]
    simp only [Counters.ofVector, e1, gt_iff_lt, h1, if_true, hlt]
  · simp only [Option.bind_eq_bind, Option.bind_eq_some, Option.pure_def] at h
    obtain ⟨items, _, h⟩ := h
    cases h
    simp only [Counters.PushBack, Counters.ofVector, e1, gt_iff_lt, h1, if_false]

theorem insertGrow_fits (v w : SimpleVector α) (pos it : Int) (value : Ref α) (buff : List α)
    (h1 : pos ≤ (v.size_ : Int))
    (h : insertGrow v pos value buff = some (w, it)) :
    v.size_ + 1 ≤ buff.length ∧ w.size_ = v.size_ + 1 ∧ w.capacity_ = grownCapacity v := by
  simp only [insertGrow, begin_, end_, Option.bind_eq_bind, Option.bind_eq_some,
    Option.pure_def] at h
  obtain ⟨⟨b1, p⟩, hc1, x, _, b2, hw, ⟨b3, it3⟩, hc2, h⟩ := h
  cases h
  dsimp only at hc1 hw hc2
  have hl1 := stdCopy_length _ _ _ _ _ _ _ hc1
  have hf1 := stdCopy_fits _ _ _ _ _ _ _ hc1
  have hl2 := writeSlot_length hw
  have hf2 := writeSlot_fits hw
  have hf3 := stdCopy_fits _ _ _ _ _ _ _ hc2
  refine ⟨?_, rfl, rfl⟩
  by_cases hp : pos < (v.size_ : Int)
  · have := hf3.2.2 hp
    omega
  · omega

theorem insertMoveGrow_fits (mv : α → α) (v w : SimpleVector α) (pos it : Int) (value : α)
    (buff : List α) (h1 : pos ≤ (v.size_ : Int))
    (h : insertMoveGrow mv v pos value buff = some (w, it)) :
    v.size_ + 1 ≤ buff.length ∧ w.size_ = v.size_ + 1 ∧ w.capacity_ = grownCapacity v := by
  simp only [insertMoveGrow, begin_, end_, Option.bind_eq_bind, Option.bind_eq_some,
    Option.pure_def] at h
  obtain ⟨⟨s1, b1, p⟩, hc1, b2, hw, ⟨s3, b3, it3⟩, hc2, h⟩ := h
  cases h
  dsimp only at hc1 hw hc2
  have hl1 := stdMove_length _ _ _ _ _ _ _ _ _ hc1
  have hf1 := stdMove_fits _ _ _ _ _ _ _ _ _ hc1
  have hl2 := writeSlot_length hw
  have hf2 := writeSlot_fits hw
  have hf3 := stdMove_fits _ _ _ _ _ _ _ _ _ hc2
  refine ⟨?_, rfl, rfl⟩
  by_cases hp : pos < (v.size_ : Int)
  · have := hf3.2.2 hp
    omega
  · omega

theorem insertInplace_size (v w : SimpleVector α) (pos it : Int) (value : Ref α)
    (h : insertInplace v pos value = some (w, it)) :
    w.size_ = v.size_ + 1 ∧ w.capacity_ = v.capacity_ := by
  simp only [insertInplace, Option.bind_eq_bind, Option.bind_eq_some, Option.pure_def] at h
  obtain ⟨⟨b1, p⟩, _, x, _, b2, _, h⟩ := h
  cases h
  exact ⟨rfl, rfl⟩

theorem insertMoveInplace_size (mv : α → α) (v w : SimpleVector α) (pos it : Int) (value : α)
    (h : insertMoveInplace mv v pos value = some (w, it)) :
    w.size_ = v.size_ + 1 ∧ w.capacity_ = v.capacity_ := by
  simp only [insertMoveInplace, Option.bind_eq_bind, Option.bind_eq_some,
    Option.pure_def] at h
  obtain ⟨⟨b1, p⟩, _, b2, _, h⟩ := h
  cases h
  exact ⟨rfl, rfl⟩

theorem InsertRef_counters (fresh : Nat → α) (v : SimpleVector α) (pos : Int) (value : Ref α)
    (hb : (v.size_ + 1) * 2 < 18446744073709551616) :
    (∀ w it, InsertRef fresh v pos value = .returned w it →
      Counters.Insert (Counters.ofVector v) pos = some (Counters.ofVector w)) ∧
    (∀ s, InsertRef fresh v pos value = .threw s →
      Counters.Insert (Counters.ofVector v) pos = some (Counters.ofVector s)) := by
  have e1 : sizeT (v.size_ + 1) = v.size_ + 1 := sizeT_of_lt _ (by omega)
  have e2 := grownCapacity_counters v hb
  unfold Counters.Insert
  rw [e2]
  simp only [Counters.ofVector, e1]
  unfold InsertRef
  simp only [begin_, end_]
  by_cases hr : pos < 0 ∨ pos > (v.size_ : Int)
  · rw [if_pos hr, if_pos hr]
    constructor
    · intro w it h; cases h
    · intro s h; cases h; rfl
  · rw [if_neg hr, if_neg hr]
    by_cases hfull : v.size_ + 1 > v.capacity_
    · rw [if_pos hfull, if_pos hfull]
      constructor
      · intro w it h
        split at h
        · cases h
        · next buff ha =>
          split at h
          · next v1 it1 hg =>
            cases h
            have hs := arrayPtrSlots_of_block fresh _ buff ha
            obtain ⟨hfit, hsz, hcap⟩ := insertGrow_fits v w pos it value buff (by omega) hg
            simp only [hs, Option.bind_eq_bind, Option.some_bind, hfit, if_true, hsz, hcap]
          · cases h
      · intro s h
        split at h
        · cases h
        · split at h <;> cases h
    · rw [if_neg hfull, if_neg hfull]
      constructor
      · intro w it h
        split at h
        · next v1 it1 hg =>
          cases h
          obtain ⟨hsz, hcap⟩ := insertInplace_size v w pos it value hg
          rw [hsz, hcap]
        · cases h
      · intro s h
        split at h <;> cases h

theorem InsertMove_counters (fresh : Nat → α) (mv : α → α) (v : SimpleVector α) (pos : Int)
    (value : α) (hb : (v.size_ + 1) * 2 < 18446744073709551616) :
    (∀ w it, InsertMove fresh mv v pos value = .returned w it →
      Counters.Insert (Counters.ofVector v) pos = some (Counters.ofVector w)) ∧
    (∀ s, InsertMove fresh mv v pos value = .threw s →
      Counters.Insert (Counters.ofVector v) pos = some (Counters.ofVector s)) := by
  have e1 : sizeT (v.size_ + 1) = v.size_ + 1 := sizeT_of_lt _ (by omega)
  have e2 := grownCapacity_counters v hb
  unfold Counters.Insert
  rw [e2]
  simp only [Counters.ofVector, e1]
  unfold InsertMove
  simp only [begin_, end_]
  by_cases hr : pos < 0 ∨ pos > (v.size_ : Int)
  · rw [if_pos hr, if_pos hr]
    constructor
    · intro w it h; cases h
    · intro s h; cases h; rfl
  · rw [if_neg hr, if_neg hr]
    by_cases hfull : v.size_ + 1 > v.capacity_
    · rw [if_pos hfull, if_pos hfull]
      constructor
      · intro w it h
        split at h
        · cases h
        · next buff ha =>
          split at h
          · next v1 it1 hg =>
            cases h
            have hs := arrayPtrSlots_of_block fresh _ buff ha
            obtain ⟨hfit, hsz, hcap⟩ := insertMoveGrow_fits mv v w pos it value buff (by omega)
              hg
            simp only [hs, Option.bind_eq_bind, Option.some_bind, hfit, if_true, hsz, hcap]
          · cases h
      · intro s h
        split at h
        · cases h
        · split at h <;> cases h
    · rw [if_neg hfull, if_neg hfull]
      constructor
      · intro w it h
        split at h
        · next v1 it1 hg =>
          cases h
          obtain ⟨hsz, hcap⟩ := insertMoveInplace_size mv v w pos it value hg
          rw [hsz, hcap]
        · cases h
      · intro s h
        split at h <;> cases h

theorem PopBack_counters (v w : SimpleVector α) (h : PopBack v = some w) :
    Counters.PopBack (Counters.ofVector v) = some (Counters.ofVector w) := by
  unfold PopBack at h
  split_ifs at h with h1
  cases h
  simp only [Counters.PopBack, Counters.ofVector, h1, if_true]

theorem Erase_counters (mv : α → α) (v : SimpleVector α) (pos : Int)
    (r : SimpleVector α × Int) (h : Erase mv v pos = some r) :
    Counters.Erase (Counters.ofVector v) = some (Counters.ofVector r.1) := by
  unfold Erase at h
  split_ifs at h with h1
  simp only [Option.bind_eq_bind, Option.bind_eq_some, Option.pure_def] at h
  obtain ⟨⟨items, it⟩, _, h⟩ := h
  cases h
  simp only [Counters.Erase, Counters.ofVector, h1, if_true]

end SimpleVector

/-! ## Runs of client programs -/

theorem storeOutcome_Insert_counters {α : Type} (st st1 : List (SimpleVector α)) (i : Nat)
    (v : SimpleVector α) (pos : Int) (r : Outcome (SimpleVector α) Int)
    (hret : ∀ w it, r = .returned w it →
      Counters.Insert (Counters.ofVector v) pos = some (Counters.ofVector w))
    (hthr : ∀ s, r = .threw s →
      Counters.Insert (Counters.ofVector v) pos = some (Counters.ofVector s))
    (h : storeOutcome st i r = some st1) :
    ∃ w, st1 = st.set i w ∧
      Counters.Insert (Counters.ofVector v) pos = some (Counters.ofVector w) := by
  cases r with
  | returned w it =>
    simp only [storeOutcome, Option.some.injEq] at h
    exact ⟨w, h.symm, hret w it rfl⟩
  | threw s =>
    simp only [storeOutcome, Option.some.injEq] at h
    exact ⟨s, h.symm, hthr s rfl⟩
  | undefined => simp only [storeOutcome] at h; cases h
  | badAlloc s => simp only [storeOutcome] at h; cases h

/-- Every statement the block model completes, from vectors whose size leaves room for the
growth rule in `size_t`, is completed by the counters semantics, with the same counters. -/
theorem stepC_of_step {α : Type} [Inhabited α] (st st1 : List (SimpleVector α)) (c : Call α)
    (hb : ∀ v ∈ st, (v.size_ + 1) * 2 < 18446744073709551616)
    (h : step st c = some st1) :
    stepC (st.map Counters.ofVector) c = some (st1.map Counters.ofVector) := by
  have hget : ∀ (i : Nat) (x : SimpleVector α), st[i]? = some x →
      (x.size_ + 1) * 2 < 18446744073709551616 :=
    fun i x hx => hb x (List.mem_iff_getElem?.mpr ⟨i, hx⟩)
  cases c with
  | ctorDefault =>
    simp only [step, Option.some.injEq] at h
    subst h
    simp only [stepC, List.map_append, List.map_cons, List.map_nil]
    rfl
  | ctorSize fresh size =>
    simp only [step, Option.map_eq_some'] at h
    obtain ⟨w, hw, rfl⟩ := h
    simp only [stepC, SimpleVector.ctorSize_counters fresh size w hw, Option.map_some',
      List.map_append, List.map_cons, List.map_nil]
  | ctorSizeValue fresh size value =>
    simp only [step, Option.map_eq_some'] at h
    obtain ⟨w, hw, rfl⟩ := h
    simp only [stepC, SimpleVector.ctorSizeValue_counters fresh size value w hw,
      Option.map_some', List.map_append, List.map_cons, List.map_nil]
  | ctorInitList fresh init =>
    simp only [step, Option.map_eq_some'] at h
    obtain ⟨w, hw, rfl⟩ := h
    simp only [stepC, SimpleVector.ctorInitList_counters fresh init w hw, Option.map_some',
      List.map_append, List.map_cons, List.map_nil]
  | ctorCopy fresh other =>
    simp only [step, Option.bind_eq_some, Option.map_eq_some'] at h
    obtain ⟨o, ho, w, hw, rfl⟩ := h
    simp only [stepC, List.getElem?_map, ho, Option.map_some', Option.some_bind,
      SimpleVector.ctorCopy_counters fresh o w hw, List.map_append, List.map_cons,
      List.map_nil]
  | ctorMove other =>
    simp only [step, Option.map_eq_some'] at h
    obtain ⟨o, ho, rfl⟩ := h
    simp only [stepC, List.getElem?_map, ho, Option.map_some', List.map_append, List.map_cons,
      List.map_nil, List.map_set]
    rfl
  | ctorReserve fresh mv n =>
    simp only [step, Option.map_eq_some'] at h
    obtain ⟨w, hw, rfl⟩ := h
    have hc := SimpleVector.Reserve_counters fresh mv SimpleVector.ctorDefault w n hw
    have e : Counters.ofVector (SimpleVector.ctorDefault : SimpleVector α)
        = Counters.ctorDefault := rfl
    rw [e] at hc
    simp only [stepC, hc, Option.map_some', List.map_append, List.map_cons, List.map_nil]
  | Clear i =>
    simp only [step, Option.map_eq_some'] at h
    obtain ⟨x, hx, rfl⟩ := h
    simp only [stepC, List.getElem?_map, hx, Option.map_some', List.map_set]
    rfl
  | Reserve fresh mv i n =>
    simp only [step, Option.bind_eq_some, Option.map_eq_some'] at h
    obtain ⟨x, hx, w, hw, rfl⟩ := h
    simp only [stepC, List.getElem?_map, hx, Option.map_some', Option.some_bind,
      SimpleVector.Reserve_counters fresh mv x w n hw, List.map_set]
  | Resize fresh mv i n =>
    simp only [step, Option.bind_eq_some, Option.map_eq_some'] at h
    obtain ⟨x, hx, w, hw, rfl⟩ := h
    simp only [stepC, List.getElem?_map, hx, Option.map_some', Option.some_bind,
      SimpleVector.Resize_counters fresh mv x w n hw, List.map_set]
  | PushBack fresh i item =>
    simp only [step, Option.bind_eq_some, Option.map_eq_some'] at h
    obtain ⟨x, hx, w, hw, rfl⟩ := h
    simp only [stepC, List.getElem?_map, hx, Option.map_some', Option.some_bind,
      SimpleVector.PushBack_counters fresh x w item (hget _ _ hx) hw, List.map_set]
  | PushBackMove fresh mv i item =>
    simp only [step, Option.bind_eq_some, Option.map_eq_some'] at h
    obtain ⟨x, hx, w, hw, rfl⟩ := h
    simp only [stepC, List.getElem?_map, hx, Option.map_some', Option.some_bind,
      SimpleVector.PushBackMove_counters fresh mv x w item (hget _ _ hx) hw, List.map_set]
  | Insert fresh i pos value =>
    simp only [step, Option.bind_eq_some] at h
    obtain ⟨x, hx, h⟩ := h
    have hc := SimpleVector.InsertRef_counters fresh x pos (.object value) (hget _ _ hx)
    obtain ⟨w, rfl, hw⟩ := storeOutcome_Insert_counters st st1 i x pos _ hc.1 hc.2 h
    simp only [stepC, List.getElem?_map, hx, Option.map_some', Option.some_bind, hw,
      List.map_set]
  | InsertMove fresh mv i pos value =>
    simp only [step, Option.bind_eq_some] at h
    obtain ⟨x, hx, h⟩ := h
    have hc := SimpleVector.InsertMove_counters fresh mv x pos value (hget _ _ hx)
    obtain ⟨w, rfl, hw⟩ := storeOutcome_Insert_counters st st1 i x pos _ hc.1 hc.2 h
    simp only [stepC, List.getElem?_map, hx, Option.map_some', Option.some_bind, hw,
      List.map_set]
  | PopBack i =>
    simp only [step, Option.bind_eq_some, Option.map_eq_some'] at h
    obtain ⟨x, hx, w, hw, rfl⟩ := h
    simp only [stepC, List.getElem?_map, hx, Option.map_some', Option.some_bind,
      SimpleVector.PopBack_counters x w hw, List.map_set]
  | Erase mv i pos =>
    simp only [step, Option.bind_eq_some, Option.map_eq_some'] at h
    obtain ⟨x, hx, r, hr, rfl⟩ := h
    simp only [stepC, List.getElem?_map, hx, Option.map_some', Option.some_bind,
      SimpleVector.Erase_counters mv x pos r hr, List.map_set]
  | swap i j =>
    simp only [step, Option.bind_eq_some, Option.map_eq_some'] at h
    obtain ⟨a, ha, b, hb, rfl⟩ := h
    simp only [stepC, List.getElem?_map, ha, hb, Option.map_some', Option.some_bind]
    split_ifs
    · rfl
    · simp only [List.map_set]
      rfl
  | copyAssign fresh i j =>
    simp only [step, Option.bind_eq_some, Option.map_eq_some'] at h
    obtain ⟨a, ha, b, hb, w, hw, rfl⟩ := h
    simp only [stepC, List.getElem?_map, ha, hb, Option.map_some', Option.some_bind,
      SimpleVector.copyAssign_counters fresh a b w hw, List.map_set]
  | moveAssign i j =>
    simp only [step, Option.bind_eq_some, Option.map_eq_some'] at h
    obtain ⟨a, ha, b, hb, rfl⟩ := h
    simp only [stepC, List.getElem?_map, ha, hb, Option.map_some', Option.some_bind]
    split_ifs
    · rfl
    · simp only [List.map_set]
      rfl

theorem Insert_size_le {α : Type} (fresh : Nat → α) (v w : SimpleVector α) (pos it : Int)
    (value : α) (hv : v.size_ ≤ v.capacity_)
    (h : SimpleVector.Insert fresh v pos value = .returned w it) :
    w.size_ ≤ w.capacity_ := by
  unfold SimpleVector.Insert SimpleVector.InsertRef at h
  simp only [SimpleVector.begin_, SimpleVector.end_] at h
  split_ifs at h with hr hfull
  · split at h
    · cases h
    · next buff ha =>
      split at h
      · next v1 it1 hg =>
        cases h
        obtain ⟨_, hsz, hcap⟩ := SimpleVector.insertGrow_fits v w pos it _ buff (by omega) hg
        have := SimpleVector.grownCapacity_gt v hv hfull
        omega
      · cases h
  · split at h
    · next v1 it1 hg =>
      cases h
      obtain ⟨hsz, hcap⟩ := SimpleVector.insertInplace_size v w pos it _ hg
      omega
    · cases h

theorem InsertMove_size_le {α : Type} (fresh : Nat → α) (mv : α → α) (v w : SimpleVector α)
    (pos it : Int) (value : α) (hv : v.size_ ≤ v.capacity_)
    (h : SimpleVector.InsertMove fresh mv v pos value = .returned w it) :
    w.size_ ≤ w.capacity_ := by
  unfold SimpleVector.InsertMove at h
  simp only [SimpleVector.begin_, SimpleVector.end_] at h
  split_ifs at h with hr hfull
  · split at h
    · cases h
    · next buff ha =>
      split at h
      · next v1 it1 hg =>
        cases h
        obtain ⟨_, hsz, hcap⟩ := SimpleVector.insertMoveGrow_fits mv v w pos it _ buff
          (by omega) hg
        have := SimpleVector.grownCapacity_gt v hv hfull
        omega
      · cases h
  · split at h
    · next v1 it1 hg =>
      cases h
      obtain ⟨hsz, hcap⟩ := SimpleVector.insertMoveInplace_size mv v w pos it _ hg
      omega
    · cases h

theorem PushBackMove_size_le {α : Type} (fresh : Nat → α) (mv : α → α) (v w : SimpleVector α)
    (x : α) (hv : v.size_ ≤ v.capacity_) (h : SimpleVector.PushBackMove fresh mv v x = some w) :
    w.size_ ≤ w.capacity_ := by
  unfold SimpleVector.PushBackMove at h
  split_ifs at h with h1
  · simp only [Option.bind_eq_bind, Option.bind_eq_some, Option.pure_def] at h
    obtain ⟨⟨_, _, _⟩, _, _, _, h⟩ := h
    cases h
    exact SimpleVector.grownCapacity_gt v hv h1
  · simp only [Option.bind_eq_bind, Option.bind_eq_some, Option.pure_def] at h
    obtain ⟨_, _, h⟩ := h
    cases h
    show v.size_ + 1 ≤ v.capacity_
    omega

/-- Every statement the block model completes keeps `size_ ≤ capacity_` in every vector. -/
theorem step_keeps {α : Type} [Inhabited α] (st st1 : List (SimpleVector α)) (c : Call α)
    (h0 : ∀ v ∈ st, v.size_ ≤ v.capacity_) (h : step st c = some st1) :
    ∀ v ∈ st1, v.size_ ≤ v.capacity_ := by
  have hempty : (⟨[], 0, 0⟩ : SimpleVector α).size_ ≤ (⟨[], 0, 0⟩ : SimpleVector α).capacity_ :=
    Nat.le_refl _
  have hget : ∀ (i : Nat) (x : SimpleVector α), st[i]? = some x → x.size_ ≤ x.capacity_ :=
    fun i x hx => h0 x (List.mem_iff_getElem?.mpr ⟨i, hx⟩)
  cases c with
  | ctorDefault =>
    simp only [step, Option.some.injEq] at h
    subst h
    exact forall_mem_append_singleton _ _ _ h0 hempty
  | ctorSize fresh size =>
    simp only [step, Option.map_eq_some'] at h
    obtain ⟨w, hw, rfl⟩ := h
    exact forall_mem_append_singleton _ _ _ h0
      (Counters.ctorSize_keeps _ _ (SimpleVector.ctorSize_counters _ _ _ hw))
  | ctorSizeValue fresh size value =>
    simp only [step, Option.map_eq_some'] at h
    obtain ⟨w, hw, rfl⟩ := h
    exact forall_mem_append_singleton _ _ _ h0
      (Counters.ctorSize_keeps _ _ (SimpleVector.ctorSizeValue_counters _ _ _ _ hw))
  | ctorInitList fresh init =>
    simp only [step, Option.map_eq_some'] at h
    obtain ⟨w, hw, rfl⟩ := h
    exact forall_mem_append_singleton _ _ _ h0
      (Counters.ctorSize_keeps _ _ (SimpleVector.ctorInitList_counters _ _ _ hw))
  | ctorCopy fresh other =>
    simp only [step, Option.bind_eq_some, Option.map_eq_some'] at h
    obtain ⟨o, _, w, hw, rfl⟩ := h
    exact forall_mem_append_singleton _ _ _ h0
      (Counters.ctorCopy_keeps _ _ (SimpleVector.ctorCopy_counters _ _ _ hw))
  | ctorMove other =>
    simp only [step, Option.map_eq_some'] at h
    obtain ⟨o, ho, rfl⟩ := h
    exact forall_mem_append_singleton _ _ _ (forall_mem_set _ _ _ _ h0 hempty) (hget _ _ ho)
  | ctorReserve fresh mv n =>
    simp only [step, Option.map_eq_some'] at h
    obtain ⟨w, hw, rfl⟩ := h
    exact forall_mem_append_singleton _ _ _ h0
      (Counters.Reserve_keeps _ _ _ (Nat.le_refl 0)
        (SimpleVector.Reserve_counters _ _ _ _ _ hw))
  | Clear i =>
    simp only [step, Option.map_eq_some'] at h
    obtain ⟨x, _, rfl⟩ := h
    exact forall_mem_set _ _ _ _ h0 (Nat.zero_le _)
  | Reserve fresh mv i n =>
    simp only [step, Option.bind_eq_some, Option.map_eq_some'] at h
    obtain ⟨x, hx, w, hw, rfl⟩ := h
    exact forall_mem_set _ _ _ _ h0
      (Counters.Reserve_keeps _ _ _ (hget _ _ hx) (SimpleVector.Reserve_counters _ _ _ _ _ hw))
  | Resize fresh mv i n =>
    simp only [step, Option.bind_eq_some, Option.map_eq_some'] at h
    obtain ⟨x, hx, w, hw, rfl⟩ := h
    exact forall_mem_set _ _ _ _ h0
      (Counters.Resize_keeps _ _ _ (hget _ _ hx) (SimpleVector.Resize_counters _ _ _ _ _ hw))
  | PushBack fresh i item =>
    simp only [step, Option.bind_eq_some, Option.map_eq_some'] at h
    obtain ⟨x, hx, w, hw, rfl⟩ := h
    exact forall_mem_set _ _ _ _ h0 (SimpleVector.PushBack_size_le _ _ _ _ (hget _ _ hx) hw)
  | PushBackMove fresh mv i item =>
    simp only [step, Option.bind_eq_some, Option.map_eq_some'] at h
    obtain ⟨x, hx, w, hw, rfl⟩ := h
    exact forall_mem_set _ _ _ _ h0 (PushBackMove_size_le _ _ _ _ _ (hget _ _ hx) hw)
  | Insert fresh i pos value =>
    simp only [step, Option.bind_eq_some] at h
    obtain ⟨x, hx, h⟩ := h
    cases hr : SimpleVector.Insert fresh x pos value with
    | returned w it =>
      rw [hr] at h
      simp only [storeOutcome, Option.some.injEq] at h
      subst h
      exact forall_mem_set _ _ _ _ h0 (Insert_size_le _ _ _ _ _ _ (hget _ _ hx) hr)
    | threw s =>
      rw [hr] at h
      simp only [storeOutcome, Option.some.injEq] at h
      subst h
      have hs : s = x := by
        unfold SimpleVector.Insert SimpleVector.InsertRef at hr
        split_ifs at hr
        · cases hr; rfl
        · split at hr
          · cases hr
          · split at hr <;> cases hr
        · split at hr <;> cases hr
      rw [hs]
      exact forall_mem_set _ _ _ _ h0 (hget _ _ hx)
    | undefined => rw [hr] at h; simp only [storeOutcome] at h; cases h
    | badAlloc s => rw [hr] at h; simp only [storeOutcome] at h; cases h
  | InsertMove fresh mv i pos value =>
    simp only [step, Option.bind_eq_some] at h
    obtain ⟨x, hx, h⟩ := h
    cases hr : SimpleVector.InsertMove fresh mv x pos value with
    | returned w it =>
      rw [hr] at h
      simp only [storeOutcome, Option.some.injEq] at h
      subst h
      exact forall_mem_set _ _ _ _ h0 (InsertMove_size_le _ _ _ _ _ _ _ (hget _ _ hx) hr)
    | threw s =>
      rw [hr] at h
      simp only [storeOutcome, Option.some.injEq] at h
      subst h
      have hs : s = x := by
        unfold SimpleVector.InsertMove at hr
        split_ifs at hr
        · cases hr; rfl
        · split at hr
          · cases hr
          · split at hr <;> cases hr
        · split at hr <;> cases hr
      rw [hs]
      exact forall_mem_set _ _ _ _ h0 (hget _ _ hx)
    | undefined => rw [hr] at h; simp only [storeOutcome] at h; cases h
    | badAlloc s => rw [hr] at h; simp only [storeOutcome] at h; cases h
  | PopBack i =>
    simp only [step, Option.bind_eq_some, Option.map_eq_some'] at h
    obtain ⟨x, hx, w, hw, rfl⟩ := h
    exact forall_mem_set _ _ _ _ h0
      (Counters.PopBack_keeps _ _ (hget _ _ hx) (SimpleVector.PopBack_counters _ _ hw))
  | Erase mv i pos =>
    simp only [step, Option.bind_eq_some, Option.map_eq_some'] at h
    obtain ⟨x, hx, r, hr, rfl⟩ := h
    exact forall_mem_set _ _ _ _ h0
      (Counters.Erase_keeps _ _ (hget _ _ hx) (SimpleVector.Erase_counters _ _ _ _ hr))
  | swap i j =>
    simp only [step, Option.bind_eq_some, Option.map_eq_some'] at h
    obtain ⟨a, ha, b, hb, rfl⟩ := h
    split_ifs
    · exact h0
    · exact forall_mem_set _ _ _ _ (forall_mem_set _ _ _ _ h0 (hget _ _ hb)) (hget _ _ ha)
  | copyAssign fresh i j =>
    simp only [step, Option.bind_eq_some, Option.map_eq_some'] at h
    obtain ⟨a, ha, b, hb, w, hw, rfl⟩ := h
    exact forall_mem_set _ _ _ _ h0
      (Counters.copyAssign_keeps _ _ _ (SimpleVector.copyAssign_counters _ _ _ _ hw))
  | moveAssign i j =>
    simp only [step, Option.bind_eq_some, Option.map_eq_some'] at h
    obtain ⟨a, ha, b, hb, rfl⟩ := h
    split_ifs
    · exact h0
    · exact forall_mem_set _ _ _ _ (forall_mem_set _ _ _ _ h0 (hget _ _ hb)) hempty

theorem run_keeps {α : Type} [Inhabited α] (calls : List (Call α)) :
    ∀ (st st1 : List (SimpleVector α)), (∀ v ∈ st, v.size_ ≤ v.capacity_) →
      run calls st = some st1 → ∀ v ∈ st1, v.size_ ≤ v.capacity_ := by
  induction calls with
  | nil =>
    intro st st1 h0 h
    simp only [run, Option.some.injEq] at h
    subst h
    exact h0
  | cons c cs ih =>
    intro st st1 h0 h
    simp only [run, Option.bind_eq_some] at h
    obtain ⟨st2, h2, h⟩ := h
    exact ih st2 st1 (step_keeps st st2 c h0 h2) h

theorem Counters.Insert_inplace (c : Counters) (pos : Int) (h0 : 0 ≤ pos)
    (h1 : pos ≤ (c.size_ : Int)) (hroom : c.size_ + 1 ≤ c.capacity_)
    (h64 : c.capacity_ < 18446744073709551616) :
    c.Insert pos = some ⟨c.size_ + 1, c.capacity_⟩ := by
  have e1 : sizeT (c.size_ + 1) = c.size_ + 1 := sizeT_of_lt _ (by omega)
  have hr : ¬(pos < 0 ∨ pos > (c.size_ : Int)) := by omega
  have hf : ¬(c.size_ + 1 > c.capacity_) := by omega
  simp only [Counters.Insert, hr, if_false, e1, hf]

/-! ## The size never exceeds the capacity -/

namespace SimpleVector

variable {α : Type}

/-! ## Inserting -/

/-- C2 (in-place path of `Insert`): with spare capacity the code shifts `[pos - 1, end)`
instead of `[pos, end)`.  Inserting by transfer at index 1 of `[1, 2, 3]` (element type with a
null moved-from state) leaves the moved-from value at index 0, and inserting at `begin()`
reads the slot before the block. -/
theorem Insert_inplace_defect :
    (ctorInitList (fun _ => 0) [1, 2, 3]).bind (fun v => Reserve (fun _ => 0) id v 4)
      = some (⟨[1, 2, 3, 0], 3, 4⟩ : SimpleVector Nat) ∧
    Insert (fun _ => 0) (⟨[1, 2, 3, 0], 3, 4⟩ : SimpleVector Nat) 0 99 = .undefined ∧
    (ctorInitList (fun _ => none) [some 1, some 2, some 3]).bind
        (fun v => Reserve (fun _ => none) (fun _ => none) v 4)
      = some (⟨[some 1, some 2, some 3, none], 3, 4⟩ : SimpleVector (Option Nat)) ∧
    InsertMove (fun _ => none) (fun _ => none)
        (⟨[some 1, some 2, some 3, none], 3, 4⟩ : SimpleVector (Option Nat)) 1 (some 99)
      = .returned ⟨[none, some 99, some 2, some 3], 4, 4⟩ 1 := by
  refine ⟨?_, ?_, ?_, ?_⟩ <;> decide

theorem take_inserted (b rest : List α) (S i : Nat) (x : α) (hi : i ≤ S) (hS : S ≤ b.length) :
    (b.take i ++ x :: ((b.drop i).take (S - i) ++ rest)).take (S + 1)
      = (b.take S).take i ++ x :: (b.take S).drop i := by
  have hl : (b.take i).length = i := by rw [List.length_take]; omega
  have hm : ((b.drop i).take (S - i)).length = S - i := by
    rw [List.length_take, List.length_drop]; omega
  have e1 : b.take i ++ x :: ((b.drop i).take (S - i) ++ rest)
      = (b.take i ++ x :: (b.drop i).take (S - i)) ++ rest := by simp
  have hl2 : (b.take i ++ x :: (b.drop i).take (S - i)).length = S + 1 := by
    rw [List.length_append, List.length_cons, hl, hm]; omega
  rw [e1, List.take_append_eq_append_take, hl2, Nat.sub_self, List.take_zero, List.append_nil,
    List.take_of_length_le (by omega), List.take_take, Nat.min_eq_left hi, List.drop_take]

/-- Where `Insert` by copy of an object outside the vector does what C2 says: on the growth
path (`S = C`, the new capacity below `2^31`) at every index `i ≤ S`, and with spare capacity
at every index `1 ≤ i ≤ S`. -/
theorem Insert_copy_correct (fresh : Nat → α) (v : SimpleVector α) (i : Nat) (x : α)
    (hwf : WF v) (hi : i ≤ v.GetSize) (hpath : v.GetSize = v.GetCapacity ∨ 1 ≤ i)
    (h31 : grownCapacity v < 2147483648) :
    ∃ w, Insert fresh v (i : Int) x = .returned w (i : Int) ∧
      w.GetSize = v.GetSize + 1 ∧
      elems w = (elems v).take i ++ x :: (elems v).drop i ∧
      subscript w i = some x ∧
      (v.GetSize < v.GetCapacity → w.GetCapacity = v.GetCapacity) ∧
      (v.GetSize = v.GetCapacity → 0 < v.GetCapacity → w.GetCapacity = 2 * v.GetCapacity) := by
  have hwf1 := hwf
  obtain ⟨hlen, hle⟩ := hwf
  simp only [GetSize, GetCapacity] at hi hpath ⊢
  have hl : (v.items_.take i).length = i := by rw [List.length_take]; omega
  by_cases hfull : v.size_ + 1 > v.capacity_
  · have hg := grownCapacity_of_full v hle hfull
    refine ⟨_, Insert_grow_eq fresh v i x hwf1 hfull hi h31, rfl, ?_, ?_, ?_, ?_⟩
    · simp only [elems]
      exact take_inserted _ _ _ _ _ hi (by omega)
    · simp only [subscript, Nat.lt_succ_of_le hi, if_true, readSlot_natCast]
      rw [List.getElem?_append_right (by omega), hl, Nat.sub_self]
      simp
    · intro h; omega
    · intro _ h; rw [hg.2, if_neg (by omega)]
  · have hroom : v.size_ + 1 ≤ v.capacity_ := by omega
    have hi0 : 1 ≤ i := by
      rcases hpath with h | h
      · omega
      · exact h
    refine ⟨_, Insert_inplace_eq fresh v i x hwf1 hroom hi0 hi, rfl, ?_, ?_, ?_, ?_⟩
    · simp only [elems]
      exact take_inserted _ _ _ _ _ hi (by omega)
    · simp only [subscript, Nat.lt_succ_of_le hi, if_true, readSlot_natCast]
      rw [List.getElem?_append_right (by omega), hl, Nat.sub_self]
      simp
    · intro _; rfl
    · intro h; omega

theorem Insert_copy_correct_witness :
    WF (⟨[1, 2, 3], 3, 3⟩ : SimpleVector Nat) ∧
    ∃ w, Insert (fun _ => 0) (⟨[1, 2, 3], 3, 3⟩ : SimpleVector Nat) 1 99 = .returned w 1 ∧
      w.GetSize = 4 ∧ elems w = [1, 99, 2, 3] := by
  refine ⟨by decide, ?_⟩
  obtain ⟨w, hw, h1, h2, _⟩ := Insert_copy_correct (fun _ => 0)
    (⟨[1, 2, 3], 3, 3⟩ : SimpleVector Nat) 1 99 (by decide) (by decide) (Or.inl rfl)
    (by decide)
  exact ⟨w, hw, h1, h2⟩

/-- A `value` that refers to an element of the vector is read after the in-place shift:
`v.Insert(v.begin() + 1, v[2])` on `{1, 2, 3}` with capacity 4 inserts the `2` that the shift
has put into slot 2, where an object holding the `3` of `v[2]` would insert `3`. -/
theorem InsertRef_reads_after_shift :
    InsertRef (fun _ => 0) (⟨[1, 2, 3, 0], 3, 4⟩ : SimpleVector Nat) 1 (.slot 2)
      = .returned ⟨[1, 2, 2, 3], 4, 4⟩ 1 ∧
    Insert (fun _ => 0) (⟨[1, 2, 3, 0], 3, 4⟩ : SimpleVector Nat) 1 3
      = .returned ⟨[1, 3, 2, 3], 4, 4⟩ 1 := by
  constructor <;> decide

/-- Where `Insert` by transfer does what C2 says: on the growth path (`S = C`, the new
capacity below `2^31`), at every index `i ≤ S`. -/
theorem InsertMove_grow_correct (fresh : Nat → α) (mv : α → α) (v : SimpleVector α) (i : Nat)
    (x : α) (hwf : WF v) (hi : i ≤ v.GetSize) (hfull : v.GetSize = v.GetCapacity)
    (h31 : grownCapacity v < 2147483648) :
    ∃ w, InsertMove fresh mv v (i : Int) x = .returned w (i : Int) ∧
      w.GetSize = v.GetSize + 1 ∧
      elems w = (elems v).take i ++ x :: (elems v).drop i ∧
      subscript w i = some x ∧
      (0 < v.GetCapacity → w.GetCapacity = 2 * v.GetCapacity) := by
  have hwf1 := hwf
  obtain ⟨hlen, hle⟩ := hwf
  simp only [GetSize, GetCapacity] at hi hfull ⊢
  have hl : (v.items_.take i).length = i := by rw [List.length_take]; omega
  have hf : v.size_ + 1 > v.capacity_ := by omega
  have hg := grownCapacity_of_full v hle hf
  refine ⟨_, InsertMove_grow_eq fresh mv v i x hwf1 hf hi h31, rfl, ?_, ?_, ?_⟩
  · simp only [elems]
    exact take_inserted _ _ _ _ _ hi (by omega)
  · simp only [subscript, Nat.lt_succ_of_le hi, if_true, readSlot_natCast]
    rw [List.getElem?_append_right (by omega), hl, Nat.sub_self]
    simp
  · intro h; rw [hg.2, if_neg (by omega)]

theorem InsertMove_grow_correct_witness :
    WF (⟨[1, 2, 3], 3, 3⟩ : SimpleVector Nat) ∧
    ∃ w, InsertMove (fun _ => 0) (fun _ => 0) (⟨[1, 2, 3], 3, 3⟩ : SimpleVector Nat) 1 99
        = .returned w 1 ∧
      w.GetSize = 4 ∧ elems w = [1, 99, 2, 3] ∧ w.GetCapacity = 6 := by
  refine ⟨by decide, ?_⟩
  obtain ⟨w, hw, h1, h2, _, h4⟩ := InsertMove_grow_correct (fun _ => 0) (fun _ => 0)
    (⟨[1, 2, 3], 3, 3⟩ : SimpleVector Nat) 1 99 (by decide) (by decide) rfl (by decide)
  exact ⟨w, hw, h1, h2, h4 (by decide)⟩

/-! ## Appending -/

/-- C3: on a vector with `size_ ≤ capacity_`, both `PushBack` overloads return; the result has
size `S + 1`, its elements are the old elements followed by the new value, and the capacity is
unchanged when `S + 1 ≤ C`, is `2` when `C = 0` and is `2 * C` when `S = C > 0`. -/
theorem PushBack_appends (fresh : Nat → α) (mv : α → α) (v : SimpleVector α) (x : α)
    (hwf : WF v) :
    (∃ w, PushBack fresh v x = some w) ∧ (∃ w, PushBackMove fresh mv v x = some w) ∧
    ∀ w, (PushBack fresh v x = some w ∨ PushBackMove fresh mv v x = some w) →
      w.GetSize = v.GetSize + 1 ∧ elems w = elems v ++ [x] ∧
      subscript w v.GetSize = some x ∧
      (v.GetSize + 1 ≤ v.GetCapacity → w.GetCapacity = v.GetCapacity) ∧
      (v.GetCapacity = 0 → w.GetCapacity = 2) ∧
      (v.GetSize = v.GetCapacity → 0 < v.GetCapacity → w.GetCapacity = 2 * v.GetCapacity) := by
  have hwf' := hwf
  obtain ⟨hlen, hle⟩ := hwf
  by_cases hfull : v.size_ + 1 > v.capacity_
  · have hg := grownCapacity_of_full v hle hfull
    rw [PushBack_grow_eq fresh v x hwf' hfull, PushBackMove_grow_eq fresh mv v x hwf' hfull]
    refine ⟨⟨_, rfl⟩, ⟨_, rfl⟩, ?_⟩
    intro w hw
    have hw' : w = ⟨v.items_.take v.size_ ++ x ::
        (newBlock fresh (grownCapacity v)).drop (v.size_ + 1), v.size_ + 1, grownCapacity v⟩ := by
      rcases hw with h | h <;> exact (Option.some.inj h).symm
    subst hw'
    have hl : (v.items_.take v.size_).length = v.size_ := by rw [List.length_take]; omega
    refine ⟨rfl, ?_, ?_, ?_, ?_, ?_⟩
    · simp only [elems]
      exact take_prefix_append_cons _ _ _ _ (by omega)
    · simp only [subscript, GetSize, Nat.lt_succ_self, if_true, readSlot_natCast]
      rw [List.getElem?_append_right (by omega), hl, Nat.sub_self]
      simp
    · intro h; simp only [GetSize, GetCapacity] at h; omega
    · intro h; simp only [GetCapacity] at h ⊢; rw [hg.2, if_pos h]
    · intro _ h; simp only [GetCapacity] at h ⊢; rw [hg.2, if_neg (by omega)]
  · have hroom : v.size_ + 1 ≤ v.capacity_ := by omega
    rw [PushBack_inplace_eq fresh v x hwf' hroom, PushBackMove_inplace_eq fresh mv v x hwf' hroom]
    refine ⟨⟨_, rfl⟩, ⟨_, rfl⟩, ?_⟩
    intro w hw
    have hw' : w = ⟨v.items_.set v.size_ x, v.size_ + 1, v.capacity_⟩ := by
      rcases hw with h | h <;> exact (Option.some.inj h).symm
    subst hw'
    refine ⟨rfl, ?_, ?_, ?_, ?_, ?_⟩
    · simp only [elems]
      exact take_succ_set_self _ _ _ (by omega)
    · simp only [subscript, GetSize, Nat.lt_succ_self, if_true, readSlot_natCast]
      rw [List.getElem?_set_self (by omega)]
    · intro _; rfl
    · intro h; simp only [GetCapacity] at h; omega
    · intro h; simp only [GetSize, GetCapacity] at h; omega

theorem PushBack_appends_witness :
    WF (⟨[1, 2, 3], 3, 3⟩ : SimpleVector Nat) ∧
    ∃ w, PushBack (fun _ => 0) (⟨[1, 2, 3], 3, 3⟩ : SimpleVector Nat) 4 = some w ∧
      w.GetSize = 4 ∧ elems w = [1, 2, 3, 4] ∧ w.GetCapacity = 6 := by
  refine ⟨by decide, ?_⟩
  obtain ⟨⟨w, hw⟩, _, h⟩ :=
    PushBack_appends (fun _ => 0) id (⟨[1, 2, 3], 3, 3⟩ : SimpleVector Nat) 4 (by decide)
  obtain ⟨h1, h2, _, _, _, h6⟩ := h w (Or.inl hw)
  exact ⟨w, hw, h1, h2, h6 rfl (by decide)⟩

/-! ## Resizing within the capacity -/

/-- C4 (in-place path of `Resize`): the code fills `[size_, new_size - 1)` instead of
`[size_, new_size)`.  From `[1, 2, 3, 4, 5]`, `Resize(0)` then `Resize(3)` gives the elements
`[0, 0, 3]`: the slot at index 2 keeps its stale value. -/
theorem Resize_inplace_defect :
    ((ctorInitList (fun _ => 0) [1, 2, 3, 4, 5]).bind
        (fun v => (Resize (fun _ => 0) id v 0).bind (fun v => Resize (fun _ => 0) id v 3)))
      = some (⟨[0, 0, 3, 4, 5], 3, 5⟩ : SimpleVector Nat) ∧
    elems (⟨[0, 0, 3, 4, 5], 3, 5⟩ : SimpleVector Nat) = [0, 0, 3] ∧
    subscript (⟨[0, 0, 3, 4, 5], 3, 5⟩ : SimpleVector Nat) 2 = some 3 := by
  refine ⟨?_, ?_, ?_⟩ <;> decide

/-! ## Checked access -/

/-- C5: `At(index)` throws `std::out_of_range` exactly when `index ≥ GetSize()`, in particular
at `index = GetSize()`, and leaves the vector as it was; for `index < GetSize()` it behaves as
`operator[]` at that same index, which on a vector with `size_ ≤ capacity_` is the element at
`index`. -/
theorem At_checks_index (v : SimpleVector α) (index : Nat) :
    ((∃ s, At v index = .threw s) ↔ v.GetSize ≤ index) ∧
    (v.GetSize ≤ index → At v index = .threw v) ∧
    At v v.GetSize = .threw v ∧
    (index < v.GetSize →
      At v index = (match subscript v index with
        | some x => .returned v x
        | none => .undefined)) ∧
    (WF v → index < v.GetSize →
      ∃ x, At v index = .returned v x ∧ subscript v index = some x ∧
        (elems v)[index]? = some x) := by
  refine ⟨⟨?_, ?_⟩, ?_, ?_, ?_, ?_⟩
  · rintro ⟨s, hs⟩
    by_contra hlt
    simp only [GetSize] at hlt
    simp only [At, ge_iff_le, hlt, if_false] at hs
    split at hs <;> cases hs
  · intro h
    exact ⟨v, by simp only [At, ge_iff_le, GetSize] at h ⊢; rw [if_pos h]⟩
  · intro h
    simp only [At, ge_iff_le, GetSize] at h ⊢; rw [if_pos h]
  · simp only [At, ge_iff_le, GetSize, Nat.le_refl, if_true]
  · intro h
    simp only [GetSize] at h
    simp only [At, ge_iff_le, Nat.not_le.mpr h, if_false, subscript, h, if_true]
  · rintro ⟨hlen, hle⟩ h
    simp only [GetSize] at h
    have hlt : index < v.items_.length := by omega
    refine ⟨v.items_[index], ?_, ?_, ?_⟩
    · simp only [At, ge_iff_le, Nat.not_le.mpr h, if_false, readSlot_of_lt _ _ hlt]
    · simp only [subscript, h, if_true, readSlot_of_lt _ _ hlt]
    · simp only [elems]
      rw [List.getElem?_take_of_lt h, List.getElem?_eq_getElem hlt]

/-! ## The range check of `Insert` -/

/-- C6: both `Insert` overloads throw `std::out_of_range` exactly when the position, as an
offset from `begin()`, is negative or greater than `GetSize()`; the vector is then exactly as
before the call. -/
theorem Insert_range_check (fresh : Nat → α) (mv : α → α) (v : SimpleVector α) (pos : Int)
    (x : α) :
    ((∃ s, Insert fresh v pos x = .threw s) ↔ (pos < 0 ∨ (v.GetSize : Int) < pos)) ∧
    ((∃ s, InsertMove fresh mv v pos x = .threw s) ↔ (pos < 0 ∨ (v.GetSize : Int) < pos)) ∧
    (∀ s, Insert fresh v pos x = .threw s → s = v) ∧
    (∀ s, InsertMove fresh mv v pos x = .threw s → s = v) := by
  by_cases h : pos < 0 ∨ (v.GetSize : Int) < pos
  · have e1 : Insert fresh v pos x = .threw v := by
      simp only [Insert, InsertRef, begin_, end_, gt_iff_lt]; exact if_pos h
    have e2 : InsertMove fresh mv v pos x = .threw v := by
      simp only [InsertMove, begin_, end_, gt_iff_lt]; exact if_pos h
    rw [e1, e2]
    refine ⟨⟨fun _ => h, fun _ => ⟨v, rfl⟩⟩, ⟨fun _ => h, fun _ => ⟨v, rfl⟩⟩, ?_, ?_⟩ <;>
      (intro s hs; cases hs; rfl)
  · have e1 : ∀ s, Insert fresh v pos x ≠ .threw s := by
      intro s hs
      simp only [Insert, InsertRef, begin_, end_, gt_iff_lt] at hs
      rw [if_neg (show ¬(pos < 0 ∨ (v.size_ : Int) < pos) from h)] at hs
      split at hs
      · split at hs
        · cases hs
        · split at hs <;> cases hs
      · split at hs <;> cases hs
    have e2 : ∀ s, InsertMove fresh mv v pos x ≠ .threw s := by
      intro s hs
      simp only [InsertMove, begin_, end_, gt_iff_lt] at hs
      rw [if_neg (show ¬(pos < 0 ∨ (v.size_ : Int) < pos) from h)] at hs
      split at hs
      · split at hs
        · cases hs
        · split at hs <;> cases hs
      · split at hs <;> cases hs
    refine ⟨⟨fun ⟨s, hs⟩ => absurd hs (e1 s), fun h' => absurd h' h⟩,
      ⟨fun ⟨s, hs⟩ => absurd hs (e2 s), fun h' => absurd h' h⟩,
      fun s hs => absurd hs (e1 s), fun s hs => absurd hs (e2 s)⟩

/-! ## Erasing and inserting again -/

/-- C7 (round trip at `begin()`): after `Erase(begin())` the vector has spare capacity, so
`Insert(begin(), x)` takes the in-place path and reads the slot before the block. -/
theorem Erase_Insert_begin_defect :
    (ctorInitList (fun _ => 0) [1, 2, 3]).bind (fun v => Erase id v 0)
      = some ((⟨[2, 3, 3], 2, 3⟩ : SimpleVector Nat), 0) ∧
    Insert (fun _ => 0) (⟨[2, 3, 3], 2, 3⟩ : SimpleVector Nat) 0 1 = .undefined := by
  constructor <;> decide

/-- Away from `begin()` the round trip of C7 holds: for `1 ≤ p < S`, `Erase(begin() + p)`
followed by `Insert(begin() + p, x)` of the erased value restores size and elements. -/
theorem Erase_Insert_roundtrip_of_pos (fresh : Nat → α) (mv : α → α) (v : SimpleVector α)
    (p : Nat) (x : α) (hwf : WF v) (hp0 : 1 ≤ p) (hp : p < v.GetSize)
    (hx : (elems v)[p]? = some x) :
    ∃ w u, Erase mv v (p : Int) = some (w, (p : Int)) ∧
      Insert fresh w (p : Int) x = .returned u (p : Int) ∧
      u.GetSize = v.GetSize ∧ elems u = elems v := by
  obtain ⟨r, hr, hrl, hrt⟩ := Erase_spec mv v p hwf hp
  obtain ⟨hlen, hle⟩ := hwf
  simp only [GetSize] at hp
  have hwf1 : WF (⟨r, v.size_ - 1, v.capacity_⟩ : SimpleVector α) :=
    ⟨by rw [hrl]; exact hlen, by show v.size_ - 1 ≤ v.capacity_; omega⟩
  have hins := Insert_inplace_eq fresh (⟨r, v.size_ - 1, v.capacity_⟩ : SimpleVector α) p x hwf1
    (by show v.size_ - 1 + 1 ≤ v.capacity_; omega) hp0 (by show p ≤ v.size_ - 1; omega)
  refine ⟨_, _, hr, hins, ?_, ?_⟩
  · show v.size_ - 1 + 1 = v.size_
    omega
  · have hxp : v.items_[p]? = some x := by
      simp only [elems] at hx
      rwa [List.getElem?_take_of_lt hp] at hx
    have hplt : p < v.items_.length := by omega
    have hxe : v.items_[p] = x := by
      rw [List.getElem?_eq_getElem hplt] at hxp
      exact Option.some.inj hxp
    have hl : (v.items_.take p).length = p := by rw [List.length_take]; omega
    have h1 : r.take p = v.items_.take p := by
      have e : r.take p = (r.take (v.size_ - 1)).take p := by
        rw [List.take_take, Nat.min_eq_left (by omega)]
      rw [e, hrt, List.take_append_eq_append_take, hl, Nat.sub_self, List.take_zero,
        List.append_nil, List.take_take, Nat.min_self]
    have h2 : (r.drop p).take (v.size_ - 1 - p)
        = (v.items_.drop (p + 1)).take (v.size_ - 1 - p) := by
      have e : p + (v.size_ - 1 - p) = v.size_ - 1 := by omega
      rw [List.take_drop, e, hrt, drop_prefix_append _ _ _ hl]
    simp only [elems]
    have e3 : v.size_ - 1 + 1 = p + 1 + (v.size_ - 1 - p) := by omega
    have hlen2 : (r.take p ++ [x]).length = p + 1 := by
      rw [List.length_append, h1, hl]; rfl
    have e4 : r.take p ++ x :: ((r.drop p).take (v.size_ - 1 - p) ++ r.drop (v.size_ - 1 + 1))
        = (r.take p ++ [x]) ++ ((r.drop p).take (v.size_ - 1 - p) ++ r.drop (v.size_ - 1 + 1)) := by
      simp
    rw [e4, e3, List.take_append_eq_append_take, hlen2, List.take_of_length_le (by omega),
      Nat.add_sub_cancel_left, List.take_append_eq_append_take, List.take_take, Nat.min_self]
    have hl3 : ((r.drop p).take (v.size_ - 1 - p)).length = v.size_ - 1 - p := by
      rw [h2, List.length_take, List.length_drop]; omega
    rw [hl3, Nat.sub_self, List.take_zero, List.append_nil, h1, h2]
    have e5 : v.size_ = p + (1 + (v.size_ - 1 - p)) := by omega
    conv_rhs => rw [e5, List.take_add, List.take_add]
    rw [List.append_assoc]
    congr 1
    rw [List.drop_drop, ← hxe]
    congr 1
    rw [List.drop_eq_getElem_cons hplt]
    rfl

theorem Erase_Insert_roundtrip_of_pos_witness :
    WF (⟨[1, 2, 3], 3, 3⟩ : SimpleVector Nat) ∧
    ∃ w u, Erase id (⟨[1, 2, 3], 3, 3⟩ : SimpleVector Nat) 2 = some (w, 2) ∧
      Insert (fun _ => 0) w 2 3 = .returned u 2 ∧ u.GetSize = 3 ∧ elems u = [1, 2, 3] :=
  ⟨by decide, Erase_Insert_roundtrip_of_pos (fun _ => 0) id
    (⟨[1, 2, 3], 3, 3⟩ : SimpleVector Nat) 2 3 (by decide) (by decide) (by decide) (by decide)⟩

/-! ## What a completed allocation through `ArrayPtr(int)` tells about the size asked for -/

theorem arrayPtrSlots_of_lt_two_pow_32 (m k : Nat) (h : arrayPtrSlots m = some k)
    (hm : m < 4294967296) : m < 2147483648 ∧ k = m := by
  simp only [arrayPtrSlots, arrayPtrOfSize, toInt] at h
  have e : m % 4294967296 = m := Nat.mod_eq_of_lt hm
  rw [e] at h
  by_cases hlt : m < 2147483648
  · rw [if_pos hlt] at h
    split_ifs at h with h0 h1
    · simp only [Option.map_some', List.length_nil, Option.some.injEq] at h
      omega
    · omega
    · rw [Option.map_some', newBlock_length] at h
      cases h
      omega
  · rw [if_neg hlt] at h
    split_ifs at h with h0 h1
    · omega
    · cases h
    · omega

theorem Reserve_of_some (fresh : Nat → α) (mv : α → α) (v w : SimpleVector α) (n : Nat)
    (hwf : WF v) (h : Reserve fresh mv v n = some w) :
    w.size_ = v.size_ ∧ elems w = elems v ∧ w.capacity_ = max v.capacity_ n := by
  obtain ⟨hlen, hle⟩ := hwf
  unfold Reserve at h
  split_ifs at h with h1 h2
  · cases h
    exact ⟨rfl, rfl, by omega⟩
  · simp only [begin_, end_, Option.bind_eq_bind, Option.bind_eq_some, Option.pure_def] at h
    obtain ⟨buff, ha, ⟨s, buff1, it⟩, hm, h⟩ := h
    cases h
    have hfit := (stdMove_fits _ _ _ _ _ _ _ _ _ hm).2.2
    have hle2 : v.size_ ≤ buff.length := by
      by_cases hn : v.size_ = 0
      · omega
      · have := hfit (by omega); omega
    have heq := stdMove_eq mv v.items_ buff 0 v.size_ 0 (Nat.zero_le _) (by omega) (by omega)
    simp only [Nat.cast_zero, Nat.sub_zero, Nat.zero_add, List.take_zero, List.nil_append,
      List.drop_zero] at heq
    rw [heq] at hm
    simp only [Option.some.injEq, Prod.mk.injEq] at hm
    obtain ⟨_, hb1, _⟩ := hm
    subst hb1
    refine ⟨rfl, ?_, by show n = max v.capacity_ n; omega⟩
    simp only [elems]
    exact take_prefix_append _ _ _ (by omega)
  · omega

theorem Resize_grow_bound [Inhabited α] (fresh : Nat → α) (mv : α → α) (v w : SimpleVector α)
    (n : Nat) (hle : v.size_ ≤ v.capacity_) (hn : v.capacity_ < n)
    (h : Resize fresh mv v n = some w) : n * 2 < 2147483648 := by
  have hc := Resize_counters fresh mv v w n h
  simp only [Counters.Resize, Counters.ofVector, gt_iff_lt] at hc
  by_cases hs : v.size_ < n
  · rw [if_pos hs, if_pos hn] at hc
    simp only [Option.bind_eq_bind, Option.bind_eq_some] at hc
    obtain ⟨k, hk, hc⟩ := hc
    split_ifs at hc with hfit
    have h1 := arrayPtrSlots_le _ _ hk
    have e : sizeT (n * 2) = n * 2 := sizeT_of_lt _ (by omega)
    rw [e] at hk
    exact (arrayPtrSlots_of_lt_two_pow_32 _ _ hk (by omega)).1
  · omega

/-! ## Reserving -/

/-- C10: on a vector with `size_ ≤ capacity_` and for an index `p < S`, `Erase(begin() + p)`
returns the position `p` and a vector of size `S - 1` with the same capacity whose elements are
the old elements without the one at index `p`. -/
theorem Erase_removes (mv : α → α) (v : SimpleVector α) (p : Nat) (hwf : WF v)
    (hp : p < v.GetSize) :
    ∃ w, Erase mv v (p : Int) = some (w, (p : Int)) ∧
      w.GetSize = v.GetSize - 1 ∧ w.GetCapacity = v.GetCapacity ∧
      elems w = (elems v).eraseIdx p := by
  obtain ⟨r, hr, _, hrt⟩ := Erase_spec mv v p hwf hp
  obtain ⟨hlen, hle⟩ := hwf
  simp only [GetSize] at hp
  refine ⟨_, hr, rfl, rfl, ?_⟩
  simp only [elems]
  rw [hrt, List.eraseIdx_eq_take_drop_succ, List.take_take, Nat.min_eq_left (by omega),
    List.drop_take]
  congr 2
  omega

theorem Erase_removes_witness :
    WF (⟨[1, 2, 3, 7], 3, 4⟩ : SimpleVector Nat) ∧ 1 < (3 : Nat) ∧
    ∃ w, Erase (fun _ => 0) (⟨[1, 2, 3, 7], 3, 4⟩ : SimpleVector Nat) 1 = some (w, 1) ∧
      w.GetSize = 2 ∧ w.GetCapacity = 4 ∧ elems w = [1, 3] := by
  refine ⟨by decide, by decide, ?_⟩
  exact Erase_removes (fun _ => 0) (⟨[1, 2, 3, 7], 3, 4⟩ : SimpleVector Nat) 1 (by decide)
    (by decide)

end SimpleVector

/-! ## What the comparison algorithms compute -/

theorem stdLexicographicalCompareLoop_spec {α : Type} [LT α]
    [DecidableRel (fun (x y : α) => x < y)] (b1 b2 : List α) (n : Nat) :
    ∀ (f1 f2 l2 : Nat), f1 + n ≤ b1.length → f2 ≤ l2 → l2 ≤ b2.length →
      ∃ r, stdLexicographicalCompareLoop n b1 (f1 : Int) ((f1 + n : Nat) : Int) b2 (f2 : Int)
          (l2 : Int) = some r ∧
        (r = true ↔ List.lt ((b1.drop f1).take n) ((b2.drop f2).take (l2 - f2))) := by
  induction n with
  | zero =>
    intro f1 f2 l2 h1 h2 h3
    refine ⟨decide ((f2 : Int) ≠ (l2 : Int)), ?_, ?_⟩
    · simp [stdLexicographicalCompareLoop]
    · by_cases h : f2 = l2
      · subst h
        simp only [ne_eq, not_true_eq_false, decide_False, Nat.sub_self, List.take_zero]
        constructor
        · intro h; cases h
        · intro h; cases h
      · have hlt : f2 < b2.length := by omega
        have e : l2 - f2 = (l2 - f2 - 1) + 1 := by omega
        rw [e, List.drop_eq_getElem_cons hlt, List.take_succ_cons]
        simp only [ne_eq, Nat.cast_inj, h, not_false_eq_true, decide_True, List.take_zero,
          true_iff]
        exact List.lt.nil _ _
  | succ n ih =>
    intro f1 f2 l2 h1 h2 h3
    have hf1 : f1 < b1.length := by omega
    have hne1 : (f1 : Int) ≠ ((f1 + (n + 1) : Nat) : Int) := by omega
    have e1 : f1 + (n + 1) = (f1 + 1) + n := by omega
    rw [List.drop_eq_getElem_cons hf1, List.take_succ_cons]
    by_cases h : f2 = l2
    · subst h
      refine ⟨false, ?_, ?_⟩
      · simp [stdLexicographicalCompareLoop]
      · simp only [Nat.sub_self, List.take_zero, Bool.false_eq_true, false_iff]
        intro h; cases h
    · have hlt : f2 < b2.length := by omega
      have hne2 : (f2 : Int) ≠ (l2 : Int) := by omega
      have e : l2 - f2 = (l2 - (f2 + 1)) + 1 := by omega
      rw [e, List.drop_eq_getElem_cons hlt, List.take_succ_cons]
      simp only [stdLexicographicalCompareLoop, ne_eq, hne1, not_false_eq_true, hne2, and_self,
        if_true, readSlot_of_lt _ _ hf1, readSlot_of_lt _ _ hlt]
      by_cases hxy : b1[f1] < b2[f2]
      · refine ⟨true, by rw [if_pos hxy], ?_⟩
        simp only [true_iff]
        exact List.lt.head _ _ hxy
      · by_cases hyx : b2[f2] < b1[f1]
        · refine ⟨false, by rw [if_neg hxy, if_pos hyx], ?_⟩
          simp only [Bool.false_eq_true, false_iff]
          intro h
          cases h with
          | head _ _ h => exact hxy h
          | tail _ h _ => exact h hyx
        · rw [if_neg hxy, if_neg hyx, natCast_succ_int, natCast_succ_int, e1]
          obtain ⟨r, hr, hiff⟩ := ih (f1 + 1) (f2 + 1) l2 (by omega) (by omega) h3
          refine ⟨r, hr, hiff.trans ?_⟩
          constructor
          · intro h; exact List.lt.tail hxy hyx h
          · intro h
            cases h with
            | head _ _ h => exact absurd h hxy
            | tail _ _ h => exact h

theorem list_lt_iff_first_difference {α : Type} [LinearOrder α] (l1 l2 : List α) :
    List.lt l1 l2 ↔
      ∃ k, l1.take k = l2.take k ∧
        ((k = l1.length ∧ k < l2.length) ∨
          ∃ x y, l1[k]? = some x ∧ l2[k]? = some y ∧ x < y) := by
  constructor
  · intro h
    induction h with
    | nil b bs => exact ⟨0, rfl, Or.inl ⟨rfl, Nat.succ_pos _⟩⟩
    | @head a as b bs hab => exact ⟨0, rfl, Or.inr ⟨a, b, by simp, by simp, hab⟩⟩
    | @tail a as b bs h1 h2 _ ih =>
      have hab : a = b := le_antisymm (not_lt.mp h2) (not_lt.mp h1)
      obtain ⟨k, ht, hk⟩ := ih
      refine ⟨k + 1, by simp [hab, ht], ?_⟩
      rcases hk with ⟨e, hlt⟩ | ⟨x, y, hx, hy, hxy⟩
      · exact Or.inl ⟨by simp [e], by simpa using hlt⟩
      · exact Or.inr ⟨x, y, by simpa using hx, by simpa using hy, hxy⟩
  · rintro ⟨k, ht, hk⟩
    induction k generalizing l1 l2 with
    | zero =>
      rcases hk with ⟨e, hlt⟩ | ⟨x, y, hx, hy, hxy⟩
      · have h1 : l1 = [] := List.length_eq_zero.mp e.symm
        subst h1
        cases l2 with
        | nil => simp at hlt
        | cons b bs => exact List.lt.nil _ _
      · cases l1 with
        | nil => simp at hx
        | cons a as =>
          cases l2 with
          | nil => simp at hy
          | cons b bs =>
            simp only [List.getElem?_cons_zero, Option.some.injEq] at hx hy
            subst hx; subst hy
            exact List.lt.head _ _ hxy
    | succ k ih =>
      cases l1 with
      | nil =>
        rcases hk with ⟨e, _⟩ | ⟨x, y, hx, _, _⟩
        · simp at e
        · simp at hx
      | cons a as =>
        cases l2 with
        | nil => simp at ht
        | cons b bs =>
          simp only [List.take_succ_cons, List.cons.injEq] at ht
          obtain ⟨hab, ht⟩ := ht
          subst hab
          refine List.lt.tail (lt_irrefl _) (lt_irrefl _) (ih as bs ht ?_)
          rcases hk with ⟨e, hlt⟩ | ⟨x, y, hx, hy, hxy⟩
          · exact Or.inl ⟨by simpa using e, by simpa using hlt⟩
          · exact Or.inr ⟨x, y, by simpa using hx, by simpa using hy, hxy⟩

namespace SimpleVector

variable {α : Type}

theorem elems_length (v : SimpleVector α) (hwf : WF v) : (elems v).length = v.size_ := by
  simp only [elems, List.length_take]
  have := hwf.1
  have := hwf.2
  omega

theorem opLt_spec [LT α] [DecidableRel (fun (x y : α) => x < y)] (a b : SimpleVector α)
    (ha : WF a) (hb : WF b) :
    ∃ r, opLt a b = some r ∧ (r = true ↔ List.lt (elems a) (elems b)) := by
  obtain ⟨r, hr, hiff⟩ := stdLexicographicalCompareLoop_spec a.items_ b.items_ a.size_ 0 0
    b.size_ (by have := ha.1; have := ha.2; omega) (Nat.zero_le _)
    (by have := hb.1; have := hb.2; omega)
  refine ⟨r, ?_, ?_⟩
  · have h1 := rangeLen_natCast 0 a.size_ (Nat.zero_le _)
    have h2 := rangeLen_natCast 0 b.size_ (Nat.zero_le _)
    simp only [Nat.cast_zero, Nat.sub_zero, Nat.zero_add] at h1 h2 hr
    simp only [opLt, stdLexicographicalCompare, begin_, end_, h1, h2, hr]
  · simpa [elems] using hiff

/-! ## The lexicographic order -/

/-- C11: for vectors with `size_ ≤ capacity_` over a linearly ordered element type,
`operator<` returns, and returns `true` exactly when the element sequence of `a` is
lexicographically less than that of `b`: for some `k` the first `k` elements agree and either
`a` ends there while `b` goes on, or the elements at index `k` satisfy `a[k] < b[k]`. -/
theorem opLt_lexicographic [LinearOrder α] (a b : SimpleVector α) (ha : WF a) (hb : WF b) :
    ∃ r, opLt a b = some r ∧
      (r = true ↔
        ∃ k, (elems a).take k = (elems b).take k ∧
          ((k = a.GetSize ∧ k < b.GetSize) ∨
            ∃ x y, (elems a)[k]? = some x ∧ (elems b)[k]? = some y ∧ x < y)) := by
  obtain ⟨r, hr, hiff⟩ := opLt_spec a b ha hb
  refine ⟨r, hr, hiff.trans ?_⟩
  rw [list_lt_iff_first_difference, elems_length a ha, elems_length b hb]
  rfl

theorem opLt_lexicographic_witness :
    WF (⟨[1, 2, 3], 3, 3⟩ : SimpleVector Nat) ∧ WF (⟨[1, 2, 4], 3, 3⟩ : SimpleVector Nat) ∧
    opLt (⟨[1, 2, 3], 3, 3⟩ : SimpleVector Nat) ⟨[1, 2, 4], 3, 3⟩ = some true ∧
    opLt (⟨[1, 2], 2, 2⟩ : SimpleVector Nat) ⟨[1, 2, 3], 3, 3⟩ = some true ∧
    opLt (⟨[1, 2, 3], 3, 3⟩ : SimpleVector Nat) ⟨[1, 2, 3], 3, 3⟩ = some false ∧
    ∃ r, opLt (⟨[1, 2, 3], 3, 3⟩ : SimpleVector Nat) ⟨[1, 2, 4], 3, 3⟩ = some r ∧
      (r = true ↔
        ∃ k, (elems (⟨[1, 2, 3], 3, 3⟩ : SimpleVector Nat)).take k
            = (elems (⟨[1, 2, 4], 3, 3⟩ : SimpleVector Nat)).take k ∧
          ((k = 3 ∧ k < 3) ∨
            ∃ x y, (elems (⟨[1, 2, 3], 3, 3⟩ : SimpleVector Nat))[k]? = some x ∧
              (elems (⟨[1, 2, 4], 3, 3⟩ : SimpleVector Nat))[k]? = some y ∧ x < y)) :=
  ⟨by decide, by decide, by decide, by decide, by decide,
    opLt_lexicographic ⟨[1, 2, 3], 3, 3⟩ ⟨[1, 2, 4], 3, 3⟩ (by decide) (by decide)⟩

end SimpleVector

theorem stdEqualLoop_spec {α : Type} [BEq α] [LawfulBEq α] (b1 b2 : List α) (n : Nat) :
    ∀ (f1 f2 : Nat), f1 + n ≤ b1.length → f2 + n ≤ b2.length →
      ∃ r, stdEqualLoop n b1 (f1 : Int) b2 (f2 : Int) = some r ∧
        (r = true ↔ (b1.drop f1).take n = (b2.drop f2).take n) := by
  induction n with
  | zero => intro f1 f2 _ _; exact ⟨true, rfl, by simp⟩
  | succ n ih =>
    intro f1 f2 h1 h2
    have hf1 : f1 < b1.length := by omega
    have hf2 : f2 < b2.length := by omega
    rw [List.drop_eq_getElem_cons hf1, List.drop_eq_getElem_cons hf2, List.take_succ_cons,
      List.take_succ_cons]
    simp only [stdEqualLoop, readSlot_of_lt _ _ hf1, readSlot_of_lt _ _ hf2, natCast_succ_int]
    by_cases hxy : b1[f1] = b2[f2]
    · obtain ⟨r, hr, hiff⟩ := ih (f1 + 1) (f2 + 1) (by omega) (by omega)
      refine ⟨r, by rw [if_pos (by simp [hxy])]; exact hr, hiff.trans ?_⟩
      simp [hxy]
    · refine ⟨false, by rw [if_neg (by simpa using hxy)], ?_⟩
      simp [hxy]

namespace SimpleVector

variable {α : Type}

theorem elems_eq_iff (a b : SimpleVector α) (ha : WF a) (hb : WF b) :
    elems a = elems b ↔
      a.size_ = b.size_ ∧ ∀ i, i < a.size_ → (elems a)[i]? = (elems b)[i]? := by
  constructor
  · intro h
    have hl := congrArg List.length h
    rw [elems_length a ha, elems_length b hb] at hl
    exact ⟨hl, fun i _ => by rw [h]⟩
  · rintro ⟨hs, hall⟩
    apply List.ext_getElem?
    intro i
    by_cases hi : i < a.size_
    · exact hall i hi
    · rw [List.getElem?_eq_none (by rw [elems_length a ha]; omega),
        List.getElem?_eq_none (by rw [elems_length b hb]; omega)]

theorem opEq_spec [BEq α] [LawfulBEq α] (a b : SimpleVector α) (ha : WF a) (hb : WF b) :
    ∃ r, opEq a b = some r ∧ (r = true ↔ elems a = elems b) := by
  by_cases hs : a.size_ = b.size_
  · obtain ⟨r, hr, hiff⟩ := stdEqualLoop_spec a.items_ b.items_ a.size_ 0 0
      (by have := ha.1; have := ha.2; omega) (by have := hb.1; have := hb.2; omega)
    refine ⟨r, ?_, ?_⟩
    · have h1 := rangeLen_natCast 0 a.size_ (Nat.zero_le _)
      have h2 := rangeLen_natCast 0 b.size_ (Nat.zero_le _)
      simp only [Nat.cast_zero, Nat.sub_zero] at h1 h2 hr
      simp only [opEq, GetSize, hs, beq_self_eq_true, if_true, stdEqual, begin_, end_, h1, h2,
        ne_eq, not_true_eq_false, if_false]
      rw [← hs]
      exact hr
    · rw [hiff]
      simp only [elems, List.drop_zero, hs]
  · refine ⟨false, ?_, ?_⟩
    · simp only [opEq, GetSize, beq_iff_eq, hs, if_false]
    · simp only [Bool.false_eq_true, false_iff]
      intro h
      exact hs ((elems_eq_iff a b ha hb).mp h).1

/-! ## Equality -/

/-- C12: for vectors with `size_ ≤ capacity_`, `operator==` returns, and returns `true` exactly
when the sizes agree and the elements at every index below the size are equal; the capacities
and the slots from `size_` on play no part.  `operator!=` returns the negation. -/
theorem opEq_sizes_and_elements [BEq α] [LawfulBEq α] (a b : SimpleVector α)
    (ha : WF a) (hb : WF b) :
    ∃ r, opEq a b = some r ∧ opNe a b = some (!r) ∧
      (r = true ↔
        a.GetSize = b.GetSize ∧ ∀ i, i < a.GetSize → (elems a)[i]? = (elems b)[i]?) ∧
      (r = true ↔ elems a = elems b) := by
  obtain ⟨r, hr, hiff⟩ := opEq_spec a b ha hb
  refine ⟨r, hr, by simp only [opNe, hr, Option.map_some'], ?_, hiff⟩
  exact hiff.trans (elems_eq_iff a b ha hb)

theorem opEq_sizes_and_elements_witness :
    WF (⟨[1, 2, 3], 3, 3⟩ : SimpleVector Nat) ∧
    PopBack (⟨[1, 2, 3, 4, 0, 0, 0, 0], 4, 8⟩ : SimpleVector Nat)
      = some ⟨[1, 2, 3, 4, 0, 0, 0, 0], 3, 8⟩ ∧
    WF (⟨[1, 2, 3, 4, 0, 0, 0, 0], 3, 8⟩ : SimpleVector Nat) ∧
    opEq (⟨[1, 2, 3], 3, 3⟩ : SimpleVector Nat) ⟨[1, 2, 3, 4, 0, 0, 0, 0], 3, 8⟩ = some true ∧
    ∃ r, opEq (⟨[1, 2, 3], 3, 3⟩ : SimpleVector Nat) ⟨[1, 2, 3, 4, 0, 0, 0, 0], 3, 8⟩ = some r ∧
      opNe (⟨[1, 2, 3], 3, 3⟩ : SimpleVector Nat) ⟨[1, 2, 3, 4, 0, 0, 0, 0], 3, 8⟩
        = some (!r) ∧
      (r = true ↔ elems (⟨[1, 2, 3], 3, 3⟩ : SimpleVector Nat)
        = elems (⟨[1, 2, 3, 4, 0, 0, 0, 0], 3, 8⟩ : SimpleVector Nat)) := by
  refine ⟨by decide, by decide, by decide, by decide, ?_⟩
  obtain ⟨r, h1, h2, _, h4⟩ := opEq_sizes_and_elements (⟨[1, 2, 3], 3, 3⟩ : SimpleVector Nat)
    ⟨[1, 2, 3, 4, 0, 0, 0, 0], 3, 8⟩ (by decide) (by decide)
  exact ⟨r, h1, h2, h4⟩

end SimpleVector

theorem list_lt_trichotomy {α : Type} [LinearOrder α] (l1 l2 : List α) :
    (List.lt l1 l2 ∨ l1 = l2 ∨ List.lt l2 l1) ∧ ¬(List.lt l1 l2 ∧ l1 = l2) ∧
      ¬(List.lt l1 l2 ∧ List.lt l2 l1) ∧ ¬(l1 = l2 ∧ List.lt l2 l1) := by
  rw [List.lt_iff_lex_lt, List.lt_iff_lex_lt]
  have hirr : ∀ l : List α, ¬ List.Lex (fun x y => x < y) l l := fun l => irrefl l
  refine ⟨trichotomous l1 l2, ?_, ?_, ?_⟩
  · rintro ⟨h, rfl⟩; exact hirr _ h
  · rintro ⟨h1, h2⟩; exact asymm h1 h2
  · rintro ⟨rfl, h⟩; exact hirr _ h

namespace SimpleVector

variable {α : Type}

/-! ## The derived relational operators -/

/-- C13: for vectors with `size_ ≤ capacity_` over a linearly ordered element type, all six
operators return; `a > b` is `b < a`, `a <= b` is `a < b || a == b`, `a >= b` is
`a > b || a == b`, and exactly one of `a < b`, `a == b`, `a > b` is `true`. -/
theorem relational_operators_consistent [LinearOrder α] (a b : SimpleVector α)
    (ha : WF a) (hb : WF b) :
    ∃ lt eq gt, opLt a b = some lt ∧ opEq a b = some eq ∧ opGt a b = some gt ∧
      opGt a b = opLt b a ∧
      opLe a b = some (lt || eq) ∧
      opGe a b = some (gt || eq) ∧
      opNe a b = some (!eq) ∧
      ((lt = true ∨ eq = true ∨ gt = true) ∧ ¬(lt = true ∧ eq = true) ∧
        ¬(lt = true ∧ gt = true) ∧ ¬(eq = true ∧ gt = true)) := by
  obtain ⟨lt, hlt, ilt⟩ := opLt_spec a b ha hb
  obtain ⟨gt, hgt, igt⟩ := opLt_spec b a hb ha
  obtain ⟨eq, heq, ieq⟩ := opEq_spec a b ha hb
  have htri := list_lt_trichotomy (elems a) (elems b)
  rw [← ilt, ← igt, ← ieq] at htri
  refine ⟨lt, eq, gt, hlt, heq, hgt, rfl, ?_, ?_, ?_, htri⟩
  · simp only [opLe, hgt, Option.map_some', Option.some.injEq]
    revert htri; cases lt <;> cases eq <;> cases gt <;> simp
  · simp only [opGe, hlt, Option.map_some', Option.some.injEq]
    revert htri; cases lt <;> cases eq <;> cases gt <;> simp
  · simp only [opNe, heq, Option.map_some']

theorem relational_operators_consistent_witness :
    WF (⟨[1, 2, 3], 3, 3⟩ : SimpleVector Nat) ∧ WF (⟨[1, 2, 4, 9], 3, 4⟩ : SimpleVector Nat) ∧
    opGe (⟨[1, 2, 3], 3, 3⟩ : SimpleVector Nat) ⟨[1, 2, 3], 3, 3⟩ = some true ∧
    ∃ lt eq gt, opLt (⟨[1, 2, 3], 3, 3⟩ : SimpleVector Nat) ⟨[1, 2, 4, 9], 3, 4⟩ = some lt ∧
      opEq (⟨[1, 2, 3], 3, 3⟩ : SimpleVector Nat) ⟨[1, 2, 4, 9], 3, 4⟩ = some eq ∧
      opGt (⟨[1, 2, 3], 3, 3⟩ : SimpleVector Nat) ⟨[1, 2, 4, 9], 3, 4⟩ = some gt ∧
      opLe (⟨[1, 2, 3], 3, 3⟩ : SimpleVector Nat) ⟨[1, 2, 4, 9], 3, 4⟩ = some (lt || eq) ∧
      opGe (⟨[1, 2, 3], 3, 3⟩ : SimpleVector Nat) ⟨[1, 2, 4, 9], 3, 4⟩ = some (gt || eq) := by
  refine ⟨by decide, by decide, by decide, ?_⟩
  obtain ⟨lt, eq, gt, h1, h2, h3, _, h5, h6, _⟩ := relational_operators_consistent
    (⟨[1, 2, 3], 3, 3⟩ : SimpleVector Nat) ⟨[1, 2, 4, 9], 3, 4⟩ (by decide) (by decide)
  exact ⟨lt, eq, gt, h1, h2, h3, h5, h6⟩

theorem PushBack_spec (fresh : Nat → α) (v : SimpleVector α) (x : α) (hwf : WF v) :
    ∃ w, PushBack fresh v x = some w ∧ w.size_ = v.size_ + 1 ∧ elems w = elems v ++ [x] ∧
      WF w ∧
      w.capacity_ = (if v.size_ + 1 ≤ v.capacity_ then v.capacity_
        else if v.capacity_ = 0 then 2 else 2 * v.capacity_) := by
  have hwf1 := hwf
  obtain ⟨hlen, hle⟩ := hwf
  by_cases hfull : v.size_ + 1 > v.capacity_
  · have hg := grownCapacity_of_full v hle hfull
    have h := PushBack_grow_eq fresh v x hwf1 hfull
    refine ⟨_, h, rfl, ?_, ⟨PushBack_block _ _ _ _ hlen h, PushBack_size_le _ _ _ _ hle h⟩, ?_⟩
    · simp only [elems]
      exact take_prefix_append_cons _ _ _ _ (by omega)
    · rw [if_neg (by omega)]
      exact hg.2
  · have hroom : v.size_ + 1 ≤ v.capacity_ := by omega
    have h := PushBack_inplace_eq fresh v x hwf1 hroom
    refine ⟨_, h, rfl, ?_, ⟨PushBack_block _ _ _ _ hlen h, PushBack_size_le _ _ _ _ hle h⟩, ?_⟩
    · simp only [elems]
      exact take_succ_set_self _ _ _ (by omega)
    · rw [if_pos hroom]

theorem ctorCopy_spec (fresh : Nat → α) (s : SimpleVector α) (hs : WF s)
    (h31 : s.size_ < 2147483648) :
    ctorCopy fresh s = some ⟨elems s, s.size_, s.size_⟩ ∧
      WF (⟨elems s, s.size_, s.size_⟩ : SimpleVector α) ∧
      elems (⟨elems s, s.size_, s.size_⟩ : SimpleVector α) = elems s := by
  have hle : s.size_ ≤ s.items_.length := by rw [hs.1]; exact hs.2
  refine ⟨ctorCopy_eq fresh s hle h31, ⟨elems_length s hs, Nat.le_refl _⟩, ?_⟩
  simp only [elems, List.take_take, Nat.min_self]

end SimpleVector

/-! ## Objects in memory behave as their vectors in the block model -/

namespace Memory

variable {α : Type}

theorem lt_of_getElem?_eq_some {β : Type} {l : List β} {i : Nat} {x : β}
    (h : l[i]? = some x) : i < l.length := by
  obtain ⟨hlt, _⟩ := List.getElem?_eq_some.mp h
  exact hlt

theorem block_of_getElem? (heap : List (Option (List α))) (a : Nat) (b : List α)
    (h : heap[a]? = some (some b)) : block heap (some a) = some b := by
  simp only [block, h]

theorem block_none (heap : List (Option (List α))) : block heap none = some [] := rfl

theorem setBlock_none (heap : List (Option (List α))) (b : List α) :
    setBlock heap none b = heap := rfl

theorem block_some {heap : List (Option (List α))} {a : Nat} {b : List α}
    (h : block heap (some a) = some b) : a < heap.length ∧ heap[a]? = some (some b) := by
  simp only [block] at h
  split at h
  · next b1 hx =>
    cases h
    exact ⟨lt_of_getElem?_eq_some hx, hx⟩
  · cases h

theorem block_append (heap : List (Option (List α))) (x : Option (List α)) (p : Option Nat)
    (b : List α) (h : block heap p = some b) : block (heap ++ [x]) p = some b := by
  cases p with
  | none => exact h
  | some a =>
    obtain ⟨hlt, hget⟩ := block_some h
    exact block_of_getElem? _ _ _ (by rw [List.getElem?_append_left hlt]; exact hget)

theorem block_append_new (heap : List (Option (List α))) (b : List α) :
    block (heap ++ [some b]) (some heap.length) = some b :=
  block_of_getElem? _ _ _ (List.getElem?_concat_length _ _)

theorem block_setBlock_self (heap : List (Option (List α))) (a : Nat) (b0 b : List α)
    (h : block heap (some a) = some b0) : block (setBlock heap (some a) b) (some a) = some b := by
  obtain ⟨hlt, _⟩ := block_some h
  exact block_of_getElem? _ _ _ (List.getElem?_set_self hlt)

theorem block_setBlock_of_ne (heap : List (Option (List α))) (p q : Option Nat) (b : List α)
    (hne : q = none ∨ q ≠ p) : block (setBlock heap p b) q = block heap q := by
  cases p with
  | none => rfl
  | some a =>
    cases q with
    | none => rfl
    | some a1 =>
      have hne1 : a ≠ a1 := by
        rcases hne with h | h
        · cases h
        · intro e; exact h (by rw [e])
      simp only [block, setBlock, List.getElem?_set_ne hne1]

theorem release_of_block (heap : List (Option (List α))) (p : Option Nat) (b : List α)
    (h : block heap p = some b) :
    ∃ heap1, release heap p = some heap1 ∧ heap1.length = heap.length ∧
      ∀ q, (q = none ∨ q ≠ p) → block heap1 q = block heap q := by
  cases p with
  | none => exact ⟨heap, rfl, rfl, fun _ _ => rfl⟩
  | some a =>
    obtain ⟨hlt, hget⟩ := block_some h
    refine ⟨heap.set a none, by simp only [release, hget], List.length_set _ _ _, ?_⟩
    intro q hq
    cases q with
    | none => rfl
    | some a1 =>
      have hne1 : a ≠ a1 := by
        rcases hq with h1 | h1
        · cases h1
        · intro e; exact h1 (by rw [e])
      simp only [block, List.getElem?_set_ne hne1]

theorem ne_of_block_of_fresh (heap : List (Option (List α))) (p q : Option Nat) (b : List α)
    (h : block heap q = some b) (hp : p = none ∨ p = some heap.length) :
    q = none ∨ q ≠ p := by
  cases q with
  | none => exact Or.inl rfl
  | some a =>
    right
    obtain ⟨hlt, _⟩ := block_some h
    rcases hp with hp | hp
    · rw [hp]; exact fun e => Option.noConfusion e
    · rw [hp]
      intro e
      cases e
      omega

/-- Copy construction in memory computes the copy of the block model, in a block at an
address that was not in use, and leaves every block of the free store as it was. -/
theorem copyConstruct_of_ctorCopy (fresh : Nat → α) (heap : List (Option (List α)))
    (o : Object) (b : List α) (c : SimpleVector α) (hb : block heap o.raw_ptr_ = some b)
    (hc : SimpleVector.ctorCopy fresh ⟨b, o.size_, o.capacity_⟩ = some c) :
    ∃ heap1 p, copyConstruct fresh heap o = some (heap1, ⟨p, c.size_, c.capacity_⟩) ∧
      block heap1 p = some c.items_ ∧ (p = none ∨ p = some heap.length) ∧
      heap.length ≤ heap1.length ∧
      ∀ q b1, block heap q = some b1 → block heap1 q = some b1 := by
  simp only [SimpleVector.ctorCopy, SimpleVector.GetSize, SimpleVector.begin_,
    SimpleVector.end_, Option.bind_eq_bind, Option.bind_eq_some, Option.pure_def] at hc
  obtain ⟨items, ha, ⟨items1, it⟩, hcp, hc⟩ := hc
  cases hc
  unfold arrayPtrOfSize at ha
  by_cases h0 : toInt o.size_ = 0
  · rw [if_pos h0] at ha
    cases ha
    have hl := stdCopy_length _ _ _ _ _ _ _ hcp
    have hnil : items1 = [] := List.eq_nil_of_length_eq_zero (by simpa using hl)
    subst hnil
    refine ⟨heap, none, ?_, rfl, Or.inl rfl, Nat.le_refl _, fun _ _ h => h⟩
    simp only [copyConstruct, arrayPtr, h0, if_true, Option.bind_eq_bind, Option.some_bind, hb,
      block_none, hcp, Option.pure_def, setBlock_none]
  · rw [if_neg h0] at ha
    by_cases h1 : toInt o.size_ < 0
    · rw [if_pos h1] at ha; cases ha
    · rw [if_neg h1] at ha
      cases ha
      have hl := stdCopy_length _ _ _ _ _ _ _ hcp
      refine ⟨heap ++ [some items1], some heap.length, ?_, block_append_new _ _, Or.inr rfl,
        by simp, fun q b1 h => block_append _ _ _ _ h⟩
      simp only [copyConstruct, arrayPtr, h0, if_false, h1, Option.bind_eq_bind,
        Option.some_bind, block_append _ _ _ _ hb, block_append_new, hcp, Option.pure_def,
        setBlock, List.length_append, List.length_singleton]
      simp

theorem view_some {m : Memory α} {i : Nat} {v : SimpleVector α} (h : m.view i = some v) :
    ∃ o, m.objects[i]? = some o ∧ block m.heap o.raw_ptr_ = some v.items_ ∧
      o.size_ = v.size_ ∧ o.capacity_ = v.capacity_ := by
  simp only [view, Option.bind_eq_bind, Option.bind_eq_some, Option.pure_def,
    Option.some.injEq] at h
  obtain ⟨o, ho, b, hb, h⟩ := h
  subst h
  exact ⟨o, ho, hb, rfl, rfl⟩

theorem view_of (heap : List (Option (List α))) (objects : List Object) (i : Nat) (o : Object)
    (b : List α) (ho : objects[i]? = some o) (hb : block heap o.raw_ptr_ = some b) :
    view ⟨heap, objects⟩ i = some ⟨b, o.size_, o.capacity_⟩ := by
  simp only [view, ho, hb, Option.bind_eq_bind, Option.some_bind, Option.pure_def]

/-- The statement `SimpleVector<Type> w(v_j);` completes in memory whenever the copy
constructor of the block model does, gives the new object that vector, in a block at an
address that was not in use, and leaves every vector of the program as it was. -/
theorem ctorCopy_view (fresh : Nat → α) (m : Memory α) (j : Nat) (s c : SimpleVector α)
    (hs : m.view j = some s) (hc : SimpleVector.ctorCopy fresh s = some c) :
    ∃ m1 oc, m.ctorCopy fresh j = some m1 ∧ m1.objects = m.objects ++ [oc] ∧
      (oc.raw_ptr_ = none ∨ oc.raw_ptr_ = some m.heap.length) ∧
      m1.view m.objects.length = some c ∧
      ∀ k sk, m.view k = some sk → m1.view k = some sk := by
  obtain ⟨oj, hoj, hbj, hsz, hcap⟩ := view_some hs
  have hc1 : SimpleVector.ctorCopy fresh ⟨s.items_, oj.size_, oj.capacity_⟩ = some c := by
    rw [hsz, hcap]; exact hc
  obtain ⟨heap1, p, hcc, hbp, hp, _, hkeep⟩ :=
    copyConstruct_of_ctorCopy fresh m.heap oj s.items_ c hbj hc1
  refine ⟨⟨heap1, m.objects ++ [⟨p, c.size_, c.capacity_⟩]⟩, ⟨p, c.size_, c.capacity_⟩, ?_, rfl,
    hp, ?_, ?_⟩
  · simp only [ctorCopy, hoj, Option.bind_eq_bind, Option.some_bind, hcc, Option.pure_def]
  · exact view_of _ _ _ _ _ (List.getElem?_concat_length _ _) hbp
  · intro k sk hk
    obtain ⟨ok, hok, hbk, hsk, hck⟩ := view_some hk
    have hlt : k < m.objects.length := lt_of_getElem?_eq_some hok
    have := view_of heap1 (m.objects ++ [⟨p, c.size_, c.capacity_⟩]) k ok sk.items_
      (by rw [List.getElem?_append_left hlt]; exact hok) (hkeep _ _ hbk)
    rw [this, hsk, hck]

/-- The statement `v_i = v_j;` completes in memory whenever the copy constructor of the block
model does, gives `v_i` that vector, in a block at an address that was not in use, and leaves
as it was every vector that does not hold the block `v_i` held. -/
theorem copyAssign_view (fresh : Nat → α) (m : Memory α) (i j : Nat) (oi : Object)
    (s t c : SimpleVector α) (hoi : m.objects[i]? = some oi) (ht : m.view i = some t)
    (hs : m.view j = some s) (hc : SimpleVector.ctorCopy fresh s = some c) :
    ∃ m1 oc, m.copyAssign fresh i j = some m1 ∧ m1.objects = m.objects.set i oc ∧
      (oc.raw_ptr_ = none ∨ oc.raw_ptr_ = some m.heap.length) ∧
      m.heap.length ≤ m1.heap.length ∧
      m1.view i = some c ∧
      ∀ k ok sk, k ≠ i → m.objects[k]? = some ok → m.view k = some sk →
        (ok.raw_ptr_ = none ∨ ok.raw_ptr_ ≠ oi.raw_ptr_) → m1.view k = some sk := by
  obtain ⟨oj, hoj, hbj, hsz, hcap⟩ := view_some hs
  obtain ⟨oi1, hoi1, hbi, _, _⟩ := view_some ht
  rw [hoi] at hoi1
  cases hoi1
  have hc1 : SimpleVector.ctorCopy fresh ⟨s.items_, oj.size_, oj.capacity_⟩ = some c := by
    rw [hsz, hcap]; exact hc
  obtain ⟨heap1, p, hcc, hbp, hp, hlen, hkeep⟩ :=
    copyConstruct_of_ctorCopy fresh m.heap oj s.items_ c hbj hc1
  obtain ⟨heap2, hrel, hlen2, hkeep2⟩ := release_of_block heap1 oi.raw_ptr_ t.items_
    (hkeep _ _ hbi)
  have hlti : i < m.objects.length := lt_of_getElem?_eq_some hoi
  have hpi : p = none ∨ p ≠ oi.raw_ptr_ := by
    rcases hp with hp | hp
    · exact Or.inl hp
    · right
      rw [hp]
      intro e
      rw [← e] at hbi
      have := (block_some hbi).1
      omega
  refine ⟨⟨heap2, m.objects.set i ⟨p, c.size_, c.capacity_⟩⟩, ⟨p, c.size_, c.capacity_⟩, ?_, rfl,
    hp, by show m.heap.length ≤ heap2.length; omega, ?_, ?_⟩
  · simp only [copyAssign, hoi, hoj, Option.bind_eq_bind, Option.some_bind, hcc, hrel,
      Option.pure_def]
  · exact view_of _ _ _ _ _ (List.getElem?_set_self hlti)
      (by rw [hkeep2 p hpi]; exact hbp)
  · intro k ok sk hki hok hk hsep
    obtain ⟨ok1, hok1, hbk, hsk, hck⟩ := view_some hk
    rw [hok] at hok1
    cases hok1
    have := view_of heap2 (m.objects.set i ⟨p, c.size_, c.capacity_⟩) k ok sk.items_
      (by rw [List.getElem?_set_ne (Ne.symm hki)]; exact hok)
      (by rw [hkeep2 _ hsep]; exact hkeep _ _ hbk)
    rw [this, hsk, hck]

/-- The statement `v_i[k] = y;` writes slot `k` of the block of `v_i` and leaves as it was
every vector that does not hold that block. -/
theorem assign_view (m : Memory α) (i k : Nat) (y : α) (oi : Object) (v : SimpleVector α)
    (hoi : m.objects[i]? = some oi) (hv : m.view i = some v) (hk : k < v.size_)
    (hlen : k < v.items_.length) :
    ∃ m2, m.assign i k y = some m2 ∧
      m2.view i = some ⟨v.items_.set k y, v.size_, v.capacity_⟩ ∧
      ∀ j oj sj, m.objects[j]? = some oj → m.view j = some sj →
        (oj.raw_ptr_ = none ∨ oj.raw_ptr_ ≠ oi.raw_ptr_) → m2.view j = some sj := by
  obtain ⟨oi1, hoi1, hbi, hsz, hcap⟩ := view_some hv
  rw [hoi] at hoi1
  cases hoi1
  have hw : writeSlot v.items_ (k : Int) y = some (v.items_.set k y) := writeSlot_of_lt _ _ _ hlen
  have hk1 : k < oi.size_ := by omega
  obtain ⟨a, ha⟩ : ∃ a, oi.raw_ptr_ = some a := by
    cases hp : oi.raw_ptr_ with
    | none =>
      rw [hp] at hbi
      simp only [block, Option.some.injEq] at hbi
      rw [← hbi] at hlen
      simp at hlen
    | some a => exact ⟨a, rfl⟩
  refine ⟨⟨setBlock m.heap oi.raw_ptr_ (v.items_.set k y), m.objects⟩, ?_, ?_, ?_⟩
  · simp only [assign, hoi, Option.bind_eq_bind, Option.some_bind, hk1, if_true, hbi, hw,
      Option.pure_def]
  · have := view_of (setBlock m.heap oi.raw_ptr_ (v.items_.set k y)) m.objects i oi
      (v.items_.set k y) hoi (by rw [ha] at hbi ⊢; exact block_setBlock_self _ _ _ _ hbi)
    rw [this, hsz, hcap]
  · intro j oj sj hoj hj hsep
    obtain ⟨oj1, hoj1, hbj, hsj, hcj⟩ := view_some hj
    rw [hoj] at hoj1
    cases hoj1
    have := view_of (setBlock m.heap oi.raw_ptr_ (v.items_.set k y)) m.objects j oj sj.items_
      hoj (by rw [block_setBlock_of_ne _ _ _ _ hsep]; exact hbj)
    rw [this, hsj, hcj]

/-- The statement `v_i.PushBack(x);` completes in memory whenever `PushBack` of the block model
does, gives `v_i` that vector, and leaves as it was every other vector that does not hold the
block `v_i` held. -/
theorem PushBack_view (fresh : Nat → α) (m : Memory α) (i : Nat) (x : α) (oi : Object)
    (v w : SimpleVector α) (hoi : m.objects[i]? = some oi) (hv : m.view i = some v)
    (hw : SimpleVector.PushBack fresh v x = some w) :
    ∃ m2, m.PushBack fresh i x = some m2 ∧ m2.view i = some w ∧
      ∀ j oj sj, j ≠ i → m.objects[j]? = some oj → m.view j = some sj →
        (oj.raw_ptr_ = none ∨ oj.raw_ptr_ ≠ oi.raw_ptr_) → m2.view j = some sj := by
  obtain ⟨oi1, hoi1, hbi, hsz, hcap⟩ := view_some hv
  rw [hoi] at hoi1
  cases hoi1
  obtain ⟨p, sz, cp⟩ := oi
  dsimp only at hbi hsz hcap ⊢
  subst hsz hcap
  have hlti : i < m.objects.length := lt_of_getElem?_eq_some hoi
  unfold SimpleVector.PushBack at hw
  by_cases hfull : v.size_ + 1 > v.capacity_
  · rw [if_pos hfull] at hw
    simp only [SimpleVector.begin_, SimpleVector.end_, SimpleVector.grownCapacity,
      Option.bind_eq_bind, Option.bind_eq_some, Option.pure_def, Option.some.injEq] at hw
    obtain ⟨⟨buff, it⟩, hcp, buff1, hws, hw⟩ := hw
    subst hw
    have hbn := block_append_new m.heap
      (newBlock fresh ((if v.capacity_ == 0 then v.size_ + 1 else v.size_) * 2))
    have hbs := block_setBlock_self _ _ _ buff1 hbn
    have hbi1 : block (setBlock (m.heap ++
        [some (newBlock fresh ((if v.capacity_ == 0 then v.size_ + 1 else v.size_) * 2))])
        (some m.heap.length) buff1) p = some v.items_ := by
      rw [block_setBlock_of_ne _ _ _ _
        (ne_of_block_of_fresh m.heap (some m.heap.length) _ _ hbi (Or.inr rfl))]
      exact block_append _ _ _ _ hbi
    obtain ⟨heap2, hrel, _, hkeep2⟩ := release_of_block _ p v.items_ hbi1
    have hne : (some m.heap.length = none ∨ some m.heap.length ≠ p) := by
      right
      intro e
      rw [← e] at hbi
      have := (block_some hbi).1
      omega
    refine ⟨⟨heap2, m.objects.set i ⟨some m.heap.length, v.size_ + 1,
      (if v.capacity_ == 0 then v.size_ + 1 else v.size_) * 2⟩⟩, ?_, ?_, ?_⟩
    · simp only [PushBack, hoi, Option.bind_eq_bind, Option.some_bind, gt_iff_lt, hfull,
        if_true, block_append _ _ _ _ hbi, hbn, hcp, hws, hrel, Option.pure_def]
    · exact view_of heap2 _ i _ buff1 (List.getElem?_set_self hlti)
        (by rw [hkeep2 _ hne]; exact hbs)
    · intro j oj sj hji hoj hj hsep
      obtain ⟨oj1, hoj1, hbj, hsj, hcj⟩ := view_some hj
      rw [hoj] at hoj1
      cases hoj1
      have := view_of heap2 (m.objects.set i ⟨some m.heap.length, v.size_ + 1,
        (if v.capacity_ == 0 then v.size_ + 1 else v.size_) * 2⟩) j oj sj.items_
        (by rw [List.getElem?_set_ne (Ne.symm hji)]; exact hoj)
        (by
          rw [hkeep2 _ hsep, block_setBlock_of_ne _ _ _ _
            (ne_of_block_of_fresh m.heap (some m.heap.length) _ _ hbj (Or.inr rfl))]
          exact block_append _ _ _ _ hbj)
      rw [this, hsj, hcj]
  · rw [if_neg hfull] at hw
    simp only [SimpleVector.end_, Option.bind_eq_bind, Option.bind_eq_some, Option.pure_def,
      Option.some.injEq] at hw
    obtain ⟨items, hws, hw⟩ := hw
    subst hw
    obtain ⟨a, ha⟩ : ∃ a, p = some a := by
      cases p with
      | none =>
        simp only [block_none, Option.some.injEq] at hbi
        have := writeSlot_fits hws
        rw [← hbi] at this
        simp at this
        omega
      | some a => exact ⟨a, rfl⟩
    refine ⟨⟨setBlock m.heap p items, m.objects.set i ⟨p, v.size_ + 1, v.capacity_⟩⟩,
      ?_, ?_, ?_⟩
    · simp only [PushBack, hoi, Option.bind_eq_bind, Option.some_bind, gt_iff_lt, hfull,
        if_false, hbi, hws, Option.pure_def]
    · exact view_of (setBlock m.heap p items) _ i _ items (List.getElem?_set_self hlti)
        (by
          show block (setBlock m.heap p items) p = some items
          rw [ha] at hbi ⊢; exact block_setBlock_self _ _ _ _ hbi)
    · intro j oj sj hji hoj hj hsep
      obtain ⟨oj1, hoj1, hbj, hsj, hcj⟩ := view_some hj
      rw [hoj] at hoj1
      cases hoj1
      have := view_of (setBlock m.heap p items) (m.objects.set i ⟨p, v.size_ + 1, v.capacity_⟩)
        j oj sj.items_
        (by rw [List.getElem?_set_ne (Ne.symm hji)]; exact hoj)
        (by rw [block_setBlock_of_ne _ _ _ _ hsep]; exact hbj)
      rw [this, hsj, hcj]

end Memory

theorem stdEqualLoop_of_refl {α : Type} [BEq α] (hrefl : ∀ y : α, (y == y) = true)
    (b1 b2 : List α) (n : Nat) :
    ∀ (f1 f2 : Nat), f1 + n ≤ b1.length → f2 + n ≤ b2.length →
      (b1.drop f1).take n = (b2.drop f2).take n →
      stdEqualLoop n b1 (f1 : Int) b2 (f2 : Int) = some true := by
  induction n with
  | zero => intro f1 f2 _ _ _; rfl
  | succ n ih =>
    intro f1 f2 h1 h2 heq
    have hf1 : f1 < b1.length := by omega
    have hf2 : f2 < b2.length := by omega
    rw [List.drop_eq_getElem_cons hf1, List.drop_eq_getElem_cons hf2, List.take_succ_cons,
      List.take_succ_cons] at heq
    obtain ⟨hhead, htail⟩ := List.cons.inj heq
    simp only [stdEqualLoop, readSlot_of_lt _ _ hf1, readSlot_of_lt _ _ hf2, natCast_succ_int]
    rw [hhead, if_pos (hrefl _)]
    exact ih (f1 + 1) (f2 + 1) (by omega) (by omega) htail

namespace SimpleVector

variable {α : Type}

theorem opEq_of_elems_eq [BEq α] (hrefl : ∀ y : α, (y == y) = true) (a b : SimpleVector α)
    (ha : WF a) (hb : WF b) (h : elems a = elems b) : opEq a b = some true := by
  have hs : a.size_ = b.size_ := ((elems_eq_iff a b ha hb).mp h).1
  have hr := stdEqualLoop_of_refl hrefl a.items_ b.items_ a.size_ 0 0
    (by have := ha.1; have := ha.2; omega) (by have := hb.1; have := hb.2; omega)
    (by
      simp only [List.drop_zero]
      have h1 := h
      simp only [elems] at h1
      rw [h1, hs])
  have h1 := rangeLen_natCast 0 a.size_ (Nat.zero_le _)
  have h2 := rangeLen_natCast 0 b.size_ (Nat.zero_le _)
  simp only [Nat.cast_zero, Nat.sub_zero] at h1 h2 hr
  simp only [opEq, GetSize, hs, beq_self_eq_true, if_true, stdEqual, begin_, end_, h1, h2,
    ne_eq, not_true_eq_false, if_false]
  rw [← hs]
  exact hr

/-! ## Copying -/

/-- C15: move-construction from `s` and move-assignment of `s` to a distinct target both leave
the target with the size, capacity and elements of `s` (indeed with its block) and leave `s`
with `GetSize() == 0` and `GetCapacity() == 0`. -/
theorem move_transfers_and_resets [Inhabited α] (s t : SimpleVector α) :
    ((ctorMove s).1 = s ∧ (ctorMove s).1.GetSize = s.GetSize ∧
      (ctorMove s).1.GetCapacity = s.GetCapacity ∧ elems (ctorMove s).1 = elems s ∧
      (ctorMove s).2.GetSize = 0 ∧ (ctorMove s).2.GetCapacity = 0) ∧
    ((moveAssign t s).1 = s ∧ (moveAssign t s).1.GetSize = s.GetSize ∧
      (moveAssign t s).1.GetCapacity = s.GetCapacity ∧ elems (moveAssign t s).1 = elems s ∧
      (moveAssign t s).2.GetSize = 0 ∧ (moveAssign t s).2.GetCapacity = 0) ∧
    run [.ctorMove 0] [s] = some [⟨[], 0, 0⟩, s] ∧
    run [.moveAssign 1 0] [s, t] = some [⟨[], 0, 0⟩, s] := by
  cases s with
  | mk items size capacity =>
    refine ⟨⟨rfl, rfl, rfl, rfl, rfl, rfl⟩, ⟨rfl, rfl, rfl, rfl, rfl, rfl⟩, ?_, ?_⟩
    · simp [run, step, ctorMove]
    · simp [run, step, moveAssign]

theorem PushBackMove_eq_PushBack (fresh : Nat → α) (mv : α → α) (v : SimpleVector α) (x : α)
    (hwf : WF v) : PushBackMove fresh mv v x = PushBack fresh v x := by
  by_cases hfull : v.size_ + 1 > v.capacity_
  · rw [PushBackMove_grow_eq fresh mv v x hwf hfull, PushBack_grow_eq fresh v x hwf hfull]
  · have hroom : v.size_ + 1 ≤ v.capacity_ := by omega
    rw [PushBackMove_inplace_eq fresh mv v x hwf hroom, PushBack_inplace_eq fresh v x hwf hroom]

theorem pushBackLoop_congr (fresh : Nat → α)
    (push : SimpleVector α → α → Option (SimpleVector α))
    (hpush : ∀ v x, WF v → push v x = PushBack fresh v x) (xs : List α) :
    ∀ v, WF v → pushBackLoop push v xs = pushBackLoop (PushBack fresh) v xs := by
  induction xs with
  | nil => intro v _; rfl
  | cons x xs ih =>
    intro v hv
    obtain ⟨w, hw, _, _, hwfw, _⟩ := PushBack_spec fresh v x hv
    simp only [pushBackLoop, hpush v x hv, hw, ih w hwfw]

theorem pushBackLoop_with_room (fresh : Nat → α) (xs : List α) :
    ∀ v, WF v → v.size_ + xs.length ≤ v.capacity_ →
      ∃ w, pushBackLoop (PushBack fresh) v xs = some (w, 0) ∧ WF w ∧
        w.size_ = v.size_ + xs.length ∧ w.capacity_ = v.capacity_ ∧
        elems w = elems v ++ xs := by
  induction xs with
  | nil => intro v hv _; exact ⟨v, rfl, hv, rfl, rfl, by simp⟩
  | cons x xs ih =>
    intro v hv hroom
    simp only [List.length_cons] at hroom
    obtain ⟨w, hw, hsz, hel, hwfw, hcap⟩ := PushBack_spec fresh v x hv
    rw [if_pos (by omega)] at hcap
    obtain ⟨u, hu, hwfu, husz, hucap, huel⟩ := ih w hwfw (by omega)
    refine ⟨u, ?_, hwfu, ?_, ?_, ?_⟩
    · simp only [pushBackLoop, hw, hu, GetCapacity, hcap, ne_eq, not_true_eq_false, if_false,
        Nat.add_zero]
    · rw [husz, hsz, List.length_cons]; omega
    · rw [hucap, hcap]
    · rw [huel, hel, List.append_assoc]; rfl

/-! ## Reserving, then appending -/

theorem pushBackLoop_doubling (fresh : Nat → α) (xs : List α) :
    ∀ (v : SimpleVector α) (j : Nat), WF v → 1 ≤ v.size_ → v.capacity_ = 2 ^ j →
      (v.capacity_ < 2 * v.size_ ∨ v.capacity_ = 2) →
      ∃ w k, pushBackLoop (PushBack fresh) v xs = some (w, k) ∧ WF w ∧
        w.size_ = v.size_ + xs.length ∧ w.capacity_ = 2 ^ (j + k) ∧
        (w.capacity_ < 2 * w.size_ ∨ w.capacity_ = 2) ∧ elems w = elems v ++ xs := by
  induction xs with
  | nil => intro v j hv _ hc ht; exact ⟨v, 0, rfl, hv, rfl, hc, ht, by simp⟩
  | cons x xs ih =>
    intro v j hv hs hc ht
    obtain ⟨w, hw, hsz, hel, hwfw, hcap⟩ := PushBack_spec fresh v x hv
    have hle := hv.2
    by_cases hroom : v.size_ + 1 ≤ v.capacity_
    · rw [if_pos hroom] at hcap
      obtain ⟨u, k, hu, hwfu, husz, hucap, hut, huel⟩ := ih w j hwfw (by omega)
        (by rw [hcap]; exact hc) (by rw [hcap, hsz]; omega)
      refine ⟨u, k, ?_, hwfu, ?_, hucap, hut, ?_⟩
      · simp only [pushBackLoop, hw, hu, GetCapacity, hcap, ne_eq, not_true_eq_false, if_false,
          Nat.add_zero]
      · rw [husz, hsz, List.length_cons]; omega
      · rw [huel, hel, List.append_assoc]; rfl
    · rw [if_neg hroom, if_neg (by omega)] at hcap
      obtain ⟨u, k, hu, hwfu, husz, hucap, hut, huel⟩ := ih w (j + 1) hwfw (by omega)
        (by rw [hcap, hc, Nat.pow_succ]; omega) (by rw [hcap, hsz]; omega)
      refine ⟨u, k + 1, ?_, hwfu, ?_, ?_, hut, ?_⟩
      · have hne : w.capacity_ ≠ v.capacity_ := by omega
        simp only [pushBackLoop, hw, hu, GetCapacity, ne_eq, hne, not_false_eq_true, if_true]
      · rw [husz, hsz, List.length_cons]; omega
      · rw [hucap]; congr 1; omega
      · rw [huel, hel, List.append_assoc]; rfl

theorem pushBackLoop_from_empty (fresh : Nat → α) (x : α) (xs : List α) :
    ∃ w k, pushBackLoop (PushBack fresh) (ctorDefault : SimpleVector α) (x :: xs)
        = some (w, k + 1) ∧ WF w ∧
      w.size_ = xs.length + 1 ∧ w.capacity_ = 2 ^ (k + 1) ∧
      (w.capacity_ < 2 * w.size_ ∨ w.capacity_ = 2) ∧ elems w = x :: xs := by
  have hwf0 : WF (ctorDefault : SimpleVector α) := ⟨rfl, Nat.le_refl _⟩
  obtain ⟨v1, hv1, hsz, hel, hwf1, hcap⟩ := PushBack_spec fresh ctorDefault x hwf0
  simp only [ctorDefault] at hsz hcap hel
  have hcap2 : v1.capacity_ = 2 := by simpa using hcap
  obtain ⟨w, k, hw, hwfw, hwsz, hwcap, hwt, hwel⟩ := pushBackLoop_doubling fresh xs v1 1 hwf1
    (by omega) (by rw [hcap2]; rfl) (Or.inr hcap2)
  refine ⟨w, k, ?_, hwfw, ?_, ?_, hwt, ?_⟩
  · have hne : v1.capacity_ ≠ (ctorDefault : SimpleVector α).capacity_ := by
      rw [hcap2]; simp [ctorDefault]
    simp only [pushBackLoop, hv1, hw, GetCapacity, ne_eq, hne, not_false_eq_true, if_true]
  · rw [hwsz, hsz]; omega
  · rw [hwcap]; congr 1; omega
  · rw [hwel, hel]; simp [elems]

/-! ## Appending to an empty vector -/

/-- C17: appending `N ≥ 1` values to a default-constructed vector with either `PushBack`
overload returns a vector of size `N` holding the values in order; the number `k` of calls
that reallocate satisfies `k ≤ log₂ N + 1`, and the final capacity is `2 ^ k`, the smallest
power of two that is at least `max N 2`. -/
theorem pushBack_reallocates_logarithmically (fresh : Nat → α) (mv : α → α) (xs : List α)
    (hN : 1 ≤ xs.length) :
    ∃ w k, pushBackLoop (PushBack fresh) ctorDefault xs = some (w, k) ∧
      pushBackLoop (PushBackMove fresh mv) ctorDefault xs = some (w, k) ∧
      w.GetSize = xs.length ∧ elems w = xs ∧
      k ≤ Nat.log 2 xs.length + 1 ∧
      w.GetCapacity = 2 ^ k ∧ max xs.length 2 ≤ 2 ^ k ∧
      ∀ i, max xs.length 2 ≤ 2 ^ i → 2 ^ k ≤ 2 ^ i := by
  cases xs with
  | nil => simp at hN
  | cons x xs =>
    obtain ⟨w, k, hw, hwf, hsz, hcap, ht, hel⟩ := pushBackLoop_from_empty fresh x xs
    have hle : w.size_ ≤ w.capacity_ := hwf.2
    have hpow : 2 ^ (k + 1) = 2 * 2 ^ k := by rw [Nat.pow_succ]; omega
    have hhalf : 2 ^ k < max (xs.length + 1) 2 := by
      rcases ht with h | h
      · have : 2 ^ k < xs.length + 1 := by omega
        exact lt_of_lt_of_le this (le_max_left _ _)
      · have : 2 ^ k < 2 := by omega
        exact lt_of_lt_of_le this (le_max_right _ _)
    refine ⟨w, k + 1, hw, ?_, ?_, hel, ?_, hcap, ?_, ?_⟩
    · rw [pushBackLoop_congr fresh (PushBackMove fresh mv)
        (fun v x hv => PushBackMove_eq_PushBack fresh mv v x hv) _ _ ⟨rfl, Nat.le_refl _⟩]
      exact hw
    · simp only [GetSize, hsz, List.length_cons]
    · simp only [List.length_cons]
      rcases ht with h | h
      · have h2 : 2 ^ k ≤ xs.length + 1 := by omega
        have := Nat.le_log_of_pow_le (by omega : 1 < 2) h2
        omega
      · have hk : k = 0 := by
          rcases Nat.eq_zero_or_pos k with h0 | h0
          · exact h0
          · have : 2 ^ 1 ≤ 2 ^ k := Nat.pow_le_pow_right (by omega) h0
            omega
        omega
    · simp only [List.length_cons]
      apply max_le
      · omega
      · have : 1 ≤ 2 ^ k := Nat.one_le_two_pow
        omega
    · intro i hi
      simp only [List.length_cons] at hi
      by_contra hcon
      have hik : i ≤ k := by
        by_contra h
        exact hcon (Nat.pow_le_pow_right (by omega) (by omega))
      have : 2 ^ i ≤ 2 ^ k := Nat.pow_le_pow_right (by omega) hik
      omega

theorem pushBack_reallocates_logarithmically_witness :
    1 ≤ ([1, 2, 3, 4, 5] : List Nat).length ∧
    pushBackLoop (PushBack (fun _ => 0)) (ctorDefault : SimpleVector Nat) [1, 2, 3, 4, 5]
      = some (⟨[1, 2, 3, 4, 5, 0, 0, 0], 5, 8⟩, 3) ∧
    ∃ w k, pushBackLoop (PushBack (fun _ => 0)) (ctorDefault : SimpleVector Nat) [1, 2, 3, 4, 5]
        = some (w, k) ∧
      w.GetSize = 5 ∧ elems w = [1, 2, 3, 4, 5] ∧ k ≤ Nat.log 2 5 + 1 ∧
      w.GetCapacity = 2 ^ k := by
  refine ⟨by decide, by decide, ?_⟩
  obtain ⟨w, k, h1, _, h3, h4, h5, h6, _⟩ := pushBack_reallocates_logarithmically
    (fun _ => (0 : Nat)) id [1, 2, 3, 4, 5] (by decide)
  exact ⟨w, k, h1, h3, h4, h5, h6⟩

/-- On a vector of capacity 0 both `Insert` overloads leave the capacity at 2: the growth rule
is `(capacity_ == 0 ? size_ + 1 : size_) * 2`. -/
theorem Insert_capacity_zero (fresh : Nat → α) (mv : α → α) (v : SimpleVector α) (x : α)
    (hwf : WF v) (hcap : v.GetCapacity = 0) :
    ∃ w, Insert fresh v 0 x = .returned w 0 ∧ InsertMove fresh mv v 0 x = .returned w 0 ∧
      w.GetSize = 1 ∧ w.GetCapacity = 2 ∧ elems w = [x] := by
  have hs : v.size_ = 0 := by have := hwf.2; simp only [GetCapacity] at hcap; omega
  simp only [GetCapacity] at hcap
  have hfull : v.size_ + 1 > v.capacity_ := by omega
  have hg : grownCapacity v = 2 := by simp [grownCapacity, hcap, hs]
  have h1 := Insert_grow_eq fresh v 0 x hwf hfull (Nat.zero_le _) (by rw [hg]; decide)
  have h2 := InsertMove_grow_eq fresh mv v 0 x hwf hfull (Nat.zero_le _) (by rw [hg]; decide)
  simp only [Nat.cast_zero] at h1 h2
  refine ⟨_, h1, h2, ?_, ?_, ?_⟩
  · simp only [GetSize, hs]
  · simp only [GetCapacity, hg]
  · simp [elems, hs]

theorem Insert_capacity_zero_witness :
    WF (ctorDefault : SimpleVector Nat) ∧
    ∃ w, Insert (fun _ => 0) (ctorDefault : SimpleVector Nat) 0 7 = .returned w 0 ∧
      w.GetSize = 1 ∧ w.GetCapacity = 2 := by
  refine ⟨by decide, ?_⟩
  obtain ⟨w, h1, _, h3, h4, _⟩ := Insert_capacity_zero (fun _ => (0 : Nat)) id ctorDefault 7
    (by decide) rfl
  exact ⟨w, h1, h3, h4⟩

/-! ## Inserting into a vector of capacity 0 -/

/-- C18 (growth rule of `Insert`): on a default-constructed vector, `Insert(begin(), 7)` by
copy and by transfer return a vector of size 1 and capacity 2, where the comment on `Insert`
asks for capacity 1. -/
theorem Insert_capacity_zero_defect :
    Insert (fun _ => 0) (ctorDefault : SimpleVector Nat) 0 7 = .returned ⟨[7, 0], 1, 2⟩ 0 ∧
    InsertMove (fun _ => 0) id (ctorDefault : SimpleVector Nat) 0 7
      = .returned ⟨[7, 0], 1, 2⟩ 0 ∧
    GetCapacity (⟨[7, 0], 1, 2⟩ : SimpleVector Nat) = 2 ∧
    GetSize (⟨[7, 0], 1, 2⟩ : SimpleVector Nat) = 1 := by
  refine ⟨?_, ?_, ?_, ?_⟩ <;> decide

/-! ## Construction -/

end SimpleVector

/-! ## The recorded accesses are those of the loops -/

theorem readSlot_isSome_iff {α : Type} (b : List α) (k : Int) :
    (readSlot b k).isSome ↔ 0 ≤ k ∧ k < b.length := by
  unfold readSlot
  by_cases h : 0 ≤ k
  · rw [if_pos h]
    constructor
    · intro hs
      obtain ⟨x, hx⟩ := Option.isSome_iff_exists.mp hs
      have := (List.getElem?_eq_some_iff.mp hx).1
      omega
    · rintro ⟨_, hlt⟩
      rw [List.getElem?_eq_getElem (by omega)]
      rfl
  · rw [if_neg h]
    simp [h]

theorem writeSlot_isSome_iff {α : Type} (b : List α) (k : Int) (x : α) :
    (writeSlot b k x).isSome ↔ 0 ≤ k ∧ k < b.length := by
  unfold writeSlot
  by_cases h : 0 ≤ k ∧ k.toNat < b.length
  · rw [if_pos h]
    simp only [Option.isSome_some, true_iff]
    omega
  · rw [if_neg h]
    simp only [Option.isSome_none, Bool.false_eq_true, false_iff]
    omega

theorem stdCopyBackwardLoop_isSome_iff {α : Type} (n : Nat) :
    ∀ (b : List α) (last dLast : Int),
      (stdCopyBackwardLoop n b last dLast).isSome ↔
        ∀ a ∈ stdCopyBackwardAccesses n last dLast, 0 ≤ a.slot ∧ a.slot < b.length := by
  induction n with
  | zero => intro b last dLast; simp [stdCopyBackwardLoop, stdCopyBackwardAccesses]
  | succ n ih =>
    intro b last dLast
    simp only [stdCopyBackwardLoop, stdCopyBackwardAccesses, List.mem_cons, forall_eq_or_imp,
      Access.slot]
    rw [← readSlot_isSome_iff]
    cases hr : readSlot b (last - 1) with
    | none => simp
    | some x =>
      simp only [Option.isSome_some, true_and]
      rw [← writeSlot_isSome_iff b (dLast - 1) x]
      cases hw : writeSlot b (dLast - 1) x with
      | none => simp
      | some b1 =>
        simp only [Option.isSome_some, true_and]
        rw [ih b1 (last - 1) (dLast - 1), writeSlot_length hw]
        exact Iff.rfl

theorem stdMoveBackwardLoop_isSome_iff {α : Type} (mv : α → α) (n : Nat) :
    ∀ (b : List α) (last dLast : Int),
      (stdMoveBackwardLoop mv n b last dLast).isSome ↔
        ∀ a ∈ stdMoveBackwardAccesses n last dLast, 0 ≤ a.slot ∧ a.slot < b.length := by
  induction n with
  | zero => intro b last dLast; simp [stdMoveBackwardLoop, stdMoveBackwardAccesses]
  | succ n ih =>
    intro b last dLast
    simp only [stdMoveBackwardLoop, stdMoveBackwardAccesses, List.mem_cons, forall_eq_or_imp,
      Access.slot]
    rw [← readSlot_isSome_iff]
    cases hr : readSlot b (last - 1) with
    | none => simp
    | some x =>
      have hin := (readSlot_isSome_iff b (last - 1)).mp (by rw [hr]; rfl)
      simp only [Option.isSome_some, true_and]
      rw [← writeSlot_isSome_iff b (dLast - 1) x]
      cases hw : writeSlot b (dLast - 1) x with
      | none => simp
      | some b1 =>
        have hw2 : (writeSlot b1 (last - 1) (mv x)).isSome :=
          (writeSlot_isSome_iff b1 (last - 1) (mv x)).mpr (by rw [writeSlot_length hw]; exact hin)
        obtain ⟨b2, hb2⟩ := Option.isSome_iff_exists.mp hw2
        simp only [Option.isSome_some, true_and, hb2]
        rw [ih b2 (last - 1) (dLast - 1), writeSlot_length hb2, writeSlot_length hw]
        exact Iff.rfl

theorem stdCopyBackwardAccesses_last_read (n : Nat) :
    ∀ (last dLast : Int),
      Access.read (last - ((n + 1 : Nat) : Int)) ∈ stdCopyBackwardAccesses (n + 1) last dLast := by
  induction n with
  | zero =>
    intro last dLast
    simp [stdCopyBackwardAccesses]
  | succ n ih =>
    intro last dLast
    rw [stdCopyBackwardAccesses]
    refine List.mem_cons_of_mem _ (List.mem_cons_of_mem _ ?_)
    have e : last - ((n + 1 + 1 : Nat) : Int) = (last - 1) - ((n + 1 : Nat) : Int) := by
      push_cast; omega
    rw [e]
    exact ih (last - 1) (dLast - 1)

theorem stdMoveBackwardAccesses_last_move (n : Nat) :
    ∀ (last dLast : Int),
      Access.moveFrom (last - ((n + 1 : Nat) : Int))
        ∈ stdMoveBackwardAccesses (n + 1) last dLast := by
  induction n with
  | zero =>
    intro last dLast
    simp [stdMoveBackwardAccesses]
  | succ n ih =>
    intro last dLast
    rw [stdMoveBackwardAccesses]
    refine List.mem_cons_of_mem _ (List.mem_cons_of_mem _ ?_)
    have e : last - ((n + 1 + 1 : Nat) : Int) = (last - 1) - ((n + 1 : Nat) : Int) := by
      push_cast; omega
    rw [e]
    exact ih (last - 1) (dLast - 1)

namespace SimpleVector

variable {α : Type}

/-- For every position `i ≤ S`, the in-place path of `Insert` by copy reads slot `i - 1` and
the in-place path of `Insert` by transfer moves from slot `i - 1`. -/
theorem insertInplace_touches_slot_before (v : SimpleVector α) (i : Nat) (hi : i ≤ v.GetSize) :
    Access.read ((i : Int) - 1) ∈ insertInplaceAccesses v (i : Int) ∧
    Access.moveFrom ((i : Int) - 1) ∈ insertMoveInplaceAccesses v (i : Int) := by
  simp only [GetSize] at hi
  have hle : (i : Int) - 1 ≤ (v.size_ : Int) := by omega
  have e : ((v.size_ : Int) - ((i : Int) - 1)).toNat = (v.size_ - i) + 1 := by omega
  have e2 : (i : Int) - 1 = (v.size_ : Int) - (((v.size_ - i) + 1 : Nat) : Int) := by
    push_cast; omega
  constructor
  · simp only [insertInplaceAccesses, end_, rangeLen, hle, if_true, e]
    rw [List.mem_append]
    left
    rw [e2]
    exact stdCopyBackwardAccesses_last_read _ _ _
  · simp only [insertMoveInplaceAccesses, end_, rangeLen, hle, if_true, e]
    rw [List.mem_append]
    left
    rw [e2]
    exact stdMoveBackwardAccesses_last_move _ _ _

theorem insertInplace_touches_slot_before_witness :
    (1 : Nat) ≤ GetSize (⟨[1, 2, 3, 0], 3, 4⟩ : SimpleVector Nat) ∧
    Access.read (((1 : Nat) : Int) - 1)
      ∈ insertInplaceAccesses (⟨[1, 2, 3, 0], 3, 4⟩ : SimpleVector Nat) ((1 : Nat) : Int) :=
  ⟨by decide, (insertInplace_touches_slot_before
    (⟨[1, 2, 3, 0], 3, 4⟩ : SimpleVector Nat) 1 (by decide)).1⟩

/-! ## Slots touched by the in-place insertion -/

/-- C20 (in-place path of `Insert`): inserting at index 1 of `[1, 2, 3]` with capacity 4 reads
slot 0, below the position, and by transfer moves from it, so the element at index 0 is lost;
inserting at `begin()` of an empty vector with reserved capacity reads slot `-1`, outside the
block. -/
theorem Insert_inplace_access_defect :
    insertInplaceAccesses (⟨[1, 2, 3, 0], 3, 4⟩ : SimpleVector Nat) 1
      = [.read 2, .write 3, .read 1, .write 2, .read 0, .write 1, .write 1] ∧
    insertMoveInplaceAccesses (⟨[some 1, some 2, some 3, none], 3, 4⟩ : SimpleVector (Option Nat)) 1
      = [.moveFrom 2, .write 3, .moveFrom 1, .write 2, .moveFrom 0, .write 1, .write 1] ∧
    InsertMove (fun _ => none) (fun _ => none)
        (⟨[some 1, some 2, some 3, none], 3, 4⟩ : SimpleVector (Option Nat)) 1 (some 99)
      = .returned ⟨[none, some 99, some 2, some 3], 4, 4⟩ 1 ∧
    ctorReserve (fun _ => 0) id 2 = some (⟨[0, 0], 0, 2⟩ : SimpleVector Nat) ∧
    insertInplaceAccesses (⟨[0, 0], 0, 2⟩ : SimpleVector Nat) 0
      = [.read (-1), .write 0, .write 0] ∧
    Insert (fun _ => 0) (⟨[0, 0], 0, 2⟩ : SimpleVector Nat) 0 5 = .undefined := by
  refine ⟨?_, ?_, ?_, ?_, ?_, ?_⟩ <;> decide

end SimpleVector

end SimpleVec
